import Mathlib

/-!
# VERASER secure-erase engine: shallow embedding of `src/Mount/veraser.c`

The C program is stateful: it talks to a filesystem through system calls.  The
embedding passes an explicit `World` from call to call.  A `World` holds

* the filesystem (`fs`), a flat table from paths to nodes,
* the one open file description the engine works on (`ofile`: path and offset),
* the environment's answers to the fallible calls (`script`, one answer per
  call, `Resp.ok` once the script is used up),
* the bytes the system random source will deliver (`entropy`),
* the log of the calls made so far (`trace`), a ghost field used to state
  ordering properties.

Machine integers are `Int`/`Nat`; bytes are naturals below 256.
-/

namespace Veraser

/-! ## veraser.h -/

/-- Status codes of `ve_status_t`. -/
inductive ve_status_t
  | VE_SUCCESS
  | VE_ERR_INVALID_ARG
  | VE_ERR_IO
  | VE_ERR_PERM
  | VE_ERR_UNSUPPORTED
  | VE_ERR_PARTIAL
  | VE_ERR_INTERNAL
  deriving DecidableEq, Repr

open ve_status_t

/-- Numeric value of a status code, as in the enum. -/
def ve_status_t.toInt : ve_status_t → Int
  | VE_SUCCESS => 0
  | VE_ERR_INVALID_ARG => -1
  | VE_ERR_IO => -2
  | VE_ERR_PERM => -3
  | VE_ERR_UNSUPPORTED => -4
  | VE_ERR_PARTIAL => -5
  | VE_ERR_INTERNAL => -128

/- `ve_algorithm_t`: a C enum, so the field can hold any `int`. -/
def VE_ALG_ZERO : Int := 0
def VE_ALG_RANDOM : Int := 1
def VE_ALG_DOD3 : Int := 2
def VE_ALG_DOD7 : Int := 3
def VE_ALG_NIST : Int := 4
def VE_ALG_GUTMANN : Int := 5
def VE_ALG_SSD : Int := 6

/-- Per-operation configuration `ve_options_t`. -/
structure ve_options_t where
  algorithm : Int
  device_type : Int
  passes : Int
  verify : Int
  trim_mode : Int
  follow_symlinks : Int
  erase_ads : Int
  erase_xattr : Int
  chunk_size : Nat
  threads : Int
  dry_run : Int
  quiet : Int
  deriving DecidableEq, Repr

/-- Default I/O chunk size, 8 MiB. -/
def VE_DEFAULT_CHUNK_SIZE : Nat := 8 * 1024 * 1024

/-! ## The environment -/

/-- A path, as the list of its components; the C string of a path joins them
by `/`. -/
abbrev Path := List String

/-- A filesystem node: a regular file with its bytes, or a directory. -/
inductive Node
  | file (data : List Nat)
  | dir
  deriving DecidableEq, Repr

/-- Conditional-compilation configuration of the build. -/
structure Build where
  win32 : Bool
  linux : Bool
  use_openssl : Bool
  deriving DecidableEq, Repr

/-- One answer of the environment to a fallible call: it succeeds in full, it
fails, or (for read and write) it transfers at most `k` bytes. -/
inductive Resp
  | ok
  | fail
  | short (k : Nat)
  deriving DecidableEq, Repr

/-- The calls the engine makes, as logged in the trace.  The last three are
ghost markers for function entry and return. -/
inductive Event
  | lstat (p : Path)
  | open_rw (p : Path) (ok : Bool)
  | close
  | lseek (ok : Bool)
  | getsize (ok : Bool)
  | setpos (off : Nat)
  | read (off len : Nat)
  | read_failed
  | write (off len : Nat)
  | write_failed
  | fsync (ok : Bool)
  | malloc (ok : Bool)
  | csrand (len : Nat) (ok : Bool)
  | cipher (len : Nat) (ok : Bool)
  | punch_hole
  | unlink (p : Path) (ok : Bool)
  | rmdir (p : Path) (ok : Bool)
  | opendir (p : Path) (ok : Bool)
  | readdir (p : Path) (name : String)
  | closedir (p : Path)
  | stat (p : Path)
  | open_ro (p : Path) (ok : Bool)
  | fitrim (p : Path)
  | erase_single_file (p : Path)
  | walk_enter (p : Path)
  | walk_done (p : Path)
  deriving DecidableEq, Repr

/-- State of the program's environment. -/
structure World where
  build : Build
  aes : List Nat → List Nat → List Nat
  fs : List (Path × Node)
  ofile : Option (Path × Nat)
  script : List Resp
  entropy : List Nat
  trace : List Event

/-- Append one call to the log. -/
def World.emit (w : World) (e : Event) : World :=
  { w with trace := w.trace ++ [e] }

/-- Take the environment's answer to the next fallible call. -/
def World.next (w : World) : Resp × World :=
  match w.script with
  | [] => (Resp.ok, w)
  | r :: rs => (r, { w with script := rs })

/-- Node stored at a path, if any. -/
def fs_lookup : List (Path × Node) → Path → Option Node
  | [], _ => none
  | (q, n) :: rest, p => if q = p then some n else fs_lookup rest p

/-- Remove the entry of a path. -/
def fs_remove (fs : List (Path × Node)) (p : Path) : List (Path × Node) :=
  fs.filter (fun e => decide (e.1 ≠ p))

/-- Replace the bytes of the regular file at a path. -/
def fs_set_data (fs : List (Path × Node)) (p : Path) (d : List Nat) : List (Path × Node) :=
  fs.map (fun e => if e.1 = p then (match e.2 with
    | Node.file _ => (e.1, Node.file d)
    | Node.dir => e) else e)

/-- Names of the entries directly under a directory, each once. -/
def fs_children (fs : List (Path × Node)) (p : Path) : List String :=
  ((fs.filter (fun e => decide (e.1 ≠ [] ∧ e.1.dropLast = p))).map
    (fun e => e.1.getLastD "")).dedup

/-- Bytes of a file after `bytes` are written at offset `pos`; a write past the
end fills the gap with zero bytes. -/
def write_at (d : List Nat) (pos : Nat) (bytes : List Nat) : List Nat :=
  d.take pos ++ List.replicate (pos - d.length) 0 ++ bytes ++ d.drop (pos + bytes.length)

/-- The open file: its path, offset and bytes. -/
def World.file (w : World) : Option (Path × Nat × List Nat) :=
  match w.ofile with
  | none => none
  | some (p, pos) =>
    match fs_lookup w.fs p with
    | some (Node.file d) => some (p, pos, d)
    | _ => none

/-- Bytes of the regular file at a path. -/
def World.data (w : World) (p : Path) : Option (List Nat) :=
  match fs_lookup w.fs p with
  | some (Node.file d) => some d
  | _ => none

/-! ## System calls -/

/-- Model of `lstat`: the kind of node at a path, `none` when the call fails. -/
def sys_lstat (p : Path) (w : World) : Option Node × World :=
  let r := w.next
  match r.1 with
  | Resp.fail => (none, r.2.emit (Event.lstat p))
  | _ => (fs_lookup r.2.fs p, r.2.emit (Event.lstat p))

/-- Model of `open(path, O_RDWR)`: descriptor 3 at offset 0 on a regular file,
-1 otherwise. -/
def sys_open_rw (p : Path) (w : World) : Int × World :=
  let r := w.next
  match r.1, fs_lookup r.2.fs p with
  | Resp.fail, _ => (-1, r.2.emit (Event.open_rw p false))
  | _, some (Node.file _) =>
    (3, { r.2 with ofile := some (p, 0), trace := r.2.trace ++ [Event.open_rw p true] })
  | _, _ => (-1, r.2.emit (Event.open_rw p false))

/-- Model of `close`. -/
def sys_close (_fd : Int) (w : World) : Int × World :=
  (0, { w with ofile := none, trace := w.trace ++ [Event.close] })

/-- Model of `write(fd, buf, n)`: transfers between 0 and `n` bytes of `buf` at
the current offset and advances it, or fails with -1. -/
def sys_write (_fd : Int) (buf : List Nat) (n : Nat) (w : World) : Int × World :=
  let r := w.next
  match r.1, r.2.file with
  | Resp.fail, _ => (-1, r.2.emit Event.write_failed)
  | _, none => (-1, r.2.emit Event.write_failed)
  | a, some (p, pos, d) =>
    let k : Nat := match a with
      | Resp.short k => min k n
      | _ => n
    let w1 : World :=
      { r.2 with
        fs := fs_set_data r.2.fs p (write_at d pos (buf.take k))
        ofile := some (p, pos + k)
        trace := r.2.trace ++ [Event.write pos k] }
    ((k : Int), w1)

/-- Model of `read(fd, buf, n)`: returns between 0 and `n` bytes from the current
offset (0 only at end of file or on a zero-length answer), or fails with -1. -/
def sys_read (_fd : Int) (n : Nat) (w : World) : Int × List Nat × World :=
  let r := w.next
  match r.1, r.2.file with
  | Resp.fail, _ => (-1, [], r.2.emit Event.read_failed)
  | _, none => (-1, [], r.2.emit Event.read_failed)
  | a, some (p, pos, d) =>
    let k : Nat := match a with
      | Resp.short k => min k (min n (d.length - pos))
      | _ => min n (d.length - pos)
    let w1 : World :=
      { r.2 with
        ofile := some (p, pos + k)
        trace := r.2.trace ++ [Event.read pos k] }
    ((k : Int), (d.drop pos).take k, w1)

/-- Whence argument of `lseek`. -/
inductive Whence
  | SEEK_SET
  | SEEK_CUR
  | SEEK_END
  deriving DecidableEq, Repr

/-- Model of `lseek(fd, off, whence)`: the new offset, or -1. -/
def sys_lseek (_fd : Int) (off : Int) (whence : Whence) (w : World) : Int × World :=
  let r := w.next
  match r.1, r.2.file with
  | Resp.fail, _ => (-1, r.2.emit (Event.lseek false))
  | _, none => (-1, r.2.emit (Event.lseek false))
  | _, some (p, pos, d) =>
    let target : Int := match whence with
      | Whence.SEEK_SET => off
      | Whence.SEEK_CUR => pos + off
      | Whence.SEEK_END => d.length + off
    if target < 0 then (-1, r.2.emit (Event.lseek false))
    else (target, { r.2 with ofile := some (p, target.toNat),
                             trace := r.2.trace ++ [Event.lseek true] })

/-- Model of `GetFileSizeEx`: the length of the open file, or failure. -/
def sys_GetFileSizeEx (_fd : Int) (w : World) : Option Nat × World :=
  let r := w.next
  match r.1, r.2.file with
  | Resp.fail, _ => (none, r.2.emit (Event.getsize false))
  | _, none => (none, r.2.emit (Event.getsize false))
  | _, some (_, _, d) => (some d.length, r.2.emit (Event.getsize true))

/-- Model of `SetFilePointerEx(h, off, NULL, FILE_BEGIN)`; the code ignores its
result. -/
def sys_SetFilePointerEx (_fd : Int) (off : Nat) (w : World) : World :=
  match w.ofile with
  | none => w.emit (Event.setpos off)
  | some (p, _) => { w with ofile := some (p, off), trace := w.trace ++ [Event.setpos off] }

/-- Model of `fsync` / `FlushFileBuffers`. -/
def sys_fsync (_fd : Int) (w : World) : Int × World :=
  let r := w.next
  match r.1 with
  | Resp.fail => (-1, r.2.emit (Event.fsync false))
  | _ => (0, r.2.emit (Event.fsync true))

/-- Model of `malloc`: whether the allocation succeeded. -/
def sys_malloc (w : World) : Bool × World :=
  let r := w.next
  match r.1 with
  | Resp.fail => (false, r.2.emit (Event.malloc false))
  | _ => (true, r.2.emit (Event.malloc true))

/-- Model of `unlink` / `DeleteFile`: removes a regular file's entry. -/
def sys_unlink (p : Path) (w : World) : Int × World :=
  let r := w.next
  match r.1, fs_lookup r.2.fs p with
  | Resp.fail, _ => (-1, r.2.emit (Event.unlink p false))
  | _, some (Node.file _) =>
    (0, { r.2 with fs := fs_remove r.2.fs p, trace := r.2.trace ++ [Event.unlink p true] })
  | _, _ => (-1, r.2.emit (Event.unlink p false))

/-- Model of `rmdir` / `RemoveDirectory`: removes a directory that has no entry. -/
def sys_rmdir (p : Path) (w : World) : Int × World :=
  let r := w.next
  match r.1, fs_lookup r.2.fs p with
  | Resp.fail, _ => (-1, r.2.emit (Event.rmdir p false))
  | _, some Node.dir =>
    if fs_children r.2.fs p = [] then
      (0, { r.2 with fs := fs_remove r.2.fs p, trace := r.2.trace ++ [Event.rmdir p true] })
    else (-1, r.2.emit (Event.rmdir p false))
  | _, _ => (-1, r.2.emit (Event.rmdir p false))

/-- Model of `opendir` followed by the `readdir` calls: the names the stream
will deliver (with `.` and `..`), fixed when the directory is opened. -/
def sys_opendir (p : Path) (w : World) : Option (List String) × World :=
  let r := w.next
  match r.1, fs_lookup r.2.fs p with
  | Resp.fail, _ => (none, r.2.emit (Event.opendir p false))
  | _, some Node.dir =>
    (some ("." :: ".." :: fs_children r.2.fs p), r.2.emit (Event.opendir p true))
  | _, _ => (none, r.2.emit (Event.opendir p false))

/-- Model of `stat` as used by the discard hint: the kind of node at a path. -/
def sys_stat (p : Path) (w : World) : Option Node × World :=
  let r := w.next
  match r.1 with
  | Resp.fail => (none, r.2.emit (Event.stat p))
  | _ => (fs_lookup r.2.fs p, r.2.emit (Event.stat p))

/-- Model of `open(path, O_RDONLY)` on a second, short-lived descriptor:
whether it succeeded. -/
def sys_open_ro (p : Path) (w : World) : Bool × World :=
  let r := w.next
  match r.1, fs_lookup r.2.fs p with
  | Resp.fail, _ => (false, r.2.emit (Event.open_ro p false))
  | _, none => (false, r.2.emit (Event.open_ro p false))
  | _, some _ => (true, r.2.emit (Event.open_ro p true))

/-- Model of `fallocate(fd, PUNCH_HOLE | KEEP_SIZE, 0, len)`: on success the
first `len` bytes of the file read as zero and the length is kept. -/
def sys_fallocate_punch (_fd : Int) (len : Nat) (w : World) : Int × World :=
  let r := w.next
  match r.1, r.2.file with
  | Resp.fail, _ => (-1, r.2.emit Event.punch_hole)
  | _, none => (-1, r.2.emit Event.punch_hole)
  | _, some (p, _, d) =>
    let w1 : World :=
      { r.2 with
        fs := fs_set_data r.2.fs p (List.replicate (min len d.length) 0 ++ d.drop len)
        trace := r.2.trace ++ [Event.punch_hole] }
    (0, w1)

/-! ## Library ciphers (OpenSSL EVP, Windows CNG), over the block function `aes` -/

/-- Value of a byte string read as a big-endian integer. -/
def be_to_nat (bs : List Nat) : Nat :=
  bs.foldl (fun acc b => acc * 256 + b % 256) 0

/-- Big-endian encoding of `v` on `n` bytes (the low `8 n` bits of `v`). -/
def nat_to_be : Nat → Nat → List Nat
  | 0, _ => []
  | n + 1, v => nat_to_be n (v / 256) ++ [v % 256]

/-- Keystream of counter mode: block `i` is the encryption of the 128-bit
big-endian counter `iv + i`. -/
def aes_ctr_stream (aes : List Nat → List Nat → List Nat) (key : List Nat) :
    Nat → List Nat → List Nat
  | 0, _ => []
  | n + 1, iv =>
    (aes key iv).take 16 ++
      aes_ctr_stream aes key n (nat_to_be 16 ((be_to_nat iv + 1) % 2 ^ 128))

/-- AES-256-CTR of a buffer with the given key and initial counter. -/
def aes_ctr_xor (aes : List Nat → List Nat → List Nat) (key iv buf : List Nat) : List Nat :=
  List.zipWith Nat.xor buf (aes_ctr_stream aes key ((buf.length + 15) / 16) iv)

/-! ## veraser.c -/

/-- Embedding of `ve_csrand` at its contract: 0 and `len` fresh bytes of the
system source, or -1. -/
def ve_csrand (len : Nat) (w : World) : Int × List Nat × World :=
  let r := w.next
  match r.1 with
  | Resp.fail => (-1, [], r.2.emit (Event.csrand len false))
  | _ =>
    let bytes := (r.2.entropy.take len).map (fun b => b % 256) ++
      List.replicate (len - r.2.entropy.length) 0
    let w1 : World :=
      { r.2 with
        entropy := r.2.entropy.drop len
        trace := r.2.trace ++ [Event.csrand len true] }
    (0, bytes, w1)

/-- Loop of `ve_inc_ctr`: `k` byte positions remain, the current one is
`i = 7 + k`, running from 15 down to 8 while `blocks` is non-zero. -/
def ve_inc_ctr_loop : Nat → List Nat → Nat → List Nat
  | 0, iv, _ => iv
  | k + 1, iv, blocks =>
    if blocks = 0 then iv
    else
      let i := 8 + k
      let sum := (iv.getD i 0 + blocks % 256) % 65536
      ve_inc_ctr_loop k (iv.set i (sum % 256)) ((blocks / 256 + sum / 256) % 2 ^ 64)

/-- Embedding of `ve_inc_ctr(iv, blocks)`. -/
def ve_inc_ctr (iv : List Nat) (blocks : Nat) : List Nat :=
  ve_inc_ctr_loop 8 iv blocks

/-- Result of a cipher helper: return code, buffer and counter afterwards. -/
structure CipherResult where
  rc : Int
  buf : List Nat
  iv : List Nat
  world : World

/-- Loop of `ve_aes_ctr_encrypt_windows`: pieces of at most 1 MiB, each
encrypted from a copy of `iv`, after which `iv` is advanced. -/
def ve_aes_ctr_encrypt_windows_loop (key : List Nat) (len : Nat) :
    Nat → Nat → List Nat → List Nat → World → CipherResult
  | 0, _, buf, iv, w => ⟨0, buf, iv, w⟩
  | fuel + 1, offsetBytes, buf, iv, w =>
    if offsetBytes < len then
      let toProcess := if len - offsetBytes > 2 ^ 20 then 2 ^ 20 else len - offsetBytes
      let r := w.next
      match r.1 with
      | Resp.fail => ⟨-1, buf, iv, r.2.emit (Event.cipher toProcess false)⟩
      | _ =>
        let piece := aes_ctr_xor w.aes key iv ((buf.drop offsetBytes).take toProcess)
        let buf1 := buf.take offsetBytes ++ piece ++ buf.drop (offsetBytes + toProcess)
        let blocks := ((toProcess + 16 - 1) / 16) % 2 ^ 64
        ve_aes_ctr_encrypt_windows_loop key len fuel (offsetBytes + toProcess) buf1
          (ve_inc_ctr iv blocks) (r.2.emit (Event.cipher toProcess true))
    else ⟨0, buf, iv, w⟩

/-- Embedding of `ve_aes_ctr_encrypt_windows`; the provider set-up calls are one
fallible step. -/
def ve_aes_ctr_encrypt_windows (buf : List Nat) (len : Nat) (key iv : List Nat)
    (w : World) : CipherResult :=
  let r := w.next
  match r.1 with
  | Resp.fail => ⟨-1, buf, iv, r.2.emit (Event.cipher 0 false)⟩
  | _ => ve_aes_ctr_encrypt_windows_loop key len len 0 buf iv r.2

/-- Embedding of `ve_aes_ctr_encrypt_openssl`: one `EVP_EncryptInit_ex` with
`key` and `iv`, one `EVP_EncryptUpdate` over the buffer; `iv` is const. -/
def ve_aes_ctr_encrypt_openssl (buf : List Nat) (len : Nat) (key iv : List Nat)
    (w : World) : CipherResult :=
  let r := w.next
  match r.1 with
  | Resp.fail => ⟨-1, buf, iv, r.2.emit (Event.cipher len false)⟩
  | _ =>
    ⟨0, aes_ctr_xor w.aes key iv (buf.take len) ++ buf.drop len, iv,
      r.2.emit (Event.cipher len true)⟩

/-- Embedding of `ve_is_directory` (POSIX branch): 1 when `lstat` succeeds and
reports a directory, else 0. -/
def ve_is_directory (path : Path) (w : World) : Int × World :=
  let r := sys_lstat path w
  match r.1 with
  | some Node.dir => (1, r.2)
  | _ => (0, r.2)

/-- Embedding of `ve_remove_file`. -/
def ve_remove_file (path : Path) (w : World) : Int × World :=
  let r := sys_unlink path w
  if r.1 = 0 then (0, r.2) else (-1, r.2)

/-- Embedding of `ve_remove_empty_dir`. -/
def ve_remove_empty_dir (path : Path) (w : World) : Int × World :=
  let r := sys_rmdir path w
  if r.1 = 0 then (0, r.2) else (-1, r.2)

/-- Loop of `ve_write_pattern_fd`.  The first argument bounds the iterations:
each one transfers at least one byte, so `file_size - total_written` suffices. -/
def ve_write_pattern_loop (fd : Int) (file_size : Nat) (pattern : Nat) :
    Nat → Nat → World → Int × World
  | 0, _, w => (0, w)
  | fuel + 1, total_written, w =>
    if total_written < file_size then
      let to_write_now :=
        if file_size - total_written < VE_DEFAULT_CHUNK_SIZE then file_size - total_written
        else VE_DEFAULT_CHUNK_SIZE
      let r := sys_write fd (List.replicate to_write_now pattern) to_write_now w
      if r.1 ≤ 0 then (-1, r.2)
      else ve_write_pattern_loop fd file_size pattern fuel (total_written + r.1.toNat) r.2
    else (0, w)

/-- Embedding of `ve_write_pattern_fd`: the buffer is `memset` to `pattern`, so
its first `to_write_now` bytes are `to_write_now` copies of it. -/
def ve_write_pattern_fd (fd : Int) (file_size : Nat) (pattern : Nat) (w : World) :
    Int × World :=
  let m := sys_malloc w
  if m.1 = false then (-1, m.2)
  else ve_write_pattern_loop fd file_size pattern file_size 0 m.2

/-- Loop of `ve_write_random_fd`, bounded like the pattern loop. -/
def ve_write_random_loop (fd : Int) (file_size : Nat) :
    Nat → Nat → World → Int × World
  | 0, _, w => (0, w)
  | fuel + 1, total_written, w =>
    if total_written < file_size then
      let to_write_now :=
        if file_size - total_written < VE_DEFAULT_CHUNK_SIZE then file_size - total_written
        else VE_DEFAULT_CHUNK_SIZE
      let c := ve_csrand to_write_now w
      if c.1 ≠ 0 then (-1, c.2.2)
      else
        let r := sys_write fd c.2.1 to_write_now c.2.2
        if r.1 ≤ 0 then (-1, r.2)
        else ve_write_random_loop fd file_size fuel (total_written + r.1.toNat) r.2
    else (0, w)

/-- Embedding of `ve_write_random_fd`. -/
def ve_write_random_fd (fd : Int) (file_size : Nat) (w : World) : Int × World :=
  let m := sys_malloc w
  if m.1 = false then (-1, m.2)
  else ve_write_random_loop fd file_size file_size 0 m.2

/-- Embedding of `ve_get_file_size_fd`: return code and size. -/
def ve_get_file_size_fd (fd : Int) (w : World) : Int × Nat × World :=
  if w.build.win32 then
    let r := sys_GetFileSizeEx fd w
    match r.1 with
    | none => (-1, 0, r.2)
    | some n => (0, n, r.2)
  else
    let cur := sys_lseek fd 0 Whence.SEEK_CUR w
    let e := sys_lseek fd 0 Whence.SEEK_END cur.2
    if e.1 < 0 then (-1, 0, e.2)
    else
      let s := sys_lseek fd cur.1 Whence.SEEK_SET e.2
      if s.1 < 0 then (-1, 0, s.2)
      else (0, e.1.toNat, s.2)

/-- Embedding of `ve_flush_fd`. -/
def ve_flush_fd (fd : Int) (w : World) : Int × World :=
  sys_fsync fd w

/-- Embedding of `ve_open_rw`; on Windows the retry after clearing the read-only
attribute is part of the one modelled call. -/
def ve_open_rw (path : Path) (w : World) : Int × World :=
  sys_open_rw path w

/-- Embedding of `ve_close_fd`. -/
def ve_close_fd (fd : Int) (w : World) : Int × World :=
  sys_close fd w

/-- Result of the in-place encryption: return code and the contents of the
local `aes_key` and `aes_iv` buffers when the function returns. -/
structure KeyResult where
  rc : Int
  aes_key : List Nat
  aes_iv : List Nat
  world : World

/-- Placeholder cipher of the build without a cipher backend:
`buffer[i] ^= aes_key[j++]`, `j` wrapping at 32 and restarting at each chunk. -/
def ve_xor_fallback (buf aes_key : List Nat) : List Nat :=
  buf.enum.map (fun ib => Nat.xor ib.2 (aes_key.getD (ib.1 % 32) 0))

/-- Loop of `ve_encrypt_file_in_place_aesctr`, one chunk per iteration; the
first argument bounds the iterations (each one processes at least one byte). -/
def ve_encrypt_loop (fd : Int) (file_size : Nat) (aes_key : List Nat) :
    Nat → Nat → List Nat → World → KeyResult
  | 0, _, aes_iv, w => ⟨0, aes_key, aes_iv, w⟩
  | fuel + 1, processed, aes_iv, w =>
    if processed < file_size then
      let to_io :=
        if file_size - processed < VE_DEFAULT_CHUNK_SIZE then file_size - processed
        else VE_DEFAULT_CHUNK_SIZE
      let rd := sys_read fd to_io w
      if rd.1 ≤ 0 then ⟨-1, aes_key, aes_iv, rd.2.2⟩
      else
        let readn := rd.1.toNat
        if w.build.win32 then
          let c := ve_aes_ctr_encrypt_windows rd.2.1 readn aes_key aes_iv rd.2.2
          if c.rc ≠ 0 then ⟨-1, aes_key, c.iv, c.world⟩
          else
            let w1 := sys_SetFilePointerEx fd processed c.world
            let wr := sys_write fd c.buf readn w1
            if wr.1 ≠ (readn : Int) then ⟨-1, aes_key, c.iv, wr.2⟩
            else ve_encrypt_loop fd file_size aes_key fuel (processed + readn) c.iv wr.2
        else if w.build.use_openssl then
          let c := ve_aes_ctr_encrypt_openssl rd.2.1 readn aes_key aes_iv rd.2.2
          if c.rc ≠ 0 then ⟨-1, aes_key, c.iv, c.world⟩
          else
            let s := sys_lseek fd processed Whence.SEEK_SET c.world
            if s.1 < 0 then ⟨-1, aes_key, c.iv, s.2⟩
            else
              let wr := sys_write fd c.buf readn s.2
              if wr.1 ≠ (readn : Int) then ⟨-1, aes_key, c.iv, wr.2⟩
              else ve_encrypt_loop fd file_size aes_key fuel (processed + readn) c.iv wr.2
        else
          let buf := ve_xor_fallback (rd.2.1.take readn) aes_key
          let s := sys_lseek fd processed Whence.SEEK_SET rd.2.2
          if s.1 < 0 then ⟨-1, aes_key, aes_iv, s.2⟩
          else
            let wr := sys_write fd buf readn s.2
            if wr.1 ≠ (readn : Int) then ⟨-1, aes_key, aes_iv, wr.2⟩
            else ve_encrypt_loop fd file_size aes_key fuel (processed + readn) aes_iv wr.2
    else ⟨0, aes_key, aes_iv, w⟩

/-- Embedding of `ve_encrypt_file_in_place_aesctr`.  The key buffers are
uninitialised before `ve_csrand` fills them; they are modelled as zero there. -/
def ve_encrypt_file_in_place_aesctr (fd : Int) (file_size : Nat) (w : World) : KeyResult :=
  let m := sys_malloc w
  if m.1 = false then ⟨-1, List.replicate 32 0, List.replicate 16 0, m.2⟩
  else
    let k := ve_csrand 32 m.2
    if k.1 ≠ 0 then ⟨-1, List.replicate 32 0, List.replicate 16 0, k.2.2⟩
    else
      let v := ve_csrand 16 k.2.2
      if v.1 ≠ 0 then ⟨-1, k.2.1, List.replicate 16 0, v.2.2⟩
      else
        let s : Int × World :=
          if w.build.win32 then (0, v.2.2) else sys_lseek fd 0 Whence.SEEK_SET v.2.2
        if s.1 < 0 then ⟨-1, k.2.1, v.2.1, s.2⟩
        else
          let l := ve_encrypt_loop fd file_size k.2.1 file_size 0 v.2.1 s.2
          if l.rc ≠ 0 then l
          else
            let f := ve_flush_fd fd l.world
            ⟨0, List.replicate 32 0, List.replicate 16 0, f.2⟩

/-- Embedding of `ve_trim_best_effort`: on Linux, `FITRIM` on the path (or on
its directory when the path is not a directory); elsewhere nothing.  Always 0. -/
def ve_trim_best_effort (path : Path) (_aggressive : Int) (w : World) : Int × World :=
  if w.build.linux then
    let st := sys_stat path w
    let mount_path : Path :=
      match st.1 with
      | some (Node.file _) => if 2 ≤ path.length then path.dropLast else ["."]
      | _ => path
    let o := sys_open_ro mount_path st.2
    if o.1 then (0, o.2.emit (Event.fitrim mount_path)) else (0, o.2)
  else (0, w)

/-- Pass count of `ve_erase_hdd_like`: the `switch` on the algorithm. -/
def ve_hdd_passes (opt : ve_options_t) : Int :=
  if opt.algorithm = VE_ALG_ZERO then 1
  else if opt.algorithm = VE_ALG_RANDOM then (if opt.passes > 0 then opt.passes else 1)
  else if opt.algorithm = VE_ALG_DOD3 then 3
  else if opt.algorithm = VE_ALG_DOD7 then 7
  else if opt.algorithm = VE_ALG_NIST then 1
  else if opt.algorithm = VE_ALG_GUTMANN then 35
  else 1

/-- The `for` loop of `ve_erase_hdd_like`, with the number of passes still to
run; the body does not read the pass index. -/
def ve_hdd_pass_loop (fd : Int) (opt : ve_options_t) (size : Nat) :
    Nat → World → ve_status_t × World
  | 0, w => (VE_SUCCESS, w)
  | n + 1, w =>
    let wr : Int × World :=
      if opt.algorithm = VE_ALG_ZERO then ve_write_pattern_fd fd size 0 w
      else if opt.algorithm = VE_ALG_RANDOM ∨ opt.algorithm = VE_ALG_NIST ∨
          opt.algorithm = VE_ALG_GUTMANN ∨ opt.algorithm = VE_ALG_DOD3 ∨
          opt.algorithm = VE_ALG_DOD7 then ve_write_random_fd fd size w
      else (0, w)
    if wr.1 ≠ 0 then ( VE_ERR_IO, wr.2)
    else
      let f := ve_flush_fd fd wr.2
      if f.1 ≠ 0 then ( VE_ERR_IO, f.2)
      else ve_hdd_pass_loop fd opt size n f.2

/-- Embedding of `ve_erase_hdd_like`. -/
def ve_erase_hdd_like (fd : Int) (opt : ve_options_t) (w : World) : ve_status_t × World :=
  let g := ve_get_file_size_fd fd w
  if g.1 ≠ 0 then ( VE_ERR_IO, g.2.2)
  else ve_hdd_pass_loop fd opt g.2.1 (ve_hdd_passes opt).toNat g.2.2

/-- Embedding of `ve_erase_ssd_like`. -/
def ve_erase_ssd_like (fd : Int) (_opt : ve_options_t) (w : World) : ve_status_t × World :=
  let g := ve_get_file_size_fd fd w
  if g.1 ≠ 0 then ( VE_ERR_IO, g.2.2)
  else if g.2.1 = 0 then (VE_SUCCESS, g.2.2)
  else
    let e := ve_encrypt_file_in_place_aesctr fd g.2.1 g.2.2
    if e.rc ≠ 0 then ( VE_ERR_IO, e.world)
    else
      let h : World :=
        if w.build.linux then (sys_fallocate_punch fd g.2.1 e.world).2 else e.world
      let f := ve_flush_fd fd h
      if f.1 ≠ 0 then ( VE_ERR_IO, f.2)
      else (VE_SUCCESS, f.2)

/-- Embedding of `ve_erase_single_file`.  `opt` is never NULL here: the only
entry point, `ve_erase_path`, rejects a NULL `options`. -/
def ve_erase_single_file (path : Path) (opt : ve_options_t) (w : World) :
    ve_status_t × World :=
  let w0 := w.emit (Event.erase_single_file path)
  if opt.dry_run ≠ 0 then (VE_SUCCESS, w0)
  else
    let o := ve_open_rw path w0
    if o.1 < 0 then ( VE_ERR_IO, o.2)
    else
      let rc : ve_status_t × World :=
        if opt.algorithm = VE_ALG_SSD then ve_erase_ssd_like o.1 opt o.2
        else ve_erase_hdd_like o.1 opt o.2
      let c := ve_close_fd o.1 rc.2
      if rc.1 ≠ VE_SUCCESS then (rc.1, c.2)
      else
        let u := ve_remove_file path c.2
        if u.1 ≠ 0 then ( VE_ERR_IO, u.2)
        else if opt.trim_mode = 0 ∨ opt.trim_mode = 1 then
          (VE_SUCCESS, (ve_trim_best_effort path 0 u.2).2)
        else (VE_SUCCESS, u.2)

/-- Size of the buffer `child` in the POSIX branch of `ve_walk_and_erase`
(`char child[4096]`; the Windows branch has `char child[MAX_PATH]`). -/
def VE_CHILD_BUF : Nat := 4096

/-- The path named by the first `n` characters of the C string of a path (its
components joined by `/`; a `Char` stands for one byte): the components that
fit whole, then the one the cut falls in, itself cut.  A cut right after a
separator leaves the directory before it. -/
def path_take : Nat → Path → Path
  | _, [] => []
  | n, c :: rest =>
    if rest ≠ [] ∧ c.length + 1 < n then c :: path_take (n - (c.length + 1)) rest
    else [String.mk (c.data.take n)]

/-- Embedding of `snprintf(child, sizeof(child), "%s/%s", path, de->d_name)`:
the string `path/name` cut to the 4095 characters that fit the buffer.  The
return value of `snprintf` is not looked at, so a cut goes unnoticed. -/
def ve_child_path (path : Path) (name : String) : Path :=
  path_take (VE_CHILD_BUF - 1) (path ++ [name])

/-- The `readdir` loop of `ve_walk_and_erase` (POSIX branch) over the names the
directory stream delivers; `walk` is the recursive call, made on the path that
`snprintf` left in `child`.  `none` only when a recursive call ran out of its
depth bound. -/
def ve_walk_children (walk : Path → World → Option (ve_status_t × World))
    (path : Path) (opt : ve_options_t) : List String → World → Option World
  | [], w => some w
  | name :: rest, w =>
    let w1 := w.emit (Event.readdir path name)
    if name = "." ∨ name = ".." then ve_walk_children walk path opt rest w1
    else
      let child := ve_child_path path name
      let d := ve_is_directory child w1
      if d.1 ≠ 0 then
        match walk child d.2 with
        | none => none
        | some r => ve_walk_children walk path opt rest (ve_remove_empty_dir child r.2).2
      else ve_walk_children walk path opt rest (ve_erase_single_file child opt d.2).2

/-- Embedding of `ve_walk_and_erase` (POSIX branch).  The first argument bounds
the recursion depth; `none` means the bound was too small (for every bound, when
a child path is cut back to the directory itself and the C recursion does not
end). -/
def ve_walk_and_erase : Nat → Path → ve_options_t → World → Option (ve_status_t × World)
  | 0, _, _, _ => none
  | fuel + 1, path, opt, w =>
    let w0 := w.emit (Event.walk_enter path)
    let d := ve_is_directory path w0
    if d.1 = 0 then some (ve_erase_single_file path opt d.2)
    else
      let o := sys_opendir path d.2
      match o.1 with
      | none =>
        let r := ve_remove_empty_dir path o.2
        some (VE_SUCCESS, r.2.emit (Event.walk_done path))
      | some names =>
        match ve_walk_children (fun c w1 => ve_walk_and_erase fuel c opt w1) path opt names o.2 with
        | none => none
        | some w3 =>
          let r := ve_remove_empty_dir path (w3.emit (Event.closedir path))
          some (VE_SUCCESS, r.2.emit (Event.walk_done path))

/-- Length of the longest path in the filesystem. -/
def fs_depth (fs : List (Path × Node)) : Nat :=
  (fs.map (fun e => e.1.length)).foldr max 0

/-- Embedding of `ve_erase_path`; `none` stands for a NULL argument.  The
recursion of the walk is bounded by the depth of the tree. -/
def ve_erase_path (path : Option Path) (options : Option ve_options_t) (w : World) :
    Option (ve_status_t × World) :=
  match path, options with
  | some p, some o =>
    let d := ve_is_directory p w
    if d.1 ≠ 0 then ve_walk_and_erase (fs_depth d.2.fs + 1) p o d.2
    else some (ve_erase_single_file p o d.2)
  | _, _ => some ( VE_ERR_INVALID_ARG, w)

/-- Embedding of `ve_trim_free_space`. -/
def ve_trim_free_space (mount_or_volume_path : Option Path) (aggressive : Int) (w : World) :
    ve_status_t × World :=
  match mount_or_volume_path with
  | none => ( VE_ERR_INVALID_ARG, w)
  | some p =>
    let r := ve_trim_best_effort p aggressive w
    if r.1 = 0 then (VE_SUCCESS, r.2) else ( VE_ERR_UNSUPPORTED, r.2)

/-! ## Vocabulary of the statements -/

/-- Paths and node kinds of a filesystem, without the file contents. -/
def fs_shape (fs : List (Path × Node)) : List (Path × Bool) :=
  fs.map (fun e => (e.1, decide (e.2 = Node.dir)))

/-- Calls made on the open descriptor or on memory: they neither create nor
remove a filesystem entry. -/
def Event.isFdCall : Event → Bool
  | Event.lseek _ => true
  | Event.getsize _ => true
  | Event.setpos _ => true
  | Event.read _ _ => true
  | Event.read_failed => true
  | Event.write _ _ => true
  | Event.write_failed => true
  | Event.fsync _ => true
  | Event.malloc _ => true
  | Event.csrand _ _ => true
  | Event.cipher _ _ => true
  | Event.punch_hole => true
  | _ => false

/-- The events logged between two worlds all satisfy `P`. -/
def Grows (P : Event → Prop) (w w' : World) : Prop :=
  ∃ evs, w'.trace = w.trace ++ evs ∧ ∀ e ∈ evs, P e

/-- A step of the engine on the open descriptor: only descriptor-level calls
are logged, and the set of paths and their kinds is unchanged. -/
structure FdStep (w w' : World) : Prop where
  grows : Grows (fun e => e.isFdCall = true) w w'
  shape : fs_shape w'.fs = fs_shape w.fs
  build : w'.build = w.build

/-- Events that write or try to write file content. -/
def Event.isWrite : Event → Bool
  | Event.write _ _ => true
  | Event.write_failed => true
  | _ => false

/-- Events that read or write file content, or draw the bytes to write. -/
def Event.isContentCall : Event → Bool
  | Event.read _ _ => true
  | Event.read_failed => true
  | Event.write _ _ => true
  | Event.write_failed => true
  | Event.csrand _ _ => true
  | Event.cipher _ _ => true
  | _ => false

/-- Events that try to remove a file or a directory. -/
def Event.isRemoval : Event → Bool
  | Event.unlink _ _ => true
  | Event.rmdir _ _ => true
  | _ => false

/-- Options with every field zero except the algorithm and the discard mode. -/
def opts (algorithm : Int) (trim_mode : Int) : ve_options_t :=
  ⟨algorithm, 0, 0, 0, trim_mode, 0, 0, 0, 0, 0, 0, 0⟩

/-- A Linux build without OpenSSL. -/
def build_linux : Build := ⟨false, true, false⟩

/-- A world with the given filesystem and script, nothing open, an empty log. -/
def world_of (fs : List (Path × Node)) (script : List Resp) : World :=
  ⟨build_linux, fun _ b => b, fs, none, script, [1, 2, 3, 4, 5, 6, 7, 8], []⟩

/-- A two-byte file `f`. -/
def fs_one_file : List (Path × Node) := [(["f"], Node.file [7, 9])]

/-- A directory `d` holding a file `f` and an empty directory `s`. -/
def fs_tree : List (Path × Node) :=
  [(["d"], Node.dir), (["d", "f"], Node.file [7, 9]), (["d", "s"], Node.dir)]

/-- Events of one overwrite sweep: the buffer allocation, the random fill and
the writes. -/
def Event.isWriteStage : Event → Bool
  | Event.malloc _ => true
  | Event.csrand _ _ => true
  | Event.write _ _ => true
  | Event.write_failed => true
  | _ => false

/-- A failing write (an error, or no byte transferred), random fill or flush. -/
def Event.isFailure : Event → Bool
  | Event.write_failed => true
  | Event.write _ 0 => true
  | Event.csrand _ false => true
  | Event.fsync false => true
  | _ => false

/-- No event but the last one is a failure. -/
def FailLast (evs : List Event) : Prop :=
  ∀ e ∈ evs.dropLast, e.isFailure = false

/-- Shape of the log of one overwrite sweep that returned `rc`. -/
def WriteRun (rc : Int) (evs : List Event) : Prop :=
  (∀ e ∈ evs, e.isWriteStage = true) ∧ FailLast evs ∧
    (rc = 0 → ∀ e ∈ evs, e.isFailure = false)

/-- Shape of the log of `n` passes that returned `rc`. -/
def PassRun (rc : ve_status_t) (n : Nat) (evs : List Event) : Prop :=
  (∀ e ∈ evs, e.isWriteStage = true ∨ ∃ b, e = Event.fsync b) ∧ FailLast evs ∧
    (rc = VE_SUCCESS → evs.count (Event.fsync true) = n ∧ ∀ e ∈ evs, e.isFailure = false)

/-- Events of the size query at the start of an engine. -/
def Event.isSizeQuery : Event → Bool
  | Event.lseek _ => true
  | Event.getsize _ => true
  | _ => false

/-- Number of bytes a read or write of `n` bytes transfers under the answer `a`. -/
def granted (a : Resp) (n : Nat) : Nat :=
  match a with
  | Resp.short k => min k n
  | _ => n

/-- The offset an `lseek` asks for. -/
def seek_target (off : Int) (whence : Whence) (pos : Nat) (d : List Nat) : Int :=
  match whence with
  | Whence.SEEK_SET => off
  | Whence.SEEK_CUR => pos + off
  | Whence.SEEK_END => d.length + off

/-- Calls of the discard hint. -/
def Event.isTrimCall : Event → Bool
  | Event.stat _ => true
  | Event.open_ro _ _ => true
  | Event.fitrim _ => true
  | _ => false

/-- The options of `opts` with `dry_run` set. -/
def opts_dry (algorithm : Int) : ve_options_t :=
  ⟨algorithm, 0, 0, 0, 0, 0, 0, 0, 0, 0, 1, 0⟩

/-- Calls between two worlds that log events satisfying `P` and leave the
filesystem as it is. -/
structure Idle (P : Event → Prop) (w w' : World) : Prop where
  grows : Grows P w w'
  fs : w'.fs = w.fs

/-- The file `f` alone, with a script under which the second DoD3 pass fails at
its write: open, three seeks, then allocation, fill, write and flush of the
first pass, then allocation, fill and the failing write of the second. -/
def world_second_pass_fails : World :=
  world_of fs_one_file
    [Resp.ok, Resp.ok, Resp.ok, Resp.ok, Resp.ok, Resp.ok, Resp.ok, Resp.ok, Resp.ok, Resp.ok,
      Resp.fail]

/-- The environment fails no further call. -/
def Calm (w : World) : Prop :=
  ∀ r ∈ w.script, r ≠ Resp.fail

/-- A zero-length file `e`. -/
def fs_empty_file : List (Path × Node) := [(["e"], Node.file [])]

/-- Events other than the four the ordering of the walk is stated on: removal
of a directory, delivery of a directory entry, and the two visit markers. -/
def Event.isPlain : Event → Bool
  | Event.rmdir _ _ => false
  | Event.readdir _ _ => false
  | Event.walk_done _ => false
  | Event.erase_single_file _ => false
  | _ => true

/-- The child at a path has been visited in a log: passed to
`ve_erase_single_file`, or walked by a `ve_walk_and_erase` that has returned. -/
def Visited (c : Path) (t : List Event) : Prop :=
  Event.erase_single_file c ∈ t ∨ Event.walk_done c ∈ t

/-- Post-order removal: at every attempt to remove a directory `D`, every entry
of `D` that the log delivers (other than `.` and `..`) has been visited before. -/
def PostOrder (t : List Event) : Prop :=
  ∀ D ok a b, t = a ++ Event.rmdir D ok :: b →
    ∀ name, Event.readdir D name ∈ t → name ≠ "." → name ≠ ".." → Visited (D ++ [name]) a

/-- What the log of a walk of `p` satisfies. -/
structure WalkSeg (p : Path) (t : List Event) : Prop where
  rm_scope : ∀ D ok, Event.rmdir D ok ∈ t → p <+: D
  rd_scope : ∀ D name, Event.readdir D name ∈ t → p <+: D
  complete : ∀ name, Event.readdir p name ∈ t → name ≠ "." → name ≠ ".." →
    Visited (p ++ [name]) t
  post : PostOrder t
  ends : (∀ D ok, Event.rmdir D ok ∉ t) ∨
    ∃ a ok, t = a ++ [Event.rmdir p ok, Event.walk_done p]
  visited : Visited p t

/-- What the log of the `readdir` loop of `P` over the names `ns` satisfies. -/
structure LoopSeg (P : Path) (ns : List String) (s : List Event) : Prop where
  rm_scope : ∀ D ok, Event.rmdir D ok ∈ s → ∃ n ∈ ns, (P ++ [n]) <+: D
  rd_scope : ∀ D name, Event.readdir D name ∈ s →
    (D = P ∧ name ∈ ns) ∨ ∃ n ∈ ns, (P ++ [n]) <+: D
  complete : ∀ name ∈ ns, name ≠ "." → name ≠ ".." → Visited (P ++ [name]) s
  post : PostOrder s

/-- What the part of the log for one delivered name `n` of `P` satisfies. -/
structure ChildSeg (P : Path) (n : String) (seg : List Event) : Prop where
  rm_scope : ∀ D ok, Event.rmdir D ok ∈ seg → (n ≠ "." ∧ n ≠ "..") ∧ (P ++ [n]) <+: D
  rd_scope : ∀ D name, Event.readdir D name ∈ seg →
    (D = P ∧ name = n) ∨ ((n ≠ "." ∧ n ≠ "..") ∧ (P ++ [n]) <+: D)
  complete : n ≠ "." → n ≠ ".." → Visited (P ++ [n]) seg
  post : PostOrder seg

/-- No path has been added between two worlds. -/
def Shrinks (w w' : World) : Prop :=
  w'.fs.map Prod.fst ⊆ w.fs.map Prod.fst

/-- The tree `d`, with a script under which the open of `d/f` fails: the two
`lstat` of `d`, the `opendir`, the `lstat` of `d/f`, then the failing open. -/
def world_child_fails : World :=
  world_of fs_tree [Resp.ok, Resp.ok, Resp.ok, Resp.ok, Resp.fail]

/-- The world of `world_child_fails` at the moment the walk of `d` passes `d/f`
to `ve_erase_single_file`. -/
def world_at_child : World :=
  (ve_is_directory ["d", "f"]
    ((((sys_opendir ["d"]
      (ve_is_directory ["d"]
        ((ve_is_directory ["d"] world_child_fails).2.emit (Event.walk_enter ["d"]))).2).2.emit
      (Event.readdir ["d"] ".")).emit (Event.readdir ["d"] "..")).emit
      (Event.readdir ["d"] "f"))).2

/-- A build that is neither Windows nor Linux, without OpenSSL. -/
def build_other : Build := ⟨false, false, false⟩

/-- A world on the build `b` with the block function `fun _ blk => blk`, the
given bytes of the system random source, nothing open and an empty log. -/
def world_on (b : Build) (entropy : List Nat) (fs : List (Path × Node))
    (script : List Resp) : World :=
  ⟨b, fun _ blk => blk, fs, none, script, entropy, []⟩

/-- Options with every field zero except the algorithm and `chunk_size`, the
discard hint off. -/
def opts_chunk (algorithm : Int) (chunk_size : Nat) : ve_options_t :=
  ⟨algorithm, 0, 0, 0, 2, 0, 0, 0, chunk_size, 0, 0, 0⟩

/-- Events that transfer file content. -/
def Event.isTransfer : Event → Bool
  | Event.read _ _ => true
  | Event.write _ _ => true
  | _ => false

/-- A Linux build with OpenSSL. -/
def build_openssl : Build := ⟨false, true, true⟩

/-- A Windows build. -/
def build_win32 : Build := ⟨true, false, false⟩

/-- The two-byte file `f`, freshly opened on the build `b`, the random source
delivering the byte 0xA5 (165) 48 times; `script` answers the calls that follow
the open. -/
def world_opened (b : Build) (script : List Resp) : World :=
  (ve_open_rw ["f"] (world_on b (List.replicate 48 165) fs_one_file (Resp.ok :: script))).2

/-- Return code, key buffer and counter buffer of a result. -/
def KeyResult.buffers (r : KeyResult) : Int × List Nat × List Nat :=
  (r.rc, r.aes_key, r.aes_iv)

/-- A file `g` of two 16-byte blocks, all zero. -/
def fs_two_blocks : List (Path × Node) := [(["g"], Node.file (List.replicate 32 0))]

/-- The file `g`, freshly opened on the build `b` with the given bytes of the
random source; `script` answers the calls that follow the open. -/
def world_two_blocks (b : Build) (entropy : List Nat) (script : List Resp) : World :=
  (ve_open_rw ["g"] (world_on b entropy fs_two_blocks (Resp.ok :: script))).2

/-- The transfers of a log tile the range from `a` to `b`: each read is
followed by a write at the same offset and of the same length, the length is
positive, the first read starts at `a`, each next one where the previous write
ended, and the last write ends at `b`. -/
def tiles : Nat → List Event → Nat → Bool
  | a, [], b => decide (a = b)
  | a, Event.read o l :: Event.write o' l' :: rest, b =>
    decide (o = a) && decide (o' = a) && decide (l' = l) && decide (0 < l) &&
      tiles (a + l) rest b
  | _, _, _ => false

/-- Calls between two worlds that transfer no file content and leave the
filesystem, the open descriptor and its offset as they are. -/
structure Still (w w' : World) : Prop where
  grows : Grows (fun e => e.isTransfer = false) w w'
  fs : w'.fs = w.fs
  ofile : w'.ofile = w.ofile
  build : w'.build = w.build

/-- The environment answers every further call in full: no failure and no
partial transfer. -/
def Full (w : World) : Prop :=
  ∀ r ∈ w.script, r = Resp.ok

/-- A call that the environment refused, or a read that returned no byte. -/
def Event.isRefusal : Event → Bool
  | Event.malloc false => true
  | Event.csrand _ false => true
  | Event.lseek false => true
  | Event.read_failed => true
  | Event.read _ 0 => true
  | Event.cipher _ false => true
  | Event.write_failed => true
  | _ => false

/-- The log ends with a refused call, or with a write that transferred fewer
bytes than the read before it had returned. -/
def EndsInFailure (evs : List Event) : Prop :=
  (∃ a e, evs = a ++ [e] ∧ e.isRefusal = true) ∨
  (∃ a o l mid l', evs = a ++ Event.read o l :: (mid ++ [Event.write o l']) ∧
    (∀ e ∈ mid, e.isTransfer = false) ∧ l' < l)

/-- Length of the C string of a path: its components joined by `/`. -/
def path_len (p : Path) : Nat :=
  (p.map String.length).sum + (p.length - 1)

/-- Every path of the filesystem fits the buffer `child` with its terminating
NUL, and none has an empty component. -/
def FitsBuf (fs : List (Path × Node)) : Prop :=
  ∀ p ∈ fs.map Prod.fst, path_len p < VE_CHILD_BUF ∧ ∀ c ∈ p, c ≠ ""

/-- A directory whose path is 4040 characters long: fifteen components of 255
characters and one of 200. -/
def long_dir : Path :=
  List.replicate 15 (String.mk (List.replicate 255 'a')) ++ [String.mk (List.replicate 200 'a')]

/-- A file name of 100 characters. -/
def long_name : String := String.mk (List.replicate 100 'b')

/-- The directory `long_dir` holding the file `long_name`, whose path is 4141
characters long. -/
def fs_long : List (Path × Node) :=
  [(long_dir, Node.dir), (long_dir ++ [long_name], Node.file [7, 9])]

/-- Events the ordering of the walk is stated on: delivery of a directory
entry, the two visit markers and removal of a directory. -/
def Event.isWalkStep : Event → Bool
  | Event.readdir _ _ => true
  | Event.erase_single_file _ => true
  | Event.walk_done _ => true
  | Event.rmdir _ _ => true
  | _ => false

/-! ## Facts about the environment -/

@[simp] theorem next_fs (w : World) : w.next.2.fs = w.fs := by
  unfold World.next; split <;> rfl

@[simp] theorem next_build (w : World) : w.next.2.build = w.build := by
  unfold World.next; split <;> rfl

@[simp] theorem next_aes (w : World) : w.next.2.aes = w.aes := by
  unfold World.next; split <;> rfl

@[simp] theorem next_ofile (w : World) : w.next.2.ofile = w.ofile := by
  unfold World.next; split <;> rfl

@[simp] theorem next_trace (w : World) : w.next.2.trace = w.trace := by
  unfold World.next; split <;> rfl

@[simp] theorem next_entropy (w : World) : w.next.2.entropy = w.entropy := by
  unfold World.next; split <;> rfl

@[simp] theorem next_file (w : World) : w.next.2.file = w.file := by
  unfold World.file; simp

@[simp] theorem emit_fs (w : World) (e : Event) : (w.emit e).fs = w.fs := rfl

@[simp] theorem emit_build (w : World) (e : Event) : (w.emit e).build = w.build := rfl

@[simp] theorem emit_ofile (w : World) (e : Event) : (w.emit e).ofile = w.ofile := rfl

@[simp] theorem emit_script (w : World) (e : Event) : (w.emit e).script = w.script := rfl

@[simp] theorem emit_trace (w : World) (e : Event) : (w.emit e).trace = w.trace ++ [e] := rfl

@[simp] theorem emit_file (w : World) (e : Event) : (w.emit e).file = w.file := rfl

theorem fs_shape_set_data (fs : List (Path × Node)) (p : Path) (d : List Nat) :
    fs_shape (fs_set_data fs p d) = fs_shape fs := by
  unfold fs_shape fs_set_data
  rw [List.map_map]
  apply List.map_congr_left
  intro e _
  rcases e with ⟨q, n⟩
  cases n with
  | file d0 =>
    simp only [Function.comp]
    split <;> rfl
  | dir =>
    simp only [Function.comp]
    split <;> rfl

theorem fs_lookup_shape {fs fs' : List (Path × Node)} (h : fs_shape fs' = fs_shape fs)
    (p : Path) :
    (fs_lookup fs' p).map (fun n => decide (n = Node.dir)) =
      (fs_lookup fs p).map (fun n => decide (n = Node.dir)) := by
  induction fs generalizing fs' with
  | nil =>
    cases fs' with
    | nil => rfl
    | cons a t => simp [fs_shape] at h
  | cons a t ih =>
    cases fs' with
    | nil => simp [fs_shape] at h
    | cons b u =>
      rcases a with ⟨q, n⟩
      rcases b with ⟨q', n'⟩
      simp only [fs_shape, List.map_cons, List.cons.injEq, Prod.mk.injEq] at h
      obtain ⟨⟨hq, hn⟩, ht⟩ := h
      subst hq
      simp only [fs_lookup]
      split
      · simp [hn]
      · exact ih ht

theorem Grows.g_refl (P : Event → Prop) (w : World) : Grows P w w :=
  ⟨[], by simp, by simp⟩

theorem Grows.g_trans {P : Event → Prop} {w w1 w2 : World}
    (h1 : Grows P w w1) (h2 : Grows P w1 w2) : Grows P w w2 := by
  obtain ⟨a, ha, hpa⟩ := h1
  obtain ⟨b, hb, hpb⟩ := h2
  refine ⟨a ++ b, by rw [hb, ha, List.append_assoc], ?_⟩
  intro e he
  rcases List.mem_append.mp he with h | h
  · exact hpa e h
  · exact hpb e h

theorem Grows.mono {P Q : Event → Prop} {w w' : World} (h : ∀ e, P e → Q e)
    (g : Grows P w w') : Grows Q w w' := by
  obtain ⟨a, ha, hpa⟩ := g
  exact ⟨a, ha, fun e he => h e (hpa e he)⟩

theorem Grows.one {P : Event → Prop} {w w' : World} {e : Event}
    (h : w'.trace = w.trace ++ [e]) (he : P e) : Grows P w w' :=
  ⟨[e], h, by simpa using he⟩

theorem FdStep.fd_refl (w : World) : FdStep w w :=
  ⟨Grows.g_refl _ w, rfl, rfl⟩

theorem FdStep.fd_trans {w w1 w2 : World} (h1 : FdStep w w1) (h2 : FdStep w1 w2) :
    FdStep w w2 :=
  ⟨h1.grows.g_trans h2.grows, h2.shape.trans h1.shape, h2.build.trans h1.build⟩

theorem FdStep.fd_emit (w : World) (e : Event) (he : e.isFdCall = true) :
    FdStep w (w.emit e) :=
  ⟨Grows.one rfl he, rfl, rfl⟩

theorem FdStep.fd_next (w : World) : FdStep w w.next.2 :=
  ⟨⟨[], by simp, by simp⟩, by simp, by simp⟩

theorem sys_write_step (fd : Int) (buf : List Nat) (n : Nat) (w : World) :
    FdStep w (sys_write fd buf n w).2 := by
  unfold sys_write
  simp only []
  split
  · exact (FdStep.fd_next w).fd_trans (FdStep.fd_emit _ _ rfl)
  · exact (FdStep.fd_next w).fd_trans (FdStep.fd_emit _ _ rfl)
  · refine (FdStep.fd_next w).fd_trans ⟨Grows.one rfl rfl, ?_, rfl⟩
    exact fs_shape_set_data _ _ _

theorem sys_read_step (fd : Int) (n : Nat) (w : World) :
    FdStep w (sys_read fd n w).2.2 := by
  unfold sys_read
  simp only []
  split
  · exact (FdStep.fd_next w).fd_trans (FdStep.fd_emit _ _ rfl)
  · exact (FdStep.fd_next w).fd_trans (FdStep.fd_emit _ _ rfl)
  · exact (FdStep.fd_next w).fd_trans ⟨Grows.one rfl rfl, rfl, rfl⟩

theorem sys_lseek_step (fd : Int) (off : Int) (wh : Whence) (w : World) :
    FdStep w (sys_lseek fd off wh w).2 := by
  unfold sys_lseek
  simp only []
  split
  · exact (FdStep.fd_next w).fd_trans (FdStep.fd_emit _ _ rfl)
  · exact (FdStep.fd_next w).fd_trans (FdStep.fd_emit _ _ rfl)
  · split
    · exact (FdStep.fd_next w).fd_trans (FdStep.fd_emit _ _ rfl)
    · exact (FdStep.fd_next w).fd_trans ⟨Grows.one rfl rfl, rfl, rfl⟩

theorem sys_GetFileSizeEx_step (fd : Int) (w : World) :
    FdStep w (sys_GetFileSizeEx fd w).2 := by
  unfold sys_GetFileSizeEx
  simp only []
  split <;> exact (FdStep.fd_next w).fd_trans (FdStep.fd_emit _ _ rfl)

theorem sys_SetFilePointerEx_step (fd : Int) (off : Nat) (w : World) :
    FdStep w (sys_SetFilePointerEx fd off w) := by
  unfold sys_SetFilePointerEx
  split
  · exact FdStep.fd_emit _ _ rfl
  · exact ⟨Grows.one rfl rfl, rfl, rfl⟩

theorem sys_fsync_step (fd : Int) (w : World) : FdStep w (sys_fsync fd w).2 := by
  unfold sys_fsync
  simp only []
  split <;> exact (FdStep.fd_next w).fd_trans (FdStep.fd_emit _ _ rfl)

theorem sys_malloc_step (w : World) : FdStep w (sys_malloc w).2 := by
  unfold sys_malloc
  simp only []
  split <;> exact (FdStep.fd_next w).fd_trans (FdStep.fd_emit _ _ rfl)

theorem sys_fallocate_punch_step (fd : Int) (len : Nat) (w : World) :
    FdStep w (sys_fallocate_punch fd len w).2 := by
  unfold sys_fallocate_punch
  simp only []
  split
  · exact (FdStep.fd_next w).fd_trans (FdStep.fd_emit _ Event.punch_hole rfl)
  · exact (FdStep.fd_next w).fd_trans (FdStep.fd_emit _ Event.punch_hole rfl)
  · refine (FdStep.fd_next w).fd_trans ⟨Grows.one rfl rfl, ?_, rfl⟩
    exact fs_shape_set_data _ _ _

theorem ve_csrand_step (len : Nat) (w : World) : FdStep w (ve_csrand len w).2.2 := by
  unfold ve_csrand
  simp only []
  split
  · exact (FdStep.fd_next w).fd_trans (FdStep.fd_emit _ _ rfl)
  · exact (FdStep.fd_next w).fd_trans ⟨Grows.one rfl rfl, rfl, rfl⟩

theorem ve_aes_ctr_encrypt_openssl_step (buf : List Nat) (len : Nat) (key iv : List Nat)
    (w : World) : FdStep w (ve_aes_ctr_encrypt_openssl buf len key iv w).world := by
  unfold ve_aes_ctr_encrypt_openssl
  simp only []
  split <;> exact (FdStep.fd_next w).fd_trans (FdStep.fd_emit _ _ rfl)

theorem ve_aes_ctr_encrypt_windows_loop_step (key : List Nat) (len fuel : Nat) :
    ∀ (off : Nat) (buf iv : List Nat) (w : World),
      FdStep w (ve_aes_ctr_encrypt_windows_loop key len fuel off buf iv w).world := by
  induction fuel with
  | zero => intro off buf iv w; exact FdStep.fd_refl w
  | succ k ih =>
    intro off buf iv w
    rw [ve_aes_ctr_encrypt_windows_loop]
    by_cases h : off < len
    · rw [if_pos h]
      simp only []
      generalize (if len - off > 2 ^ 20 then 2 ^ 20 else len - off) = n
      split
      · exact (FdStep.fd_next w).fd_trans (FdStep.fd_emit _ (Event.cipher n false) rfl)
      · exact ((FdStep.fd_next w).fd_trans (FdStep.fd_emit _ (Event.cipher n true) rfl)).fd_trans
          (ih _ _ _ _)
    · rw [if_neg h]; exact FdStep.fd_refl w

theorem ve_aes_ctr_encrypt_windows_step (buf : List Nat) (len : Nat) (key iv : List Nat)
    (w : World) : FdStep w (ve_aes_ctr_encrypt_windows buf len key iv w).world := by
  unfold ve_aes_ctr_encrypt_windows
  simp only []
  split
  · exact (FdStep.fd_next w).fd_trans (FdStep.fd_emit _ _ rfl)
  · exact (FdStep.fd_next w).fd_trans (ve_aes_ctr_encrypt_windows_loop_step _ _ _ _ _ _ _)

theorem ve_flush_fd_step (fd : Int) (w : World) : FdStep w (ve_flush_fd fd w).2 :=
  sys_fsync_step fd w

theorem ve_write_pattern_loop_step (fd : Int) (file_size pattern fuel : Nat) :
    ∀ (total : Nat) (w : World),
      FdStep w (ve_write_pattern_loop fd file_size pattern fuel total w).2 := by
  induction fuel with
  | zero => intro total w; exact FdStep.fd_refl w
  | succ k ih =>
    intro total w
    rw [ve_write_pattern_loop]
    by_cases h : total < file_size
    · rw [if_pos h]
      simp only []
      generalize (if file_size - total < VE_DEFAULT_CHUNK_SIZE then file_size - total
        else VE_DEFAULT_CHUNK_SIZE) = n
      have hs := sys_write_step fd (List.replicate n pattern) n w
      generalize sys_write fd (List.replicate n pattern) n w = r at hs ⊢
      by_cases hr : r.1 ≤ 0
      · rw [if_pos hr]; exact hs
      · rw [if_neg hr]; exact hs.fd_trans (ih _ _)
    · rw [if_neg h]; exact FdStep.fd_refl w

theorem ve_write_pattern_fd_step (fd : Int) (file_size pattern : Nat) (w : World) :
    FdStep w (ve_write_pattern_fd fd file_size pattern w).2 := by
  unfold ve_write_pattern_fd
  simp only []
  split
  · exact sys_malloc_step w
  · exact (sys_malloc_step w).fd_trans (ve_write_pattern_loop_step _ _ _ _ _ _)

theorem ve_write_random_loop_step (fd : Int) (file_size fuel : Nat) :
    ∀ (total : Nat) (w : World),
      FdStep w (ve_write_random_loop fd file_size fuel total w).2 := by
  induction fuel with
  | zero => intro total w; exact FdStep.fd_refl w
  | succ k ih =>
    intro total w
    rw [ve_write_random_loop]
    by_cases h : total < file_size
    · rw [if_pos h]
      simp only []
      generalize (if file_size - total < VE_DEFAULT_CHUNK_SIZE then file_size - total
        else VE_DEFAULT_CHUNK_SIZE) = n
      have hc := ve_csrand_step n w
      generalize ve_csrand n w = c at hc ⊢
      by_cases hc0 : c.1 ≠ 0
      · rw [if_pos hc0]; exact hc
      · rw [if_neg hc0]
        have hs := sys_write_step fd c.2.1 n c.2.2
        generalize sys_write fd c.2.1 n c.2.2 = r at hs ⊢
        by_cases hr : r.1 ≤ 0
        · rw [if_pos hr]; exact hc.fd_trans hs
        · rw [if_neg hr]; exact (hc.fd_trans hs).fd_trans (ih _ _)
    · rw [if_neg h]; exact FdStep.fd_refl w

theorem ve_write_random_fd_step (fd : Int) (file_size : Nat) (w : World) :
    FdStep w (ve_write_random_fd fd file_size w).2 := by
  unfold ve_write_random_fd
  simp only []
  split
  · exact sys_malloc_step w
  · exact (sys_malloc_step w).fd_trans (ve_write_random_loop_step _ _ _ _ _)

theorem ve_get_file_size_fd_step (fd : Int) (w : World) :
    FdStep w (ve_get_file_size_fd fd w).2.2 := by
  unfold ve_get_file_size_fd
  split
  · simp only []
    split <;> exact sys_GetFileSizeEx_step _ _
  · simp only []
    split
    · exact (sys_lseek_step _ _ _ _).fd_trans (sys_lseek_step _ _ _ _)
    · split <;>
        exact ((sys_lseek_step _ _ _ _).fd_trans (sys_lseek_step _ _ _ _)).fd_trans
          (sys_lseek_step _ _ _ _)

theorem ve_hdd_pass_loop_step (fd : Int) (opt : ve_options_t) (size n : Nat) :
    ∀ (w : World), FdStep w (ve_hdd_pass_loop fd opt size n w).2 := by
  induction n with
  | zero => intro w; exact FdStep.fd_refl w
  | succ k ih =>
    intro w
    rw [ve_hdd_pass_loop]
    have hwr : FdStep w (if opt.algorithm = VE_ALG_ZERO then ve_write_pattern_fd fd size 0 w
        else if opt.algorithm = VE_ALG_RANDOM ∨ opt.algorithm = VE_ALG_NIST ∨
            opt.algorithm = VE_ALG_GUTMANN ∨ opt.algorithm = VE_ALG_DOD3 ∨
            opt.algorithm = VE_ALG_DOD7 then ve_write_random_fd fd size w
        else (0, w)).2 := by
      split
      · exact ve_write_pattern_fd_step _ _ _ _
      · split
        · exact ve_write_random_fd_step _ _ _
        · exact FdStep.fd_refl w
    simp only []
    generalize (if opt.algorithm = VE_ALG_ZERO then ve_write_pattern_fd fd size 0 w
        else if opt.algorithm = VE_ALG_RANDOM ∨ opt.algorithm = VE_ALG_NIST ∨
            opt.algorithm = VE_ALG_GUTMANN ∨ opt.algorithm = VE_ALG_DOD3 ∨
            opt.algorithm = VE_ALG_DOD7 then ve_write_random_fd fd size w
        else (0, w)) = wr at hwr ⊢
    by_cases h1 : wr.1 ≠ 0
    · rw [if_pos h1]; exact hwr
    · rw [if_neg h1]
      have hf := ve_flush_fd_step fd wr.2
      generalize ve_flush_fd fd wr.2 = f at hf ⊢
      by_cases h2 : f.1 ≠ 0
      · rw [if_pos h2]; exact hwr.fd_trans hf
      · rw [if_neg h2]; exact (hwr.fd_trans hf).fd_trans (ih _)

theorem ve_erase_hdd_like_step (fd : Int) (opt : ve_options_t) (w : World) :
    FdStep w (ve_erase_hdd_like fd opt w).2 := by
  unfold ve_erase_hdd_like
  simp only []
  split
  · exact ve_get_file_size_fd_step _ _
  · exact (ve_get_file_size_fd_step _ _).fd_trans (ve_hdd_pass_loop_step _ _ _ _ _)

theorem ve_encrypt_loop_step (fd : Int) (file_size : Nat) (aes_key : List Nat) (fuel : Nat) :
    ∀ (processed : Nat) (aes_iv : List Nat) (w : World),
      FdStep w (ve_encrypt_loop fd file_size aes_key fuel processed aes_iv w).world := by
  induction fuel with
  | zero => intro processed aes_iv w; exact FdStep.fd_refl w
  | succ k ih =>
    intro processed aes_iv w
    rw [ve_encrypt_loop]
    by_cases h : processed < file_size
    · rw [if_pos h]
      simp only []
      generalize (if file_size - processed < VE_DEFAULT_CHUNK_SIZE then file_size - processed
        else VE_DEFAULT_CHUNK_SIZE) = n
      have hrd := sys_read_step fd n w
      generalize sys_read fd n w = rd at hrd ⊢
      by_cases hr : rd.1 ≤ 0
      · rw [if_pos hr]; exact hrd
      · rw [if_neg hr]
        by_cases hw : w.build.win32 = true
        · rw [if_pos hw]
          have hc := ve_aes_ctr_encrypt_windows_step rd.2.1 rd.1.toNat aes_key aes_iv rd.2.2
          generalize ve_aes_ctr_encrypt_windows rd.2.1 rd.1.toNat aes_key aes_iv rd.2.2 = c
            at hc ⊢
          by_cases hc0 : c.rc ≠ 0
          · rw [if_pos hc0]; exact hrd.fd_trans hc
          · rw [if_neg hc0]
            have hp := sys_SetFilePointerEx_step fd processed c.world
            have hs := sys_write_step fd c.buf rd.1.toNat (sys_SetFilePointerEx fd processed c.world)
            generalize sys_write fd c.buf rd.1.toNat (sys_SetFilePointerEx fd processed c.world)
              = wr at hs ⊢
            have hall := ((hrd.fd_trans hc).fd_trans hp).fd_trans hs
            by_cases hwr : wr.1 ≠ (rd.1.toNat : Int)
            · rw [if_pos hwr]; exact hall
            · rw [if_neg hwr]; exact hall.fd_trans (ih _ _ _)
        · rw [if_neg hw]
          by_cases ho : w.build.use_openssl = true
          · rw [if_pos ho]
            have hc := ve_aes_ctr_encrypt_openssl_step rd.2.1 rd.1.toNat aes_key aes_iv rd.2.2
            generalize ve_aes_ctr_encrypt_openssl rd.2.1 rd.1.toNat aes_key aes_iv rd.2.2 = c
              at hc ⊢
            by_cases hc0 : c.rc ≠ 0
            · rw [if_pos hc0]; exact hrd.fd_trans hc
            · rw [if_neg hc0]
              have hl := sys_lseek_step fd processed Whence.SEEK_SET c.world
              generalize sys_lseek fd processed Whence.SEEK_SET c.world = s at hl ⊢
              by_cases hs0 : s.1 < 0
              · rw [if_pos hs0]; exact (hrd.fd_trans hc).fd_trans hl
              · rw [if_neg hs0]
                have hs := sys_write_step fd c.buf rd.1.toNat s.2
                generalize sys_write fd c.buf rd.1.toNat s.2 = wr at hs ⊢
                have hall := ((hrd.fd_trans hc).fd_trans hl).fd_trans hs
                by_cases hwr : wr.1 ≠ (rd.1.toNat : Int)
                · rw [if_pos hwr]; exact hall
                · rw [if_neg hwr]; exact hall.fd_trans (ih _ _ _)
          · rw [if_neg ho]
            have hl := sys_lseek_step fd processed Whence.SEEK_SET rd.2.2
            generalize sys_lseek fd processed Whence.SEEK_SET rd.2.2 = s at hl ⊢
            by_cases hs0 : s.1 < 0
            · rw [if_pos hs0]; exact hrd.fd_trans hl
            · rw [if_neg hs0]
              have hs := sys_write_step fd (ve_xor_fallback (rd.2.1.take rd.1.toNat) aes_key)
                rd.1.toNat s.2
              generalize sys_write fd (ve_xor_fallback (rd.2.1.take rd.1.toNat) aes_key)
                rd.1.toNat s.2 = wr at hs ⊢
              have hall := (hrd.fd_trans hl).fd_trans hs
              by_cases hwr : wr.1 ≠ (rd.1.toNat : Int)
              · rw [if_pos hwr]; exact hall
              · rw [if_neg hwr]; exact hall.fd_trans (ih _ _ _)
    · rw [if_neg h]; exact FdStep.fd_refl w

theorem ve_encrypt_file_in_place_aesctr_step (fd : Int) (file_size : Nat) (w : World) :
    FdStep w (ve_encrypt_file_in_place_aesctr fd file_size w).world := by
  unfold ve_encrypt_file_in_place_aesctr
  simp only []
  have hm := sys_malloc_step w
  generalize sys_malloc w = m at hm ⊢
  by_cases h1 : m.1 = false
  · rw [if_pos h1]; exact hm
  · rw [if_neg h1]
    have hk := ve_csrand_step 32 m.2
    generalize ve_csrand 32 m.2 = k at hk ⊢
    by_cases h2 : k.1 ≠ 0
    · rw [if_pos h2]; exact hm.fd_trans hk
    · rw [if_neg h2]
      have hv := ve_csrand_step 16 k.2.2
      generalize ve_csrand 16 k.2.2 = v at hv ⊢
      by_cases h3 : v.1 ≠ 0
      · rw [if_pos h3]; exact (hm.fd_trans hk).fd_trans hv
      · rw [if_neg h3]
        have hs : FdStep v.2.2
            (if w.build.win32 = true then ((0 : Int), v.2.2)
              else sys_lseek fd 0 Whence.SEEK_SET v.2.2).2 := by
          split
          · exact FdStep.fd_refl _
          · exact sys_lseek_step _ _ _ _
        generalize (if w.build.win32 = true then ((0 : Int), v.2.2)
              else sys_lseek fd 0 Whence.SEEK_SET v.2.2) = s at hs ⊢
        have h0 := ((hm.fd_trans hk).fd_trans hv).fd_trans hs
        by_cases h4 : s.1 < 0
        · rw [if_pos h4]; exact h0
        · rw [if_neg h4]
          have hl := ve_encrypt_loop_step fd file_size k.2.1 file_size 0 v.2.1 s.2
          generalize ve_encrypt_loop fd file_size k.2.1 file_size 0 v.2.1 s.2 = l at hl ⊢
          by_cases h5 : l.rc ≠ 0
          · rw [if_pos h5]; exact h0.fd_trans hl
          · rw [if_neg h5]; exact (h0.fd_trans hl).fd_trans (ve_flush_fd_step _ _)

theorem ve_erase_ssd_like_step (fd : Int) (opt : ve_options_t) (w : World) :
    FdStep w (ve_erase_ssd_like fd opt w).2 := by
  unfold ve_erase_ssd_like
  simp only []
  have hg := ve_get_file_size_fd_step fd w
  generalize ve_get_file_size_fd fd w = g at hg ⊢
  by_cases h1 : g.1 ≠ 0
  · rw [if_pos h1]; exact hg
  · rw [if_neg h1]
    by_cases h2 : g.2.1 = 0
    · rw [if_pos h2]; exact hg
    · rw [if_neg h2]
      have he := ve_encrypt_file_in_place_aesctr_step fd g.2.1 g.2.2
      generalize ve_encrypt_file_in_place_aesctr fd g.2.1 g.2.2 = e at he ⊢
      by_cases h3 : e.rc ≠ 0
      · rw [if_pos h3]; exact hg.fd_trans he
      · rw [if_neg h3]
        have hh : FdStep e.world
            (if w.build.linux = true then (sys_fallocate_punch fd g.2.1 e.world).2
              else e.world) := by
          split
          · exact sys_fallocate_punch_step _ _ _
          · exact FdStep.fd_refl _
        generalize (if w.build.linux = true then (sys_fallocate_punch fd g.2.1 e.world).2
              else e.world) = hw at hh ⊢
        have hf := ve_flush_fd_step fd hw
        generalize ve_flush_fd fd hw = f at hf ⊢
        have hall := ((hg.fd_trans he).fd_trans hh).fd_trans hf
        by_cases h4 : f.1 ≠ 0
        · rw [if_pos h4]; exact hall
        · rw [if_neg h4]; exact hall

/-- The engine chosen by `ve_erase_single_file`. -/
theorem ve_engine_step (fd : Int) (opt : ve_options_t) (w : World) :
    FdStep w (if opt.algorithm = VE_ALG_SSD then ve_erase_ssd_like fd opt w
      else ve_erase_hdd_like fd opt w).2 := by
  split
  · exact ve_erase_ssd_like_step _ _ _
  · exact ve_erase_hdd_like_step _ _ _

/-! ## C1: every pass covers the range [0, L) -/

/-- C1 (fails on the code). DoD3 on the two-byte file `f`, every call succeeding
in full: the three passes write the ranges [0,2), [2,4) and [4,6), not three
times [0,2), and the file is six bytes long afterwards; only the first pass
overwrote the original bytes.  Nothing rewinds the descriptor between passes. -/
theorem C1_passes_do_not_rewind :
    (ve_erase_hdd_like (ve_open_rw ["f"] (world_of fs_one_file [])).1 (opts VE_ALG_DOD3 2)
        (ve_open_rw ["f"] (world_of fs_one_file [])).2).1 = VE_SUCCESS ∧
    (ve_erase_hdd_like (ve_open_rw ["f"] (world_of fs_one_file [])).1 (opts VE_ALG_DOD3 2)
        (ve_open_rw ["f"] (world_of fs_one_file [])).2).2.trace.filter Event.isWrite =
      [Event.write 0 2, Event.write 2 2, Event.write 4 2] ∧
    ((ve_erase_hdd_like (ve_open_rw ["f"] (world_of fs_one_file [])).1 (opts VE_ALG_DOD3 2)
        (ve_open_rw ["f"] (world_of fs_one_file [])).2).2.data ["f"]).map List.length =
      some 6 := by
  refine ⟨by decide, by decide, by decide⟩

theorem FailLast.fl_nil : FailLast [] := by
  intro e he; simp at he

theorem FailLast.fl_single (e : Event) : FailLast [e] := by
  intro x hx; simp at hx

theorem FailLast.fl_cons {e : Event} {evs : List Event} (he : e.isFailure = false)
    (h : FailLast evs) : FailLast (e :: evs) := by
  intro x hx
  cases evs with
  | nil => simp at hx
  | cons a t =>
    rw [List.dropLast_cons_of_ne_nil (by simp)] at hx
    rcases List.mem_cons.mp hx with hx | hx
    · rw [hx]; exact he
    · exact h x hx

theorem FailLast.append {a b : List Event} (ha : ∀ e ∈ a, e.isFailure = false)
    (hb : FailLast b) : FailLast (a ++ b) := by
  induction a with
  | nil => simpa using hb
  | cons x t ih =>
    rw [List.cons_append]
    exact FailLast.fl_cons (ha x (by simp)) (ih (fun e he => ha e (by simp [he])))

theorem FailLast.last {evs a b : List Event} {e : Event} (h : FailLast evs)
    (hs : evs = a ++ e :: b) (he : e.isFailure = true) : b = [] := by
  by_contra hb
  have hmem : e ∈ evs.dropLast := by
    rw [hs, List.dropLast_append_of_ne_nil _ (by simp), List.dropLast_cons_of_ne_nil hb]
    simp
  have := h e hmem
  rw [he] at this
  exact absurd this (by decide)

theorem FailLast.of_clean {evs : List Event} (h : ∀ e ∈ evs, e.isFailure = false) :
    FailLast evs :=
  fun e he => h e (List.dropLast_subset _ he)

/-- What `sys_write` logs: one write-stage event, not a failure when at least
one byte was transferred. -/
theorem sys_write_event (fd : Int) (buf : List Nat) (n : Nat) (w : World) :
    ∃ e, (sys_write fd buf n w).2.trace = w.trace ++ [e] ∧ e.isWriteStage = true ∧
      (¬ (sys_write fd buf n w).1 ≤ 0 → e.isFailure = false) := by
  unfold sys_write
  simp only []
  split
  · exact ⟨Event.write_failed, by simp, rfl, fun h => absurd (by simp) h⟩
  · exact ⟨Event.write_failed, by simp, rfl, fun h => absurd (by simp) h⟩
  · rename_i p pos d _ _
    refine ⟨Event.write pos (match w.next.1 with
      | Resp.short k => min k n
      | _ => n), by simp, rfl, ?_⟩
    intro h
    simp only at h
    generalize (match w.next.1 with
      | Resp.short k => min k n
      | _ => n) = k at h ⊢
    cases k with
    | zero => simp at h
    | succ j => rfl

theorem ve_csrand_event (len : Nat) (w : World) :
    ∃ e, (ve_csrand len w).2.2.trace = w.trace ++ [e] ∧ e.isWriteStage = true ∧
      (¬ (ve_csrand len w).1 ≠ 0 → e.isFailure = false) := by
  unfold ve_csrand
  simp only []
  split
  · exact ⟨Event.csrand len false, by simp, rfl, fun h => absurd (by simp) h⟩
  · exact ⟨Event.csrand len true, by simp, rfl, fun _ => rfl⟩

theorem sys_malloc_event (w : World) :
    ∃ e, (sys_malloc w).2.trace = w.trace ++ [e] ∧ e.isWriteStage = true ∧
      e.isFailure = false := by
  unfold sys_malloc
  simp only []
  split
  · exact ⟨Event.malloc false, by simp, rfl, rfl⟩
  · exact ⟨Event.malloc true, by simp, rfl, rfl⟩

theorem ve_flush_fd_event (fd : Int) (w : World) :
    ∃ b, (ve_flush_fd fd w).2.trace = w.trace ++ [Event.fsync b] ∧
      (¬ (ve_flush_fd fd w).1 ≠ 0 → b = true) := by
  unfold ve_flush_fd sys_fsync
  simp only []
  split
  · exact ⟨false, by simp, fun h => absurd (by simp) h⟩
  · exact ⟨true, by simp, fun _ => rfl⟩

theorem WriteRun.wr_nil (rc : Int) : WriteRun rc [] :=
  ⟨by simp, FailLast.fl_nil, by simp⟩

theorem WriteRun.wr_single {e : Event} {rc : Int} (he : e.isWriteStage = true) (hrc : rc ≠ 0) :
    WriteRun rc [e] :=
  ⟨by simpa using he, FailLast.fl_single e, fun h => absurd h hrc⟩

theorem WriteRun.wr_cons {e : Event} {rc : Int} {evs : List Event} (he : e.isWriteStage = true)
    (hf : e.isFailure = false) (h : WriteRun rc evs) : WriteRun rc (e :: evs) := by
  obtain ⟨h1, h2, h3⟩ := h
  refine ⟨?_, FailLast.fl_cons hf h2, ?_⟩
  · intro x hx
    rcases List.mem_cons.mp hx with hx | hx
    · rw [hx]; exact he
    · exact h1 x hx
  · intro hrc x hx
    rcases List.mem_cons.mp hx with hx | hx
    · rw [hx]; exact hf
    · exact h3 hrc x hx

theorem ve_write_pattern_loop_run (fd : Int) (file_size pattern fuel : Nat) :
    ∀ (total : Nat) (w : World), ∃ evs,
      (ve_write_pattern_loop fd file_size pattern fuel total w).2.trace = w.trace ++ evs ∧
      WriteRun (ve_write_pattern_loop fd file_size pattern fuel total w).1 evs := by
  induction fuel with
  | zero => intro total w; exact ⟨[], by simp [ve_write_pattern_loop], WriteRun.wr_nil _⟩
  | succ k ih =>
    intro total w
    rw [ve_write_pattern_loop]
    by_cases h : total < file_size
    · rw [if_pos h]
      simp only []
      generalize (if file_size - total < VE_DEFAULT_CHUNK_SIZE then file_size - total
        else VE_DEFAULT_CHUNK_SIZE) = n
      obtain ⟨e, he, hst, hfl⟩ := sys_write_event fd (List.replicate n pattern) n w
      generalize sys_write fd (List.replicate n pattern) n w = r at he hfl ⊢
      by_cases hr : r.1 ≤ 0
      · rw [if_pos hr]; exact ⟨[e], he, WriteRun.wr_single hst (by simp)⟩
      · rw [if_neg hr]
        obtain ⟨evs, ht, hrun⟩ := ih (total + r.1.toNat) r.2
        exact ⟨e :: evs, by rw [ht, he]; simp, WriteRun.wr_cons hst (hfl hr) hrun⟩
    · rw [if_neg h]; exact ⟨[], by simp, WriteRun.wr_nil _⟩

theorem ve_write_pattern_fd_run (fd : Int) (file_size pattern : Nat) (w : World) :
    ∃ evs, (ve_write_pattern_fd fd file_size pattern w).2.trace = w.trace ++ evs ∧
      WriteRun (ve_write_pattern_fd fd file_size pattern w).1 evs := by
  unfold ve_write_pattern_fd
  simp only []
  obtain ⟨e, he, hst, hfl⟩ := sys_malloc_event w
  generalize sys_malloc w = m at he ⊢
  by_cases h : m.1 = false
  · rw [if_pos h]; exact ⟨[e], he, WriteRun.wr_single hst (by simp)⟩
  · rw [if_neg h]
    obtain ⟨evs, ht, hrun⟩ := ve_write_pattern_loop_run fd file_size pattern file_size 0 m.2
    exact ⟨e :: evs, by rw [ht, he]; simp, WriteRun.wr_cons hst hfl hrun⟩

theorem ve_write_random_loop_run (fd : Int) (file_size fuel : Nat) :
    ∀ (total : Nat) (w : World), ∃ evs,
      (ve_write_random_loop fd file_size fuel total w).2.trace = w.trace ++ evs ∧
      WriteRun (ve_write_random_loop fd file_size fuel total w).1 evs := by
  induction fuel with
  | zero => intro total w; exact ⟨[], by simp [ve_write_random_loop], WriteRun.wr_nil _⟩
  | succ k ih =>
    intro total w
    rw [ve_write_random_loop]
    by_cases h : total < file_size
    · rw [if_pos h]
      simp only []
      generalize (if file_size - total < VE_DEFAULT_CHUNK_SIZE then file_size - total
        else VE_DEFAULT_CHUNK_SIZE) = n
      obtain ⟨ec, hec, hcst, hcfl⟩ := ve_csrand_event n w
      generalize ve_csrand n w = c at hec hcfl ⊢
      by_cases hc0 : c.1 ≠ 0
      · rw [if_pos hc0]; exact ⟨[ec], hec, WriteRun.wr_single hcst (by simp)⟩
      · rw [if_neg hc0]
        obtain ⟨e, he, hst, hfl⟩ := sys_write_event fd c.2.1 n c.2.2
        generalize sys_write fd c.2.1 n c.2.2 = r at he hfl ⊢
        by_cases hr : r.1 ≤ 0
        · rw [if_pos hr]
          exact ⟨[ec, e], by rw [he, hec]; simp,
            WriteRun.wr_cons hcst (hcfl hc0) (WriteRun.wr_single hst (by simp))⟩
        · rw [if_neg hr]
          obtain ⟨evs, ht, hrun⟩ := ih (total + r.1.toNat) r.2
          exact ⟨ec :: e :: evs, by rw [ht, he, hec]; simp,
            WriteRun.wr_cons hcst (hcfl hc0) (WriteRun.wr_cons hst (hfl hr) hrun)⟩
    · rw [if_neg h]; exact ⟨[], by simp, WriteRun.wr_nil _⟩

theorem ve_write_random_fd_run (fd : Int) (file_size : Nat) (w : World) :
    ∃ evs, (ve_write_random_fd fd file_size w).2.trace = w.trace ++ evs ∧
      WriteRun (ve_write_random_fd fd file_size w).1 evs := by
  unfold ve_write_random_fd
  simp only []
  obtain ⟨e, he, hst, hfl⟩ := sys_malloc_event w
  generalize sys_malloc w = m at he ⊢
  by_cases h : m.1 = false
  · rw [if_pos h]; exact ⟨[e], he, WriteRun.wr_single hst (by simp)⟩
  · rw [if_neg h]
    obtain ⟨evs, ht, hrun⟩ := ve_write_random_loop_run fd file_size file_size 0 m.2
    exact ⟨e :: evs, by rw [ht, he]; simp, WriteRun.wr_cons hst hfl hrun⟩

theorem Grows.g_next (P : Event → Prop) (w : World) : Grows P w w.next.2 :=
  ⟨[], by simp, by simp⟩

theorem Grows.g_next_emit {P : Event → Prop} (w : World) (e : Event) (he : P e) :
    Grows P w (w.next.2.emit e) :=
  ⟨[e], by simp, by simpa using he⟩

theorem sys_lseek_query (fd : Int) (off : Int) (wh : Whence) (w : World) :
    Grows (fun e => e.isSizeQuery = true) w (sys_lseek fd off wh w).2 := by
  unfold sys_lseek
  simp only []
  split
  · exact Grows.g_next_emit w _ rfl
  · exact Grows.g_next_emit w _ rfl
  · split
    · exact Grows.g_next_emit w _ rfl
    · exact (Grows.g_next _ w).g_trans (Grows.one rfl rfl)

theorem sys_GetFileSizeEx_query (fd : Int) (w : World) :
    Grows (fun e => e.isSizeQuery = true) w (sys_GetFileSizeEx fd w).2 := by
  unfold sys_GetFileSizeEx
  simp only []
  split
  · exact Grows.g_next_emit w (Event.getsize false) rfl
  · exact Grows.g_next_emit w (Event.getsize false) rfl
  · exact Grows.g_next_emit w (Event.getsize true) rfl

theorem ve_get_file_size_fd_query (fd : Int) (w : World) :
    Grows (fun e => e.isSizeQuery = true) w (ve_get_file_size_fd fd w).2.2 := by
  unfold ve_get_file_size_fd
  split
  · simp only []
    split <;> exact sys_GetFileSizeEx_query _ _
  · simp only []
    split
    · exact (sys_lseek_query _ _ _ _).g_trans (sys_lseek_query _ _ _ _)
    · split <;>
        exact ((sys_lseek_query _ _ _ _).g_trans (sys_lseek_query _ _ _ _)).g_trans
          (sys_lseek_query _ _ _ _)

theorem count_fsync_writeStage {evs : List Event} (h : ∀ e ∈ evs, e.isWriteStage = true) :
    evs.count (Event.fsync true) = 0 := by
  rw [List.count_eq_zero]
  intro hm
  exact absurd (h _ hm) (by decide)

theorem PassRun.failed {rc : ve_status_t} {n : Nat} {evs : List Event}
    (hrc : rc ≠ VE_SUCCESS)
    (h1 : ∀ e ∈ evs, e.isWriteStage = true ∨ ∃ b, e = Event.fsync b)
    (h2 : FailLast evs) : PassRun rc n evs :=
  ⟨h1, h2, fun h => absurd h hrc⟩

theorem ve_hdd_pass_loop_run (fd : Int) (opt : ve_options_t) (size n : Nat) :
    ∀ (w : World), ∃ evs,
      (ve_hdd_pass_loop fd opt size n w).2.trace = w.trace ++ evs ∧
      PassRun (ve_hdd_pass_loop fd opt size n w).1 n evs := by
  induction n with
  | zero =>
    intro w
    exact ⟨[], by simp [ve_hdd_pass_loop], by simp, FailLast.fl_nil, by simp⟩
  | succ k ih =>
    intro w
    rw [ve_hdd_pass_loop]
    have hwr : ∃ ew, (if opt.algorithm = VE_ALG_ZERO then ve_write_pattern_fd fd size 0 w
        else if opt.algorithm = VE_ALG_RANDOM ∨ opt.algorithm = VE_ALG_NIST ∨
            opt.algorithm = VE_ALG_GUTMANN ∨ opt.algorithm = VE_ALG_DOD3 ∨
            opt.algorithm = VE_ALG_DOD7 then ve_write_random_fd fd size w
        else (0, w)).2.trace = w.trace ++ ew ∧
        WriteRun (if opt.algorithm = VE_ALG_ZERO then ve_write_pattern_fd fd size 0 w
        else if opt.algorithm = VE_ALG_RANDOM ∨ opt.algorithm = VE_ALG_NIST ∨
            opt.algorithm = VE_ALG_GUTMANN ∨ opt.algorithm = VE_ALG_DOD3 ∨
            opt.algorithm = VE_ALG_DOD7 then ve_write_random_fd fd size w
        else (0, w)).1 ew := by
      split
      · exact ve_write_pattern_fd_run _ _ _ _
      · split
        · exact ve_write_random_fd_run _ _ _
        · exact ⟨[], by simp, WriteRun.wr_nil _⟩
    simp only []
    generalize (if opt.algorithm = VE_ALG_ZERO then ve_write_pattern_fd fd size 0 w
        else if opt.algorithm = VE_ALG_RANDOM ∨ opt.algorithm = VE_ALG_NIST ∨
            opt.algorithm = VE_ALG_GUTMANN ∨ opt.algorithm = VE_ALG_DOD3 ∨
            opt.algorithm = VE_ALG_DOD7 then ve_write_random_fd fd size w
        else (0, w)) = wr at hwr ⊢
    obtain ⟨ew, hew, hst, hfl, hclean⟩ := hwr
    by_cases h1 : wr.1 ≠ 0
    · rw [if_pos h1]
      exact ⟨ew, hew, PassRun.failed (by simp) (fun e he => Or.inl (hst e he)) hfl⟩
    · rw [if_neg h1]
      have hw0 : wr.1 = 0 := not_not.mp h1
      obtain ⟨b, hb, hbt⟩ := ve_flush_fd_event fd wr.2
      generalize ve_flush_fd fd wr.2 = f at hb hbt ⊢
      have hstage : ∀ e ∈ ew ++ [Event.fsync b],
          e.isWriteStage = true ∨ ∃ b, e = Event.fsync b := by
        intro e he
        rcases List.mem_append.mp he with he | he
        · exact Or.inl (hst e he)
        · exact Or.inr ⟨b, by simpa using he⟩
      by_cases h2 : f.1 ≠ 0
      · rw [if_pos h2]
        refine ⟨ew ++ [Event.fsync b], by rw [hb, hew]; simp, ?_⟩
        exact PassRun.failed (by simp) hstage
          (FailLast.append (hclean hw0) (FailLast.fl_single _))
      · rw [if_neg h2]
        have hbt' : b = true := hbt h2
        subst hbt'
        obtain ⟨rest, hrest, hr1, hr2, hr3⟩ := ih f.2
        have hclean1 : ∀ e ∈ ew ++ [Event.fsync true], e.isFailure = false := by
          intro e he
          rcases List.mem_append.mp he with he | he
          · exact hclean hw0 e he
          · rw [List.mem_singleton.mp he]; rfl
        refine ⟨(ew ++ [Event.fsync true]) ++ rest, by rw [hrest, hb, hew]; simp, ?_, ?_, ?_⟩
        · intro e he
          rcases List.mem_append.mp he with he | he
          · exact hstage e he
          · exact hr1 e he
        · exact FailLast.append hclean1 hr2
        · intro hs
          obtain ⟨hc, hcl⟩ := hr3 hs
          refine ⟨?_, ?_⟩
          · rw [List.count_append, List.count_append, count_fsync_writeStage hst, hc]
            simp [Nat.add_comm]
          · intro e he
            rcases List.mem_append.mp he with he | he
            · exact hclean1 e he
            · exact hcl e he

/-- Log of `ve_erase_hdd_like`: the size query, then the passes. -/
theorem ve_erase_hdd_like_run (fd : Int) (opt : ve_options_t) (w : World) :
    ∃ a b, (ve_erase_hdd_like fd opt w).2.trace = w.trace ++ (a ++ b) ∧
      (∀ e ∈ a, e.isSizeQuery = true) ∧
      PassRun (ve_erase_hdd_like fd opt w).1 (ve_hdd_passes opt).toNat b := by
  unfold ve_erase_hdd_like
  simp only []
  obtain ⟨a, ha, hq⟩ := ve_get_file_size_fd_query fd w
  generalize ve_get_file_size_fd fd w = g at ha ⊢
  by_cases h : g.1 ≠ 0
  · rw [if_pos h]
    exact ⟨a, [], by simpa using ha, hq, PassRun.failed (by simp) (by simp) FailLast.fl_nil⟩
  · rw [if_neg h]
    obtain ⟨b, hb, hrun⟩ := ve_hdd_pass_loop_run fd opt g.2.1 (ve_hdd_passes opt).toNat g.2.2
    exact ⟨a, b, by rw [hb, ha]; simp, hq, hrun⟩

/-! ## C2: pass counts -/

/-- C2. The pass count computed by `ve_erase_hdd_like` is 1 for Zero, 3 for DoD3,
7 for DoD7, 1 for NIST and 35 for Gutmann whatever `options.passes` holds, and
`max 1 options.passes` for RandomN; a run that returns `VE_SUCCESS` has completed
exactly that many passes (it has flushed that many times). -/
theorem C2_pass_count (o : ve_options_t) :
    ve_hdd_passes { o with algorithm := VE_ALG_ZERO } = 1 ∧
    ve_hdd_passes { o with algorithm := VE_ALG_DOD3 } = 3 ∧
    ve_hdd_passes { o with algorithm := VE_ALG_DOD7 } = 7 ∧
    ve_hdd_passes { o with algorithm := VE_ALG_NIST } = 1 ∧
    ve_hdd_passes { o with algorithm := VE_ALG_GUTMANN } = 35 ∧
    ve_hdd_passes { o with algorithm := VE_ALG_RANDOM } = max 1 o.passes ∧
    ∀ (fd : Int) (w : World), (ve_erase_hdd_like fd o w).1 = VE_SUCCESS →
      ∃ evs, (ve_erase_hdd_like fd o w).2.trace = w.trace ++ evs ∧
        evs.count (Event.fsync true) = (ve_hdd_passes o).toNat := by
  refine ⟨by simp [ve_hdd_passes], by simp [ve_hdd_passes, VE_ALG_DOD3, VE_ALG_ZERO, VE_ALG_RANDOM],
    by simp [ve_hdd_passes, VE_ALG_DOD3, VE_ALG_DOD7, VE_ALG_ZERO, VE_ALG_RANDOM],
    by simp [ve_hdd_passes, VE_ALG_DOD3, VE_ALG_DOD7, VE_ALG_ZERO, VE_ALG_RANDOM, VE_ALG_NIST],
    by simp [ve_hdd_passes, VE_ALG_DOD3, VE_ALG_DOD7, VE_ALG_ZERO, VE_ALG_RANDOM, VE_ALG_NIST,
      VE_ALG_GUTMANN], ?_, ?_⟩
  · simp only [ve_hdd_passes]
    rw [if_neg (by decide), if_pos trivial]
    by_cases h : o.passes > 0
    · rw [if_pos h]; omega
    · rw [if_neg h]; omega
  · intro fd w hs
    obtain ⟨a, b, ht, hq, -, -, hrun⟩ := ve_erase_hdd_like_run fd o w
    refine ⟨a ++ b, ht, ?_⟩
    have ha : a.count (Event.fsync true) = 0 := by
      rw [List.count_eq_zero]
      intro hm
      exact absurd (hq _ hm) (by decide)
    rw [List.count_append, ha, (hrun hs).1, Nat.zero_add]

/-- C2, witness: DoD3 on the two-byte file `f` succeeds and flushes three times. -/
theorem C2_pass_count_witness :
    (ve_erase_hdd_like 3 (opts VE_ALG_DOD3 2) (ve_open_rw ["f"] (world_of fs_one_file [])).2).1
        = VE_SUCCESS ∧
    ∃ evs,
      (ve_erase_hdd_like 3 (opts VE_ALG_DOD3 2)
          (ve_open_rw ["f"] (world_of fs_one_file [])).2).2.trace =
        (ve_open_rw ["f"] (world_of fs_one_file [])).2.trace ++ evs ∧
      evs.count (Event.fsync true) = 3 :=
  ⟨by decide, (C2_pass_count (opts VE_ALG_DOD3 2)).2.2.2.2.2.2 3 _ (by decide)⟩

/-! ## C3: content after the Zero pass -/

theorem World.file_eq_some {w : World} {p : Path} {pos : Nat} {d : List Nat} :
    w.file = some (p, pos, d) ↔
      w.ofile = some (p, pos) ∧ fs_lookup w.fs p = some (Node.file d) := by
  unfold World.file
  constructor
  · intro h
    split at h
    · exact absurd h (by simp)
    · rename_i q pos' hq
      split at h
      · rename_i d' hd
        simp only [Option.some.injEq, Prod.mk.injEq] at h
        obtain ⟨h1, h2, h3⟩ := h
        subst h1; subst h2; subst h3
        exact ⟨hq, hd⟩
      · exact absurd h (by simp)
  · rintro ⟨h1, h2⟩
    rw [h1]
    simp only [h2]

theorem fs_set_data_cons (q : Path) (n : Node) (t : List (Path × Node)) (p : Path)
    (d : List Nat) :
    fs_set_data ((q, n) :: t) p d =
      (if q = p then (match n with
        | Node.file _ => (q, Node.file d)
        | Node.dir => (q, n)) else (q, n)) :: fs_set_data t p d := rfl

theorem fs_lookup_set_data {fs : List (Path × Node)} {p : Path} {d : List Nat}
    (h : fs_lookup fs p = some (Node.file d)) (d' : List Nat) :
    fs_lookup (fs_set_data fs p d') p = some (Node.file d') := by
  induction fs with
  | nil => simp [fs_lookup] at h
  | cons a t ih =>
    rcases a with ⟨q, n⟩
    rw [fs_set_data_cons]
    simp only [fs_lookup] at h
    by_cases hq : q = p
    · rw [if_pos hq] at h
      simp only [Option.some.injEq] at h
      subst h
      rw [if_pos hq]
      simp only [fs_lookup]
      rw [if_pos hq]
    · rw [if_neg hq] at h
      rw [if_neg hq]
      simp only [fs_lookup]
      rw [if_neg hq]
      exact ih h

theorem granted_le (a : Resp) (n : Nat) : granted a n ≤ n := by
  unfold granted
  split
  · exact Nat.min_le_right _ _
  · exact Nat.le_refl _

theorem sys_write_fail (fd : Int) (buf : List Nat) (n : Nat) (w : World)
    (h : w.next.1 = Resp.fail) : (sys_write fd buf n w).1 = -1 := by
  unfold sys_write
  simp only [h]

theorem sys_write_eq {w : World} {p : Path} {pos : Nat} {d : List Nat}
    (hf : w.file = some (p, pos, d)) (fd : Int) (buf : List Nat) (n : Nat)
    (hnf : w.next.1 ≠ Resp.fail) :
    sys_write fd buf n w =
      (((granted w.next.1 n : Nat) : Int),
        { w.next.2 with
          fs := fs_set_data w.next.2.fs p (write_at d pos (buf.take (granted w.next.1 n)))
          ofile := some (p, pos + granted w.next.1 n)
          trace := w.next.2.trace ++ [Event.write pos (granted w.next.1 n)] }) := by
  have hf' : w.next.2.file = some (p, pos, d) := by rw [next_file]; exact hf
  unfold sys_write granted
  generalize w.next = r at hnf hf' ⊢
  rcases r with ⟨a, w1⟩
  simp only at hnf hf' ⊢
  cases a with
  | fail => exact absurd rfl hnf
  | ok => simp only [hf']
  | short k => simp only [hf']

/-- What a `write` that transfers something does to the open file. -/
theorem sys_write_file {w : World} {p : Path} {pos : Nat} {d : List Nat}
    (hf : w.file = some (p, pos, d)) (fd : Int) (buf : List Nat) (n : Nat)
    (hr : ¬ (sys_write fd buf n w).1 ≤ 0) :
    ∃ k, 0 < k ∧ k ≤ n ∧ (sys_write fd buf n w).1 = (k : Int) ∧
      (sys_write fd buf n w).2.file = some (p, pos + k, write_at d pos (buf.take k)) := by
  by_cases hnf : w.next.1 = Resp.fail
  · rw [sys_write_fail fd buf n w hnf] at hr
    exact absurd (by decide) hr
  · have hl : fs_lookup w.next.2.fs p = some (Node.file d) := by
      rw [next_fs]; exact (World.file_eq_some.mp hf).2
    rw [sys_write_eq hf fd buf n hnf] at hr ⊢
    refine ⟨granted w.next.1 n, ?_, granted_le _ _, rfl, ?_⟩
    · simp only at hr
      omega
    · exact World.file_eq_some.mpr ⟨rfl, fs_lookup_set_data hl _⟩

theorem sys_malloc_file (w : World) : (sys_malloc w).2.file = w.file := by
  unfold sys_malloc
  simp only []
  split <;> simp

theorem ve_flush_fd_file (fd : Int) (w : World) : (ve_flush_fd fd w).2.file = w.file := by
  unfold ve_flush_fd sys_fsync
  simp only []
  split <;> simp

theorem write_at_zero_prefix (pos k : Nat) (rest : List Nat) :
    write_at (List.replicate pos 0 ++ rest) pos (List.replicate k 0) =
      List.replicate (pos + k) 0 ++ rest.drop k := by
  unfold write_at
  have h1 : (List.replicate pos 0 ++ rest).take pos = List.replicate pos 0 :=
    List.take_left' (by simp)
  have h2 : (List.replicate pos 0 ++ rest).drop (pos + (List.replicate k 0).length) =
      rest.drop k := by
    rw [List.drop_append_eq_append_drop]
    simp
  have h3 : pos - (List.replicate pos 0 ++ rest).length = 0 := by simp
  rw [h1, h2, h3, List.replicate_add]
  simp

/-- Invariant of the Zero sweep: the bytes before the offset are zero and the
length is the file size; a sweep that returns 0 leaves `file_size` zero bytes. -/
theorem ve_write_pattern_loop_zero (fd : Int) (file_size fuel : Nat) (p : Path) :
    ∀ (total : Nat) (rest : List Nat) (w w' : World),
      w.file = some (p, total, List.replicate total 0 ++ rest) →
      total + rest.length = file_size →
      file_size - total ≤ fuel →
      ve_write_pattern_loop fd file_size 0 fuel total w = (0, w') →
      ∃ pos, w'.file = some (p, pos, List.replicate file_size 0) := by
  induction fuel with
  | zero =>
    intro total rest w w' hf hlen hfuel h
    simp only [ve_write_pattern_loop, Prod.mk.injEq, true_and] at h
    subst h
    have hr : rest = [] := List.eq_nil_of_length_eq_zero (by omega)
    subst hr
    have : total = file_size := by simpa using hlen
    subst this
    exact ⟨_, by simpa using hf⟩
  | succ k ih =>
    intro total rest w w' hf hlen hfuel h
    rw [ve_write_pattern_loop] at h
    by_cases hlt : total < file_size
    · rw [if_pos hlt] at h
      simp only [] at h
      have hn : (if file_size - total < VE_DEFAULT_CHUNK_SIZE then file_size - total
          else VE_DEFAULT_CHUNK_SIZE) ≤ rest.length := by
        split <;> omega
      generalize (if file_size - total < VE_DEFAULT_CHUNK_SIZE then file_size - total
        else VE_DEFAULT_CHUNK_SIZE) = n at h hn
      by_cases hr : (sys_write fd (List.replicate n 0) n w).1 ≤ 0
      · rw [if_pos hr] at h
        simp at h
      · rw [if_neg hr] at h
        obtain ⟨j, hj0, hjn, hj, hfile⟩ := sys_write_file hf fd (List.replicate n 0) n hr
        rw [hj] at h
        simp only [Int.toNat_ofNat] at h
        have htake : (List.replicate n 0).take j = List.replicate j 0 := by
          rw [List.take_replicate, Nat.min_eq_left hjn]
        rw [htake, write_at_zero_prefix total j rest] at hfile
        exact ih (total + j) (rest.drop j) _ w' hfile
          (by rw [List.length_drop]; omega) (by omega) h
    · rw [if_neg hlt] at h
      simp only [Prod.mk.injEq, true_and] at h
      subst h
      have hr : rest = [] := List.eq_nil_of_length_eq_zero (by omega)
      subst hr
      have : total = file_size := by simpa using hlen
      subst this
      exact ⟨_, by simpa using hf⟩

/-- An `lseek` on the open file either fails and leaves the offset alone, or
moves the offset to its target. -/
theorem sys_lseek_file {w : World} {p : Path} {pos : Nat} {d : List Nat}
    (hf : w.file = some (p, pos, d)) (fd : Int) (off : Int) (wh : Whence) :
    ((sys_lseek fd off wh w).1 = -1 ∧ (sys_lseek fd off wh w).2.file = some (p, pos, d)) ∨
    (0 ≤ seek_target off wh pos d ∧ (sys_lseek fd off wh w).1 = seek_target off wh pos d ∧
      (sys_lseek fd off wh w).2.file = some (p, (seek_target off wh pos d).toNat, d)) := by
  have hf' : w.next.2.file = some (p, pos, d) := by rw [next_file]; exact hf
  have hl : fs_lookup w.next.2.fs p = some (Node.file d) := (World.file_eq_some.mp hf').2
  unfold sys_lseek
  generalize w.next = r at hf' hl ⊢
  rcases r with ⟨a, w1⟩
  simp only at hf' hl ⊢
  have key : ((if seek_target off wh pos d < 0 then
        ((-1 : Int), w1.emit (Event.lseek false))
      else (seek_target off wh pos d,
        { w1 with ofile := some (p, (seek_target off wh pos d).toNat),
                  trace := w1.trace ++ [Event.lseek true] })).1 = -1 ∧
      (if seek_target off wh pos d < 0 then
        ((-1 : Int), w1.emit (Event.lseek false))
      else (seek_target off wh pos d,
        { w1 with ofile := some (p, (seek_target off wh pos d).toNat),
                  trace := w1.trace ++ [Event.lseek true] })).2.file = some (p, pos, d)) ∨
      (0 ≤ seek_target off wh pos d ∧
      (if seek_target off wh pos d < 0 then
        ((-1 : Int), w1.emit (Event.lseek false))
      else (seek_target off wh pos d,
        { w1 with ofile := some (p, (seek_target off wh pos d).toNat),
                  trace := w1.trace ++ [Event.lseek true] })).1 = seek_target off wh pos d ∧
      (if seek_target off wh pos d < 0 then
        ((-1 : Int), w1.emit (Event.lseek false))
      else (seek_target off wh pos d,
        { w1 with ofile := some (p, (seek_target off wh pos d).toNat),
                  trace := w1.trace ++ [Event.lseek true] })).2.file =
        some (p, (seek_target off wh pos d).toNat, d)) := by
    by_cases ht : seek_target off wh pos d < 0
    · left
      rw [if_pos ht]
      exact ⟨rfl, by simpa using hf'⟩
    · right
      rw [if_neg ht]
      exact ⟨by omega, rfl, World.file_eq_some.mpr ⟨rfl, hl⟩⟩
  cases a with
  | fail => left; simp only [hf']; exact ⟨trivial, by simpa using hf'⟩
  | ok => simp only [hf']; exact key
  | short k => simp only [hf']; exact key

theorem sys_GetFileSizeEx_file {w : World} {p : Path} {pos : Nat} {d : List Nat}
    (hf : w.file = some (p, pos, d)) (fd : Int) :
    (sys_GetFileSizeEx fd w).2.file = some (p, pos, d) ∧
    ∀ n, (sys_GetFileSizeEx fd w).1 = some n → n = d.length := by
  have hf' : w.next.2.file = some (p, pos, d) := by rw [next_file]; exact hf
  unfold sys_GetFileSizeEx
  generalize w.next = r at hf' ⊢
  rcases r with ⟨a, w1⟩
  simp only at hf' ⊢
  cases a <;> simp [hf']

/-- A size query that succeeds returns the length of the open file and leaves
the file and its offset as they were. -/
theorem ve_get_file_size_fd_file {w : World} {p : Path} {pos : Nat} {d : List Nat}
    (hf : w.file = some (p, pos, d)) (fd : Int)
    (h0 : ¬ (ve_get_file_size_fd fd w).1 ≠ 0) :
    (ve_get_file_size_fd fd w).2.1 = d.length ∧
      (ve_get_file_size_fd fd w).2.2.file = some (p, pos, d) := by
  unfold ve_get_file_size_fd at h0 ⊢
  by_cases hw : w.build.win32 = true
  · rw [if_pos hw] at h0 ⊢
    obtain ⟨h1, h2⟩ := sys_GetFileSizeEx_file hf fd
    generalize sys_GetFileSizeEx fd w = r at h0 h1 h2 ⊢
    rcases r with ⟨a, w1⟩
    cases a with
    | none => simp at h0
    | some n => simp only at h1 h2 ⊢; exact ⟨h2 n rfl, h1⟩
  · rw [if_neg hw] at h0 ⊢
    simp only [] at h0 ⊢
    have hc := sys_lseek_file hf fd 0 Whence.SEEK_CUR
    generalize sys_lseek fd 0 Whence.SEEK_CUR w = cur at h0 hc ⊢
    have hcf : cur.2.file = some (p, pos, d) := by
      rcases hc with ⟨-, h⟩ | ⟨-, -, h⟩
      · exact h
      · simpa [seek_target] using h
    have he := sys_lseek_file hcf fd 0 Whence.SEEK_END
    generalize sys_lseek fd 0 Whence.SEEK_END cur.2 = e at h0 he ⊢
    by_cases he0 : e.1 < 0
    · rw [if_pos he0] at h0; simp at h0
    · rw [if_neg he0] at h0 ⊢
      rcases he with ⟨he1, -⟩ | ⟨-, he1, hef⟩
      · exact absurd (by omega) he0
      · have hs := sys_lseek_file hef fd cur.1 Whence.SEEK_SET
        generalize sys_lseek fd cur.1 Whence.SEEK_SET e.2 = s at h0 hs ⊢
        by_cases hs0 : s.1 < 0
        · rw [if_pos hs0] at h0; simp at h0
        · rw [if_neg hs0]
          simp only [seek_target] at he1 hs
          refine ⟨by simp [he1], ?_⟩
          rcases hs with ⟨hs1, -⟩ | ⟨hpos, -, hsf⟩
          · exact absurd (by omega) hs0
          · rcases hc with ⟨hc1, -⟩ | ⟨-, hc1, -⟩
            · omega
            · simp only [seek_target] at hc1
              rw [hsf, hc1]
              simp

theorem sys_open_rw_file {w : World} {p : Path} (h : 0 ≤ (sys_open_rw p w).1) :
    (sys_open_rw p w).2.ofile = some (p, 0) ∧ (sys_open_rw p w).2.fs = w.fs := by
  unfold sys_open_rw at h ⊢
  simp only [] at h ⊢
  split at h
  · exact absurd h (by simp)
  · exact ⟨rfl, by simp⟩
  · exact absurd h (by simp)

theorem ve_write_pattern_fd_zero {w : World} {p : Path} {d : List Nat}
    (hf : w.file = some (p, 0, d)) (fd : Int)
    (h0 : ¬ (ve_write_pattern_fd fd d.length 0 w).1 ≠ 0) :
    ∃ pos, (ve_write_pattern_fd fd d.length 0 w).2.file =
      some (p, pos, List.replicate d.length 0) := by
  unfold ve_write_pattern_fd at h0 ⊢
  simp only [] at h0 ⊢
  by_cases hm : (sys_malloc w).1 = false
  · rw [if_pos hm] at h0; simp at h0
  · rw [if_neg hm] at h0 ⊢
    have hf1 : (sys_malloc w).2.file = some (p, 0, List.replicate 0 0 ++ d) := by
      rw [sys_malloc_file]; simpa using hf
    have h1 : (ve_write_pattern_loop fd d.length 0 d.length 0 (sys_malloc w).2).1 = 0 :=
      not_not.mp h0
    exact ve_write_pattern_loop_zero fd d.length d.length p 0 d _ _ hf1 (by simp) (by simp)
      (Prod.ext h1 rfl)

theorem World.data_of_file {w : World} {p : Path} {pos : Nat} {d : List Nat}
    (h : w.file = some (p, pos, d)) : w.data p = some d := by
  unfold World.data
  rw [(World.file_eq_some.mp h).2]

/-- C3. After `ve_erase_hdd_like` has run the Zero algorithm's single pass with
success on the freshly opened file (before `ve_erase_single_file` unlinks it),
every byte of the file is 0x00 and its length is unchanged, whatever the
environment answered: the statement covers every script of answers, so also
writes that transfer only part of the chunk. -/
theorem C3_zero_pass_content (p : Path) (d : List Nat) (opt : ve_options_t) (w : World)
    (hfile : fs_lookup w.fs p = some (Node.file d))
    (halg : opt.algorithm = VE_ALG_ZERO)
    (hopen : 0 ≤ (ve_open_rw p w).1)
    (hrun : (ve_erase_hdd_like (ve_open_rw p w).1 opt (ve_open_rw p w).2).1 = VE_SUCCESS) :
    (ve_erase_hdd_like (ve_open_rw p w).1 opt (ve_open_rw p w).2).2.data p =
      some (List.replicate d.length 0) := by
  obtain ⟨ho1, ho2⟩ := sys_open_rw_file hopen
  have hf0 : (ve_open_rw p w).2.file = some (p, 0, d) :=
    World.file_eq_some.mpr ⟨ho1, by rw [show (ve_open_rw p w).2.fs = w.fs from ho2]; exact hfile⟩
  generalize (ve_open_rw p w).1 = fd at hrun ⊢
  generalize (ve_open_rw p w).2 = w0 at hrun hf0 ⊢
  have hp : (ve_hdd_passes opt).toNat = 0 + 1 := by
    simp [ve_hdd_passes, halg]
  unfold ve_erase_hdd_like at hrun ⊢
  simp only [] at hrun ⊢
  by_cases hg : (ve_get_file_size_fd fd w0).1 ≠ 0
  · rw [if_pos hg] at hrun; simp at hrun
  · rw [if_neg hg] at hrun ⊢
    obtain ⟨hsz, hf1⟩ := ve_get_file_size_fd_file hf0 fd hg
    rw [hp, hsz] at hrun ⊢
    generalize (ve_get_file_size_fd fd w0).2.2 = w1 at hrun hf1 ⊢
    rw [ve_hdd_pass_loop] at hrun ⊢
    rw [if_pos halg] at hrun ⊢
    simp only [] at hrun ⊢
    by_cases hw : (ve_write_pattern_fd fd d.length 0 w1).1 ≠ 0
    · rw [if_pos hw] at hrun; simp at hrun
    · rw [if_neg hw] at hrun ⊢
      obtain ⟨pos, hf2⟩ := ve_write_pattern_fd_zero hf1 fd hw
      have hf3 := ve_flush_fd_file fd (ve_write_pattern_fd fd d.length 0 w1).2
      rw [hf2] at hf3
      by_cases hfl : (ve_flush_fd fd (ve_write_pattern_fd fd d.length 0 w1).2).1 ≠ 0
      · rw [if_pos hfl] at hrun; simp at hrun
      · rw [if_neg hfl]
        simp only [ve_hdd_pass_loop]
        exact World.data_of_file hf3

/-- C3, witness: the two-byte file `f`, zeroed by two one-byte writes. -/
theorem C3_zero_pass_content_witness :
    (ve_erase_hdd_like (ve_open_rw ["f"] (world_of fs_one_file
        [Resp.ok, Resp.ok, Resp.ok, Resp.ok, Resp.ok, Resp.short 1])).1 (opts VE_ALG_ZERO 2)
      (ve_open_rw ["f"] (world_of fs_one_file
        [Resp.ok, Resp.ok, Resp.ok, Resp.ok, Resp.ok, Resp.short 1])).2).2.trace.filter
        Event.isWrite = [Event.write 0 1, Event.write 1 1] ∧
    (ve_erase_hdd_like (ve_open_rw ["f"] (world_of fs_one_file
        [Resp.ok, Resp.ok, Resp.ok, Resp.ok, Resp.ok, Resp.short 1])).1 (opts VE_ALG_ZERO 2)
      (ve_open_rw ["f"] (world_of fs_one_file
        [Resp.ok, Resp.ok, Resp.ok, Resp.ok, Resp.ok, Resp.short 1])).2).2.data ["f"] =
      some (List.replicate 2 0) :=
  ⟨by decide, C3_zero_pass_content ["f"] [7, 9] (opts VE_ALG_ZERO 2)
    (world_of fs_one_file [Resp.ok, Resp.ok, Resp.ok, Resp.ok, Resp.ok, Resp.short 1])
    (by decide) rfl (by decide) (by decide)⟩

/-! ## The single-file path -/

theorem ve_is_directory_world (p : Path) (w : World) :
    (ve_is_directory p w).2 = w.next.2.emit (Event.lstat p) := by
  unfold ve_is_directory sys_lstat
  simp only []
  split <;> split <;> rfl

theorem ve_is_directory_dir {p : Path} {w : World} (h : (ve_is_directory p w).1 ≠ 0) :
    fs_lookup w.fs p = some Node.dir := by
  unfold ve_is_directory sys_lstat at h
  simp only [] at h
  split at h
  · rename_i heq
    split at heq
    · simp at heq
    · simpa using heq
  · simp at h

theorem ve_is_directory_file {p : Path} {w : World} {d : List Nat}
    (h : fs_lookup w.fs p = some (Node.file d)) : (ve_is_directory p w).1 = 0 := by
  by_contra hne
  rw [ve_is_directory_dir hne] at h
  simp at h

theorem fs_lookup_remove (fs : List (Path × Node)) (p : Path) :
    fs_lookup (fs_remove fs p) p = none := by
  induction fs with
  | nil => rfl
  | cons a t ih =>
    rcases a with ⟨q, n⟩
    unfold fs_remove at ih ⊢
    by_cases hq : q = p
    · rw [List.filter_cons_of_neg (by simp [hq])]; exact ih
    · rw [List.filter_cons_of_pos (by simp [hq])]
      simp only [fs_lookup]
      rw [if_neg hq]; exact ih

theorem sys_unlink_ok {p : Path} {w : World} (h : (sys_unlink p w).1 = 0) :
    fs_lookup (sys_unlink p w).2.fs p = none ∧
      (sys_unlink p w).2.trace = w.trace ++ [Event.unlink p true] := by
  unfold sys_unlink at h ⊢
  simp only [] at h ⊢
  split at h
  · simp at h
  · exact ⟨fs_lookup_remove _ _, by simp⟩
  · simp at h

/-- A successful `ve_remove_file` logs one successful unlink and removes the
path. -/
theorem ve_remove_file_ok {p : Path} {w : World} (h : ¬ (ve_remove_file p w).1 ≠ 0) :
    fs_lookup (ve_remove_file p w).2.fs p = none ∧
      (ve_remove_file p w).2.trace = w.trace ++ [Event.unlink p true] := by
  unfold ve_remove_file at h ⊢
  simp only [] at h ⊢
  by_cases h0 : (sys_unlink p w).1 = 0
  · rw [if_pos h0]
    exact sys_unlink_ok h0
  · rw [if_neg h0] at h
    simp at h

theorem Idle.idle_refl (P : Event → Prop) (w : World) : Idle P w w :=
  ⟨Grows.g_refl P w, rfl⟩

theorem Idle.idle_trans {P : Event → Prop} {w w1 w2 : World} (h1 : Idle P w w1)
    (h2 : Idle P w1 w2) : Idle P w w2 :=
  ⟨h1.grows.g_trans h2.grows, h2.fs.trans h1.fs⟩

theorem Idle.idle_next_emit {P : Event → Prop} (w : World) (e : Event) (he : P e) :
    Idle P w (w.next.2.emit e) :=
  ⟨Grows.g_next_emit w e he, by simp⟩

theorem Idle.idle_emit {P : Event → Prop} (w : World) (e : Event) (he : P e) :
    Idle P w (w.emit e) :=
  ⟨Grows.one rfl he, rfl⟩

theorem sys_stat_idle (p : Path) (w : World) :
    Idle (fun e => e.isTrimCall = true) w (sys_stat p w).2 := by
  unfold sys_stat
  simp only []
  split <;> exact Idle.idle_next_emit w (Event.stat p) rfl

theorem sys_open_ro_idle (p : Path) (w : World) :
    Idle (fun e => e.isTrimCall = true) w (sys_open_ro p w).2 := by
  unfold sys_open_ro
  simp only []
  split
  · exact Idle.idle_next_emit w (Event.open_ro p false) rfl
  · exact Idle.idle_next_emit w (Event.open_ro p false) rfl
  · exact Idle.idle_next_emit w (Event.open_ro p true) rfl

/-- The discard hint logs only its own calls and changes no file. -/
theorem ve_trim_best_effort_idle (p : Path) (a : Int) (w : World) :
    Idle (fun e => e.isTrimCall = true) w (ve_trim_best_effort p a w).2 := by
  unfold ve_trim_best_effort
  by_cases hl : w.build.linux = true
  · rw [if_pos hl]
    simp only []
    have h1 := sys_stat_idle p w
    generalize sys_stat p w = st at h1 ⊢
    generalize (match st.1 with
      | some (Node.file _) => if 2 ≤ p.length then p.dropLast else ["."]
      | _ => p) = mp
    have h2 := sys_open_ro_idle mp st.2
    generalize sys_open_ro mp st.2 = o at h2 ⊢
    by_cases ho : o.1 = true
    · rw [if_pos ho]
      exact (h1.idle_trans h2).idle_trans (Idle.idle_emit _ _ rfl)
    · rw [if_neg ho]
      exact h1.idle_trans h2
  · rw [if_neg hl]
    exact Idle.idle_refl _ w

theorem isFdCall_not_removal (e : Event) (h : e.isFdCall = true) : e.isRemoval = false := by
  cases e <;> simp_all [Event.isFdCall, Event.isRemoval]

theorem isTrimCall_not_removal (e : Event) (h : e.isTrimCall = true) : e.isRemoval = false := by
  cases e <;> simp_all [Event.isTrimCall, Event.isRemoval]

theorem ve_open_rw_idle (p : Path) (w : World) :
    Idle (fun e => ∃ b, e = Event.open_rw p b) w (ve_open_rw p w).2 := by
  unfold ve_open_rw sys_open_rw
  simp only []
  split
  · exact Idle.idle_next_emit w _ ⟨false, rfl⟩
  · exact ⟨(Grows.g_next _ w).g_trans (Grows.one rfl ⟨true, rfl⟩), by simp⟩
  · exact Idle.idle_next_emit w _ ⟨false, rfl⟩

theorem ve_is_directory_idle (p : Path) (w : World) :
    Idle (fun e => e = Event.lstat p) w (ve_is_directory p w).2 := by
  rw [ve_is_directory_world]
  exact Idle.idle_next_emit w _ rfl

theorem ve_close_fd_trace (fd : Int) (w : World) :
    (ve_close_fd fd w).2.trace = w.trace ++ [Event.close] := rfl

theorem ve_close_fd_fs (fd : Int) (w : World) : (ve_close_fd fd w).2.fs = w.fs := rfl

/-- Up to the close of the descriptor, `ve_erase_single_file` removes nothing:
the log from the call to the close holds no unlink and no rmdir, and the paths
and their kinds are unchanged. -/
theorem ve_erase_single_file_until_close (p : Path) (opt : ve_options_t) (w : World) (fd : Int) :
    Grows (fun e => e.isRemoval = false) w
        (ve_close_fd fd
          (if opt.algorithm = VE_ALG_SSD then
              ve_erase_ssd_like (ve_open_rw p (w.emit (Event.erase_single_file p))).1 opt
                (ve_open_rw p (w.emit (Event.erase_single_file p))).2
            else
              ve_erase_hdd_like (ve_open_rw p (w.emit (Event.erase_single_file p))).1 opt
                (ve_open_rw p (w.emit (Event.erase_single_file p))).2).2).2 ∧
      fs_shape (ve_close_fd fd
          (if opt.algorithm = VE_ALG_SSD then
              ve_erase_ssd_like (ve_open_rw p (w.emit (Event.erase_single_file p))).1 opt
                (ve_open_rw p (w.emit (Event.erase_single_file p))).2
            else
              ve_erase_hdd_like (ve_open_rw p (w.emit (Event.erase_single_file p))).1 opt
                (ve_open_rw p (w.emit (Event.erase_single_file p))).2).2).2.fs =
        fs_shape w.fs := by
  have h0 : Grows (fun e => e.isRemoval = false) w (w.emit (Event.erase_single_file p)) :=
    Grows.one rfl rfl
  have ho := ve_open_rw_idle p (w.emit (Event.erase_single_file p))
  generalize ve_open_rw p (w.emit (Event.erase_single_file p)) = o at ho ⊢
  have he := ve_engine_step o.1 opt o.2
  generalize (if opt.algorithm = VE_ALG_SSD then ve_erase_ssd_like o.1 opt o.2
    else ve_erase_hdd_like o.1 opt o.2) = e at he ⊢
  have ho' : Grows (fun e => e.isRemoval = false) (w.emit (Event.erase_single_file p)) o.2 :=
    ho.grows.mono (by rintro e ⟨b, rfl⟩; rfl)
  have he' : Grows (fun e => e.isRemoval = false) o.2 e.2 :=
    he.grows.mono isFdCall_not_removal
  have hc : Grows (fun e => e.isRemoval = false) e.2 (ve_close_fd fd e.2).2 :=
    Grows.one rfl rfl
  refine ⟨((h0.g_trans ho').g_trans he').g_trans hc, ?_⟩
  rw [ve_close_fd_fs, he.shape, ho.fs]
  rfl

/-- A single-file erase that is not a dry run and returns `VE_SUCCESS` has
unlinked the path, and that unlink is the only removal it attempted. -/
theorem ve_erase_single_file_success (p : Path) (opt : ve_options_t) (w : World)
    (hdry : opt.dry_run = 0) (hs : (ve_erase_single_file p opt w).1 = VE_SUCCESS) :
    fs_lookup (ve_erase_single_file p opt w).2.fs p = none ∧
    ∃ before after,
      (ve_erase_single_file p opt w).2.trace =
        w.trace ++ before ++ Event.unlink p true :: after ∧
      (∀ e ∈ before, e.isRemoval = false) ∧ (∀ e ∈ after, e.isTrimCall = true) := by
  unfold ve_erase_single_file at hs ⊢
  simp only [] at hs ⊢
  rw [if_neg (by simp [hdry])] at hs ⊢
  by_cases h1 : (ve_open_rw p (w.emit (Event.erase_single_file p))).1 < 0
  · rw [if_pos h1] at hs; simp at hs
  · rw [if_neg h1] at hs ⊢
    obtain ⟨⟨before, hb, hbr⟩, -⟩ := ve_erase_single_file_until_close p opt w
      (ve_open_rw p (w.emit (Event.erase_single_file p))).1
    generalize (if opt.algorithm = VE_ALG_SSD then
        ve_erase_ssd_like (ve_open_rw p (w.emit (Event.erase_single_file p))).1 opt
          (ve_open_rw p (w.emit (Event.erase_single_file p))).2
      else
        ve_erase_hdd_like (ve_open_rw p (w.emit (Event.erase_single_file p))).1 opt
          (ve_open_rw p (w.emit (Event.erase_single_file p))).2) = e at hs hb ⊢
    by_cases h2 : e.1 ≠ VE_SUCCESS
    · rw [if_pos h2] at hs; exact absurd hs h2
    · rw [if_neg h2] at hs ⊢
      generalize (ve_close_fd (ve_open_rw p (w.emit (Event.erase_single_file p))).1 e.2).2 = c
        at hs hb ⊢
      by_cases h3 : (ve_remove_file p c).1 ≠ 0
      · rw [if_pos h3] at hs; simp at hs
      · rw [if_neg h3]
        obtain ⟨hgone, htr⟩ := ve_remove_file_ok h3
        by_cases h4 : opt.trim_mode = 0 ∨ opt.trim_mode = 1
        · rw [if_pos h4]
          obtain ⟨⟨after, ha, har⟩, hfs⟩ := ve_trim_best_effort_idle p 0 (ve_remove_file p c).2
          refine ⟨?_, before, after, ?_, hbr, har⟩
          · show fs_lookup (ve_trim_best_effort p 0 (ve_remove_file p c).2).2.fs p = none
            rw [hfs]; exact hgone
          · show (ve_trim_best_effort p 0 (ve_remove_file p c).2).2.trace = _
            rw [ha, htr, hb]; simp
        · rw [if_neg h4]
          refine ⟨hgone, before, [], ?_, hbr, by simp⟩
          show (ve_remove_file p c).2.trace = _
          rw [htr, hb]

/-! ## C4: success means the path is gone -/

/-- C4. For an existing regular file and any algorithm, with `dry_run` unset, a
`ve_erase_path` that returns `VE_SUCCESS` leaves no entry at the path: the log
holds a successful unlink of that path, the only removal attempted, and what
follows it is at most the discard hint. -/
theorem C4_success_means_unlinked (p : Path) (d : List Nat) (opt : ve_options_t)
    (w : World) (r : ve_status_t × World)
    (hfile : fs_lookup w.fs p = some (Node.file d)) (hdry : opt.dry_run = 0)
    (h : ve_erase_path (some p) (some opt) w = some r) (hs : r.1 = VE_SUCCESS) :
    fs_lookup r.2.fs p = none ∧
    ∃ before after,
      r.2.trace = w.trace ++ before ++ Event.unlink p true :: after ∧
      (∀ e ∈ before, e.isRemoval = false) ∧ (∀ e ∈ after, e.isTrimCall = true) := by
  unfold ve_erase_path at h
  simp only [] at h
  rw [if_neg (by simp [ve_is_directory_file hfile])] at h
  simp only [Option.some.injEq] at h
  subst h
  have hw : (ve_is_directory p w).2.fs = w.fs := (ve_is_directory_idle p w).fs
  have ht : (ve_is_directory p w).2.trace = w.trace ++ [Event.lstat p] := by
    rw [ve_is_directory_world]; simp
  obtain ⟨hgone, before, after, htr, hb, ha⟩ :=
    ve_erase_single_file_success p opt (ve_is_directory p w).2 hdry hs
  refine ⟨hgone, Event.lstat p :: before, after, by rw [htr, ht]; simp, ?_, ha⟩
  intro e he
  rcases List.mem_cons.mp he with he | he
  · rw [he]; rfl
  · exact hb e he

/-- C4, witness: the NIST pass on the file `f` of the tree, discard hint on. -/
theorem C4_success_means_unlinked_witness :
    fs_lookup (ve_erase_single_file ["d", "f"] (opts VE_ALG_NIST 0)
        (ve_is_directory ["d", "f"] (world_of fs_tree [])).2).2.fs ["d", "f"] = none ∧
    ∃ before after,
      (ve_erase_single_file ["d", "f"] (opts VE_ALG_NIST 0)
        (ve_is_directory ["d", "f"] (world_of fs_tree [])).2).2.trace =
        (world_of fs_tree []).trace ++ before ++ Event.unlink ["d", "f"] true :: after ∧
      (∀ e ∈ before, e.isRemoval = false) ∧ (∀ e ∈ after, e.isTrimCall = true) :=
  C4_success_means_unlinked ["d", "f"] [7, 9] (opts VE_ALG_NIST 0) (world_of fs_tree [])
    (ve_erase_single_file ["d", "f"] (opts VE_ALG_NIST 0)
      (ve_is_directory ["d", "f"] (world_of fs_tree [])).2)
    (by decide) rfl rfl (by decide)

/-! ## C5: a failing single-file erase -/

theorem ve_hdd_pass_loop_status (fd : Int) (opt : ve_options_t) (size n : Nat) :
    ∀ (w : World), (ve_hdd_pass_loop fd opt size n w).1 = VE_SUCCESS ∨
      (ve_hdd_pass_loop fd opt size n w).1 = VE_ERR_IO := by
  induction n with
  | zero => intro w; left; rfl
  | succ k ih =>
    intro w
    rw [ve_hdd_pass_loop]
    simp only []
    generalize (if opt.algorithm = VE_ALG_ZERO then ve_write_pattern_fd fd size 0 w
        else if opt.algorithm = VE_ALG_RANDOM ∨ opt.algorithm = VE_ALG_NIST ∨
            opt.algorithm = VE_ALG_GUTMANN ∨ opt.algorithm = VE_ALG_DOD3 ∨
            opt.algorithm = VE_ALG_DOD7 then ve_write_random_fd fd size w
        else (0, w)) = wr
    by_cases h1 : wr.1 ≠ 0
    · rw [if_pos h1]; right; rfl
    · rw [if_neg h1]
      by_cases h2 : (ve_flush_fd fd wr.2).1 ≠ 0
      · rw [if_pos h2]; right; rfl
      · rw [if_neg h2]; exact ih _

theorem ve_erase_hdd_like_status (fd : Int) (opt : ve_options_t) (w : World) :
    (ve_erase_hdd_like fd opt w).1 = VE_SUCCESS ∨ (ve_erase_hdd_like fd opt w).1 = VE_ERR_IO := by
  unfold ve_erase_hdd_like
  simp only []
  by_cases h : (ve_get_file_size_fd fd w).1 ≠ 0
  · rw [if_pos h]; right; rfl
  · rw [if_neg h]; exact ve_hdd_pass_loop_status _ _ _ _ _

theorem ve_erase_ssd_like_status (fd : Int) (opt : ve_options_t) (w : World) :
    (ve_erase_ssd_like fd opt w).1 = VE_SUCCESS ∨ (ve_erase_ssd_like fd opt w).1 = VE_ERR_IO := by
  unfold ve_erase_ssd_like
  simp only []
  by_cases h1 : (ve_get_file_size_fd fd w).1 ≠ 0
  · rw [if_pos h1]; right; rfl
  · rw [if_neg h1]
    by_cases h2 : (ve_get_file_size_fd fd w).2.1 = 0
    · rw [if_pos h2]; left; rfl
    · rw [if_neg h2]
      generalize ve_encrypt_file_in_place_aesctr fd (ve_get_file_size_fd fd w).2.1
        (ve_get_file_size_fd fd w).2.2 = e
      by_cases h3 : e.rc ≠ 0
      · rw [if_pos h3]; right; rfl
      · rw [if_neg h3]
        generalize (if w.build.linux = true then
          (sys_fallocate_punch fd (ve_get_file_size_fd fd w).2.1 e.world).2 else e.world) = hw
        by_cases h4 : (ve_flush_fd fd hw).1 ≠ 0
        · rw [if_pos h4]; right; rfl
        · rw [if_neg h4]; left; rfl

/-- In a log `pre ++ b ++ [c]` where only `b` can hold a failure, and only as its
last event, whatever follows a failure is exactly `[c]`. -/
theorem fail_then_last {pre b : List Event} {c : Event}
    (hpre : ∀ e ∈ pre, e.isFailure = false) (hb : FailLast b) (hc : c.isFailure = false)
    {a t : List Event} {x : Event} (hs : pre ++ b ++ [c] = a ++ x :: t)
    (hx : x.isFailure = true) : t = [c] := by
  have hL : FailLast (pre ++ b) := FailLast.append hpre hb
  rcases List.eq_nil_or_concat t with rfl | ⟨t', l, rfl⟩
  · have h1 : (pre ++ b) ++ [c] = a ++ [x] := hs
    have h2 := (List.append_inj' h1 rfl).2
    simp only [List.cons.injEq, and_true] at h2
    rw [← h2, hc] at hx
    exact absurd hx (by decide)
  · have h1 : (pre ++ b) ++ [c] = (a ++ x :: t') ++ [l] := by
      rw [hs]; simp
    obtain ⟨h2, h3⟩ := List.append_inj' h1 rfl
    simp only [List.cons.injEq, and_true] at h3
    have := hL.last h2 hx
    rw [this, h3]
    rfl

theorem isSizeQuery_not_failure (e : Event) (h : e.isSizeQuery = true) :
    e.isFailure = false := by
  cases e <;> simp_all [Event.isSizeQuery, Event.isFailure]

theorem fs_lookup_file_of_shape {fs fs' : List (Path × Node)} (h : fs_shape fs' = fs_shape fs)
    {p : Path} {d : List Nat} (hf : fs_lookup fs p = some (Node.file d)) :
    ∃ d', fs_lookup fs' p = some (Node.file d') := by
  have := fs_lookup_shape h p
  rw [hf] at this
  cases hl : fs_lookup fs' p with
  | none => rw [hl] at this; simp at this
  | some n =>
    cases n with
    | file d' => exact ⟨d', rfl⟩
    | dir => rw [hl] at this; simp at this

/-- C5. In a single-file erase that is not a dry run, when the open fails or the
selected engine returns a non-success status, `ve_erase_single_file` returns
that status, which is `VE_ERR_IO`; it attempts no unlink (and no rmdir), so the
path still names a regular file; and with an overwrite algorithm nothing but the
close of the descriptor follows the first failing write, random fill or flush:
no further pass is started. -/
theorem C5_failure_keeps_file (p : Path) (d : List Nat) (opt : ve_options_t) (w : World)
    (hfile : fs_lookup w.fs p = some (Node.file d)) (hdry : opt.dry_run = 0)
    (hfail : (ve_open_rw p (w.emit (Event.erase_single_file p))).1 < 0 ∨
      (if opt.algorithm = VE_ALG_SSD then
          ve_erase_ssd_like (ve_open_rw p (w.emit (Event.erase_single_file p))).1 opt
            (ve_open_rw p (w.emit (Event.erase_single_file p))).2
        else
          ve_erase_hdd_like (ve_open_rw p (w.emit (Event.erase_single_file p))).1 opt
            (ve_open_rw p (w.emit (Event.erase_single_file p))).2).1 ≠ VE_SUCCESS) :
    (ve_erase_single_file p opt w).1 = VE_ERR_IO ∧
    (¬ (ve_open_rw p (w.emit (Event.erase_single_file p))).1 < 0 →
      (ve_erase_single_file p opt w).1 =
        (if opt.algorithm = VE_ALG_SSD then
          ve_erase_ssd_like (ve_open_rw p (w.emit (Event.erase_single_file p))).1 opt
            (ve_open_rw p (w.emit (Event.erase_single_file p))).2
        else
          ve_erase_hdd_like (ve_open_rw p (w.emit (Event.erase_single_file p))).1 opt
            (ve_open_rw p (w.emit (Event.erase_single_file p))).2).1) ∧
    (∃ d', fs_lookup (ve_erase_single_file p opt w).2.fs p = some (Node.file d')) ∧
    ∃ evs, (ve_erase_single_file p opt w).2.trace = w.trace ++ evs ∧
      (∀ e ∈ evs, e.isRemoval = false) ∧
      (opt.algorithm ≠ VE_ALG_SSD → ∀ a x t, evs = a ++ x :: t → x.isFailure = true →
        t = [Event.close]) := by
  have hpre := ve_erase_single_file_until_close p opt w
    (ve_open_rw p (w.emit (Event.erase_single_file p))).1
  have hstat : (if opt.algorithm = VE_ALG_SSD then
          ve_erase_ssd_like (ve_open_rw p (w.emit (Event.erase_single_file p))).1 opt
            (ve_open_rw p (w.emit (Event.erase_single_file p))).2
        else
          ve_erase_hdd_like (ve_open_rw p (w.emit (Event.erase_single_file p))).1 opt
            (ve_open_rw p (w.emit (Event.erase_single_file p))).2).1 = VE_SUCCESS ∨
      (if opt.algorithm = VE_ALG_SSD then
          ve_erase_ssd_like (ve_open_rw p (w.emit (Event.erase_single_file p))).1 opt
            (ve_open_rw p (w.emit (Event.erase_single_file p))).2
        else
          ve_erase_hdd_like (ve_open_rw p (w.emit (Event.erase_single_file p))).1 opt
            (ve_open_rw p (w.emit (Event.erase_single_file p))).2).1 = VE_ERR_IO := by
    split
    · exact ve_erase_ssd_like_status _ _ _
    · exact ve_erase_hdd_like_status _ _ _
  have hhdd : opt.algorithm ≠ VE_ALG_SSD → ∃ a b,
      (if opt.algorithm = VE_ALG_SSD then
          ve_erase_ssd_like (ve_open_rw p (w.emit (Event.erase_single_file p))).1 opt
            (ve_open_rw p (w.emit (Event.erase_single_file p))).2
        else
          ve_erase_hdd_like (ve_open_rw p (w.emit (Event.erase_single_file p))).1 opt
            (ve_open_rw p (w.emit (Event.erase_single_file p))).2).2.trace =
        (ve_open_rw p (w.emit (Event.erase_single_file p))).2.trace ++ (a ++ b) ∧
      (∀ e ∈ a, e.isSizeQuery = true) ∧ FailLast b := by
    intro hne
    rw [if_neg hne]
    obtain ⟨a, b, h1, h2, h3⟩ := ve_erase_hdd_like_run
      (ve_open_rw p (w.emit (Event.erase_single_file p))).1 opt
      (ve_open_rw p (w.emit (Event.erase_single_file p))).2
    exact ⟨a, b, h1, h2, h3.2.1⟩
  have ho := ve_open_rw_idle p (w.emit (Event.erase_single_file p))
  unfold ve_erase_single_file
  simp only []
  rw [if_neg (by simp [hdry])]
  generalize ve_open_rw p (w.emit (Event.erase_single_file p)) = o at hfail hpre hstat hhdd ho ⊢
  obtain ⟨⟨eo, heo, hoev⟩, hofs⟩ := ho
  by_cases h1 : o.1 < 0
  · rw [if_pos h1]
    refine ⟨rfl, fun h => absurd h1 h, ?_, ?_⟩
    · exact ⟨d, by rw [show o.2.fs = w.fs from hofs]; exact hfile⟩
    · refine ⟨Event.erase_single_file p :: eo, by rw [show o.2.trace = _ from heo]; simp, ?_, ?_⟩
      · intro e he
        rcases List.mem_cons.mp he with he | he
        · rw [he]; rfl
        · obtain ⟨b, hb⟩ := hoev e he
          rw [hb]; rfl
      · intro _ a x t hs hx
        have hmem : x ∈ Event.erase_single_file p :: eo := by rw [hs]; simp
        rcases List.mem_cons.mp hmem with he | he
        · rw [he] at hx; simp [Event.isFailure] at hx
        · obtain ⟨b, hb⟩ := hoev x he
          rw [hb] at hx; simp [Event.isFailure] at hx
  · rw [if_neg h1]
    have hne : (if opt.algorithm = VE_ALG_SSD then ve_erase_ssd_like o.1 opt o.2
        else ve_erase_hdd_like o.1 opt o.2).1 ≠ VE_SUCCESS := by
      rcases hfail with h | h
      · exact absurd h h1
      · exact h
    generalize (if opt.algorithm = VE_ALG_SSD then ve_erase_ssd_like o.1 opt o.2
        else ve_erase_hdd_like o.1 opt o.2) = e at hpre hstat hhdd hne ⊢
    rw [if_pos hne]
    obtain ⟨⟨evs, hevs, hrem⟩, hshape⟩ := hpre
    refine ⟨?_, fun _ => rfl, fs_lookup_file_of_shape hshape hfile, evs, hevs, hrem, ?_⟩
    · rcases hstat with h | h
      · exact absurd h hne
      · exact h
    · intro halg a x t hs hx
      obtain ⟨qa, qb, hq, hqa, hqb⟩ := hhdd halg
      have hev : evs = (Event.erase_single_file p :: eo ++ qa) ++ qb ++ [Event.close] := by
        have h2 : (ve_close_fd o.1 e.2).2.trace =
            w.trace ++ ((Event.erase_single_file p :: eo ++ qa) ++ qb ++ [Event.close]) := by
          rw [ve_close_fd_trace, hq, show o.2.trace = _ from heo]; simp
        rw [hevs] at h2
        exact List.append_cancel_left h2
      rw [hev] at hs
      refine fail_then_last (c := Event.close) ?_ hqb rfl hs hx
      intro y hy
      rcases List.mem_append.mp hy with hy | hy
      · rcases List.mem_cons.mp hy with hy | hy
        · rw [hy]; rfl
        · obtain ⟨b, hb⟩ := hoev y hy
          rw [hb]; rfl
      · exact isSizeQuery_not_failure y (hqa y hy)

/-- C5, witness: DoD3 on `f` with the write of the second pass failing; the
status is `VE_ERR_IO`, the file is still there, and the log ends with the failed
write and the close. -/
theorem C5_failure_keeps_file_witness :
    (ve_erase_single_file ["f"] (opts VE_ALG_DOD3 2) world_second_pass_fails).1 = VE_ERR_IO ∧
    (∃ d', fs_lookup (ve_erase_single_file ["f"] (opts VE_ALG_DOD3 2)
      world_second_pass_fails).2.fs ["f"] = some (Node.file d')) ∧
    (ve_erase_single_file ["f"] (opts VE_ALG_DOD3 2) world_second_pass_fails).2.trace.drop 11 =
      [Event.write_failed, Event.close] :=
  ⟨(C5_failure_keeps_file ["f"] [7, 9] (opts VE_ALG_DOD3 2) world_second_pass_fails
      (by decide) rfl (Or.inr (by decide))).1,
   (C5_failure_keeps_file ["f"] [7, 9] (opts VE_ALG_DOD3 2) world_second_pass_fails
      (by decide) rfl (Or.inr (by decide))).2.2.1,
   by decide⟩

/-! ## C6: dry run on a file -/

/-- C6. With `dry_run` set, `ve_erase_path` on an existing regular file returns
`VE_SUCCESS` and leaves the whole filesystem as it was, so the file keeps its
content, length and existence; the only call it makes is the `lstat` that tells
a file from a directory (the second log entry is the ghost marker of the call
of `ve_erase_single_file`): no open, write, unlink or discard. -/
theorem C6_dry_run_file (p : Path) (d : List Nat) (opt : ve_options_t) (w : World)
    (hfile : fs_lookup w.fs p = some (Node.file d)) (hdry : opt.dry_run ≠ 0) :
    ∃ w', ve_erase_path (some p) (some opt) w = some (VE_SUCCESS, w') ∧
      w'.fs = w.fs ∧
      w'.trace = w.trace ++ [Event.lstat p, Event.erase_single_file p] := by
  unfold ve_erase_path
  simp only []
  rw [if_neg (by simp [ve_is_directory_file hfile])]
  unfold ve_erase_single_file
  simp only []
  rw [if_pos hdry]
  refine ⟨_, rfl, ?_, ?_⟩
  · rw [emit_fs]; exact (ve_is_directory_idle p w).fs
  · rw [emit_trace, ve_is_directory_world]; simp

/-- C6, witness: a dry run of the Gutmann algorithm on the file `f` of the tree. -/
theorem C6_dry_run_file_witness :
    ∃ w', ve_erase_path (some ["d", "f"]) (some (opts_dry VE_ALG_GUTMANN)) (world_of fs_tree [])
        = some (VE_SUCCESS, w') ∧
      w'.fs = fs_tree ∧
      w'.trace = [Event.lstat ["d", "f"], Event.erase_single_file ["d", "f"]] :=
  C6_dry_run_file ["d", "f"] [7, 9] (opts_dry VE_ALG_GUTMANN) (world_of fs_tree [])
    (by decide) (by decide)

/-! ## C7: dry run on a directory -/

/-- C7 (fails on the code). A dry run on the directory `d`, which holds the file
`f` and the empty directory `s`: the file is kept, but `rmdir` is attempted on
`s` and on `d`, and `s` is removed.  `ve_walk_and_erase` never reads `dry_run`;
only `ve_erase_single_file` does. -/
theorem C7_dry_run_removes_empty_dir :
    (ve_erase_path (some ["d"]) (some (opts_dry VE_ALG_NIST)) (world_of fs_tree [])).map
        (fun r => (r.1, r.2.fs)) =
      some (VE_SUCCESS, [(["d"], Node.dir), (["d", "f"], Node.file [7, 9])]) ∧
    (ve_erase_path (some ["d"]) (some (opts_dry VE_ALG_NIST)) (world_of fs_tree [])).map
        (fun r => r.2.trace.filter Event.isRemoval) =
      some [Event.rmdir ["d", "s"] true, Event.rmdir ["d", "s"] false,
        Event.rmdir ["d"] false] := by
  refine ⟨by decide, by decide⟩

/-! ## C10: zero-length files -/

theorem Calm.next {w : World} (h : Calm w) : w.next.1 ≠ Resp.fail ∧ Calm w.next.2 := by
  unfold Calm at h ⊢
  unfold World.next
  cases hs : w.script with
  | nil => simp [hs]
  | cons r rs =>
    rw [hs] at h
    simp only
    exact ⟨h r (by simp), fun x hx => h x (by simp [hx])⟩

theorem Calm.emit {w : World} (h : Calm w) (e : Event) : Calm (w.emit e) := h

theorem sys_malloc_calm {w : World} (h : Calm w) :
    (sys_malloc w).1 = true ∧ Calm (sys_malloc w).2 := by
  obtain ⟨h1, h2⟩ := h.next
  unfold sys_malloc
  simp only []
  exact ⟨trivial, h2⟩

theorem ve_flush_fd_calm {w : World} (h : Calm w) (fd : Int) :
    (ve_flush_fd fd w).1 = 0 ∧ Calm (ve_flush_fd fd w).2 := by
  obtain ⟨h1, h2⟩ := h.next
  unfold ve_flush_fd sys_fsync
  simp only []
  exact ⟨trivial, h2⟩

theorem sys_lseek_calm {w : World} {p : Path} {pos : Nat} {d : List Nat} (h : Calm w)
    (hf : w.file = some (p, pos, d)) (fd : Int) (off : Int) (wh : Whence)
    (ht : 0 ≤ seek_target off wh pos d) :
    (sys_lseek fd off wh w).1 = seek_target off wh pos d ∧ Calm (sys_lseek fd off wh w).2 ∧
      (sys_lseek fd off wh w).2.file = some (p, (seek_target off wh pos d).toNat, d) := by
  obtain ⟨h1, h2⟩ := h.next
  have hf' : w.next.2.file = some (p, pos, d) := by rw [next_file]; exact hf
  have hl : fs_lookup w.next.2.fs p = some (Node.file d) := (World.file_eq_some.mp hf').2
  unfold sys_lseek
  generalize w.next = r at h1 h2 hf' hl ⊢
  rcases r with ⟨a, w1⟩
  simp only at h1 h2 hf' hl ⊢
  have key : (if seek_target off wh pos d < 0 then
        ((-1 : Int), w1.emit (Event.lseek false))
      else (seek_target off wh pos d,
        { w1 with ofile := some (p, (seek_target off wh pos d).toNat),
                  trace := w1.trace ++ [Event.lseek true] })).1 = seek_target off wh pos d ∧
      Calm (if seek_target off wh pos d < 0 then
        ((-1 : Int), w1.emit (Event.lseek false))
      else (seek_target off wh pos d,
        { w1 with ofile := some (p, (seek_target off wh pos d).toNat),
                  trace := w1.trace ++ [Event.lseek true] })).2 ∧
      (if seek_target off wh pos d < 0 then
        ((-1 : Int), w1.emit (Event.lseek false))
      else (seek_target off wh pos d,
        { w1 with ofile := some (p, (seek_target off wh pos d).toNat),
                  trace := w1.trace ++ [Event.lseek true] })).2.file =
        some (p, (seek_target off wh pos d).toNat, d) := by
    rw [if_neg (by omega)]
    exact ⟨rfl, h2, World.file_eq_some.mpr ⟨rfl, hl⟩⟩
  cases a with
  | fail => exact absurd rfl h1
  | ok => simp only [hf']; exact key
  | short k => simp only [hf']; exact key

theorem sys_GetFileSizeEx_calm {w : World} {p : Path} {pos : Nat} {d : List Nat} (h : Calm w)
    (hf : w.file = some (p, pos, d)) (fd : Int) :
    (sys_GetFileSizeEx fd w).1 = some d.length ∧ Calm (sys_GetFileSizeEx fd w).2 := by
  obtain ⟨h1, h2⟩ := h.next
  have hf' : w.next.2.file = some (p, pos, d) := by rw [next_file]; exact hf
  unfold sys_GetFileSizeEx
  generalize w.next = r at h1 h2 hf' ⊢
  rcases r with ⟨a, w1⟩
  simp only at h1 h2 hf' ⊢
  cases a with
  | fail => exact absurd rfl h1
  | ok => simp only [hf']; exact ⟨trivial, h2⟩
  | short k => simp only [hf']; exact ⟨trivial, h2⟩

/-- Under a calm environment the size query succeeds. -/
theorem ve_get_file_size_fd_calm {w : World} {p : Path} {pos : Nat} {d : List Nat}
    (h : Calm w) (hf : w.file = some (p, pos, d)) (fd : Int) :
    (ve_get_file_size_fd fd w).1 = 0 ∧ Calm (ve_get_file_size_fd fd w).2.2 := by
  unfold ve_get_file_size_fd
  by_cases hw : w.build.win32 = true
  · rw [if_pos hw]
    obtain ⟨h1, h2⟩ := sys_GetFileSizeEx_calm h hf fd
    generalize sys_GetFileSizeEx fd w = r at h1 h2 ⊢
    rcases r with ⟨a, w1⟩
    simp only at h1 h2
    subst h1
    exact ⟨rfl, h2⟩
  · rw [if_neg hw]
    simp only []
    obtain ⟨c1, c2, c3⟩ := sys_lseek_calm h hf fd 0 Whence.SEEK_CUR
      (by simp [seek_target])
    generalize sys_lseek fd 0 Whence.SEEK_CUR w = cur at c1 c2 c3 ⊢
    obtain ⟨e1, e2, e3⟩ := sys_lseek_calm c2 c3 fd 0 Whence.SEEK_END
      (by simp only [seek_target]; omega)
    generalize sys_lseek fd 0 Whence.SEEK_END cur.2 = e at e1 e2 e3 ⊢
    simp only [seek_target] at c1 e1
    rw [if_neg (by omega)]
    obtain ⟨s1, s2, -⟩ := sys_lseek_calm e2 e3 fd cur.1 Whence.SEEK_SET
      (by simp only [seek_target]; omega)
    generalize sys_lseek fd cur.1 Whence.SEEK_SET e.2 = s at s1 s2 ⊢
    simp only [seek_target] at s1
    rw [if_neg (by omega)]
    exact ⟨rfl, s2⟩

theorem ve_write_pattern_fd_empty (fd : Int) (pattern : Nat) (w : World) :
    ve_write_pattern_fd fd 0 pattern w =
      (if (sys_malloc w).1 = false then -1 else 0, (sys_malloc w).2) := by
  unfold ve_write_pattern_fd
  simp only [ve_write_pattern_loop]
  split <;> rfl

theorem ve_write_random_fd_empty (fd : Int) (w : World) :
    ve_write_random_fd fd 0 w =
      (if (sys_malloc w).1 = false then -1 else 0, (sys_malloc w).2) := by
  unfold ve_write_random_fd
  simp only [ve_write_random_loop]
  split <;> rfl

theorem isSizeQuery_not_content (e : Event) (h : e.isSizeQuery = true) :
    e.isContentCall = false := by
  cases e <;> simp_all [Event.isSizeQuery, Event.isContentCall]

theorem isTrimCall_not_content (e : Event) (h : e.isTrimCall = true) :
    e.isContentCall = false := by
  cases e <;> simp_all [Event.isTrimCall, Event.isContentCall]

theorem sys_malloc_quiet (w : World) :
    Grows (fun e => e.isContentCall = false) w (sys_malloc w).2 := by
  unfold sys_malloc
  simp only []
  split
  · exact Grows.g_next_emit w (Event.malloc false) rfl
  · exact Grows.g_next_emit w (Event.malloc true) rfl

theorem ve_flush_fd_quiet (fd : Int) (w : World) :
    Grows (fun e => e.isContentCall = false) w (ve_flush_fd fd w).2 := by
  unfold ve_flush_fd sys_fsync
  simp only []
  split
  · exact Grows.g_next_emit w (Event.fsync false) rfl
  · exact Grows.g_next_emit w (Event.fsync true) rfl

/-- The sweep chosen by one pass, on a file of size 0: it allocates its buffer
and transfers nothing. -/
theorem ve_hdd_sweep_empty (fd : Int) (opt : ve_options_t) (w : World) :
    Grows (fun e => e.isContentCall = false) w
      (if opt.algorithm = VE_ALG_ZERO then ve_write_pattern_fd fd 0 0 w
        else if opt.algorithm = VE_ALG_RANDOM ∨ opt.algorithm = VE_ALG_NIST ∨
            opt.algorithm = VE_ALG_GUTMANN ∨ opt.algorithm = VE_ALG_DOD3 ∨
            opt.algorithm = VE_ALG_DOD7 then ve_write_random_fd fd 0 w
        else (0, w)).2 ∧
    (Calm w →
      (if opt.algorithm = VE_ALG_ZERO then ve_write_pattern_fd fd 0 0 w
        else if opt.algorithm = VE_ALG_RANDOM ∨ opt.algorithm = VE_ALG_NIST ∨
            opt.algorithm = VE_ALG_GUTMANN ∨ opt.algorithm = VE_ALG_DOD3 ∨
            opt.algorithm = VE_ALG_DOD7 then ve_write_random_fd fd 0 w
        else (0, w)).1 = 0 ∧
      Calm (if opt.algorithm = VE_ALG_ZERO then ve_write_pattern_fd fd 0 0 w
        else if opt.algorithm = VE_ALG_RANDOM ∨ opt.algorithm = VE_ALG_NIST ∨
            opt.algorithm = VE_ALG_GUTMANN ∨ opt.algorithm = VE_ALG_DOD3 ∨
            opt.algorithm = VE_ALG_DOD7 then ve_write_random_fd fd 0 w
        else (0, w)).2) := by
  have hm : Calm w → (if (sys_malloc w).1 = false then (-1 : Int) else 0) = 0 ∧
      Calm (sys_malloc w).2 := by
    intro hc
    obtain ⟨h1, h2⟩ := sys_malloc_calm hc
    exact ⟨by rw [if_neg (by simp [h1])], h2⟩
  split
  · rw [ve_write_pattern_fd_empty]
    exact ⟨sys_malloc_quiet w, hm⟩
  · split
    · rw [ve_write_random_fd_empty]
      exact ⟨sys_malloc_quiet w, hm⟩
    · exact ⟨Grows.g_refl _ w, fun hc => ⟨rfl, hc⟩⟩

theorem ve_hdd_pass_loop_empty (fd : Int) (opt : ve_options_t) (n : Nat) :
    ∀ (w : World),
      Grows (fun e => e.isContentCall = false) w (ve_hdd_pass_loop fd opt 0 n w).2 ∧
      (Calm w → (ve_hdd_pass_loop fd opt 0 n w).1 = VE_SUCCESS ∧
        Calm (ve_hdd_pass_loop fd opt 0 n w).2) := by
  induction n with
  | zero => intro w; exact ⟨Grows.g_refl _ w, fun hc => ⟨rfl, hc⟩⟩
  | succ k ih =>
    intro w
    rw [ve_hdd_pass_loop]
    obtain ⟨hg, hc⟩ := ve_hdd_sweep_empty fd opt w
    simp only []
    generalize (if opt.algorithm = VE_ALG_ZERO then ve_write_pattern_fd fd 0 0 w
        else if opt.algorithm = VE_ALG_RANDOM ∨ opt.algorithm = VE_ALG_NIST ∨
            opt.algorithm = VE_ALG_GUTMANN ∨ opt.algorithm = VE_ALG_DOD3 ∨
            opt.algorithm = VE_ALG_DOD7 then ve_write_random_fd fd 0 w
        else (0, w)) = wr at hg hc ⊢
    have hfq := ve_flush_fd_quiet fd wr.2
    by_cases h1 : wr.1 ≠ 0
    · rw [if_pos h1]
      exact ⟨hg, fun hcw => absurd (hc hcw).1 h1⟩
    · rw [if_neg h1]
      by_cases h2 : (ve_flush_fd fd wr.2).1 ≠ 0
      · rw [if_pos h2]
        exact ⟨hg.g_trans hfq, fun hcw => absurd (ve_flush_fd_calm (hc hcw).2 fd).1 h2⟩
      · rw [if_neg h2]
        obtain ⟨ig, ic⟩ := ih (ve_flush_fd fd wr.2).2
        exact ⟨(hg.g_trans hfq).g_trans ig,
          fun hcw => ic (ve_flush_fd_calm (hc hcw).2 fd).2⟩

/-- Either engine on an open file of length 0: no content call is logged and,
under a calm environment, the engine succeeds. -/
theorem ve_engine_empty {w : World} {p : Path} {pos : Nat} (hf : w.file = some (p, pos, []))
    (fd : Int) (opt : ve_options_t) :
    Grows (fun e => e.isContentCall = false) w
      (if opt.algorithm = VE_ALG_SSD then ve_erase_ssd_like fd opt w
        else ve_erase_hdd_like fd opt w).2 ∧
    (Calm w →
      (if opt.algorithm = VE_ALG_SSD then ve_erase_ssd_like fd opt w
        else ve_erase_hdd_like fd opt w).1 = VE_SUCCESS ∧
      Calm (if opt.algorithm = VE_ALG_SSD then ve_erase_ssd_like fd opt w
        else ve_erase_hdd_like fd opt w).2) := by
  have hq : Grows (fun e => e.isContentCall = false) w (ve_get_file_size_fd fd w).2.2 :=
    (ve_get_file_size_fd_query fd w).mono isSizeQuery_not_content
  have hc := fun (h : Calm w) => ve_get_file_size_fd_calm h hf fd
  have hsz := ve_get_file_size_fd_file hf fd
  split
  · unfold ve_erase_ssd_like
    simp only []
    by_cases h1 : (ve_get_file_size_fd fd w).1 ≠ 0
    · rw [if_pos h1]
      exact ⟨hq, fun h => absurd (hc h).1 h1⟩
    · rw [if_neg h1, if_pos (by simpa using (hsz h1).1)]
      exact ⟨hq, fun h => ⟨rfl, (hc h).2⟩⟩
  · unfold ve_erase_hdd_like
    simp only []
    by_cases h1 : (ve_get_file_size_fd fd w).1 ≠ 0
    · rw [if_pos h1]
      exact ⟨hq, fun h => absurd (hc h).1 h1⟩
    · rw [if_neg h1]
      have h0 : (ve_get_file_size_fd fd w).2.1 = 0 := by simpa using (hsz h1).1
      rw [h0]
      obtain ⟨lg, lc⟩ := ve_hdd_pass_loop_empty fd opt (ve_hdd_passes opt).toNat
        (ve_get_file_size_fd fd w).2.2
      exact ⟨hq.g_trans lg, fun h => lc (hc h).2⟩

theorem ve_open_rw_calm {w : World} {p : Path} {d : List Nat} (h : Calm w)
    (hl : fs_lookup w.fs p = some (Node.file d)) :
    ¬ (ve_open_rw p w).1 < 0 ∧ Calm (ve_open_rw p w).2 := by
  obtain ⟨h1, h2⟩ := h.next
  have hl' : fs_lookup w.next.2.fs p = some (Node.file d) := by rw [next_fs]; exact hl
  unfold ve_open_rw sys_open_rw
  generalize w.next = r at h1 h2 hl' ⊢
  rcases r with ⟨a, w1⟩
  simp only at h1 h2 hl' ⊢
  cases a with
  | fail => exact absurd rfl h1
  | ok => simp only [hl']; exact ⟨by decide, h2⟩
  | short k => simp only [hl']; exact ⟨by decide, h2⟩

theorem ve_remove_file_calm {w : World} {p : Path} {d : List Nat} (h : Calm w)
    (hl : fs_lookup w.fs p = some (Node.file d)) : (ve_remove_file p w).1 = 0 := by
  obtain ⟨h1, h2⟩ := h.next
  have hl' : fs_lookup w.next.2.fs p = some (Node.file d) := by rw [next_fs]; exact hl
  unfold ve_remove_file sys_unlink
  generalize w.next = r at h1 h2 hl' ⊢
  rcases r with ⟨a, w1⟩
  simp only at h1 h2 hl' ⊢
  cases a with
  | fail => exact absurd rfl h1
  | ok => simp [hl']
  | short k => simp [hl']

theorem ve_remove_file_quiet (p : Path) (w : World) :
    Grows (fun e => e.isContentCall = false) w (ve_remove_file p w).2 := by
  unfold ve_remove_file sys_unlink
  simp only []
  have key : Grows (fun e => e.isContentCall = false) w
      (match w.next.1, fs_lookup w.next.2.fs p with
        | Resp.fail, _ => ((-1 : Int), w.next.2.emit (Event.unlink p false))
        | _, some (Node.file _) =>
          (0, { w.next.2 with fs := fs_remove w.next.2.fs p,
                              trace := w.next.2.trace ++ [Event.unlink p true] })
        | _, _ => (-1, w.next.2.emit (Event.unlink p false))).2 := by
    split
    · exact Grows.g_next_emit w (Event.unlink p false) rfl
    · exact (Grows.g_next _ w).g_trans (Grows.one rfl rfl)
    · exact Grows.g_next_emit w (Event.unlink p false) rfl
  split <;> exact key

/-- A single-file erase of a zero-length file that is not a dry run: it logs no
content call, and under a calm environment it returns `VE_SUCCESS`. -/
theorem ve_erase_single_file_empty (p : Path) (opt : ve_options_t) (w : World)
    (hfile : fs_lookup w.fs p = some (Node.file [])) (hdry : opt.dry_run = 0) :
    Grows (fun e => e.isContentCall = false) w (ve_erase_single_file p opt w).2 ∧
    (Calm w → (ve_erase_single_file p opt w).1 = VE_SUCCESS) := by
  have hshape := (ve_erase_single_file_until_close p opt w
    (ve_open_rw p (w.emit (Event.erase_single_file p))).1).2
  unfold ve_erase_single_file
  simp only []
  rw [if_neg (by simp [hdry])]
  have h0 : Grows (fun e => e.isContentCall = false) w (w.emit (Event.erase_single_file p)) :=
    Grows.one rfl rfl
  have hl0 : fs_lookup (w.emit (Event.erase_single_file p)).fs p = some (Node.file []) := hfile
  have ho : Grows (fun e => e.isContentCall = false) (w.emit (Event.erase_single_file p))
      (ve_open_rw p (w.emit (Event.erase_single_file p))).2 :=
    (ve_open_rw_idle p _).grows.mono (by rintro e ⟨b, rfl⟩; rfl)
  have hoc := fun (h : Calm w) => ve_open_rw_calm (w := w.emit (Event.erase_single_file p)) h hl0
  have hof : 0 ≤ (ve_open_rw p (w.emit (Event.erase_single_file p))).1 →
      (ve_open_rw p (w.emit (Event.erase_single_file p))).2.ofile = some (p, 0) ∧
      (ve_open_rw p (w.emit (Event.erase_single_file p))).2.fs =
        (w.emit (Event.erase_single_file p)).fs := fun h => sys_open_rw_file h
  generalize ve_open_rw p (w.emit (Event.erase_single_file p)) = o at ho hoc hof hshape ⊢
  by_cases h1 : o.1 < 0
  · rw [if_pos h1]
    exact ⟨h0.g_trans ho, fun h => absurd h1 (hoc h).1⟩
  · rw [if_neg h1]
    obtain ⟨hof1, hof2⟩ := hof (by omega)
    have hfile1 : o.2.file = some (p, 0, []) :=
      World.file_eq_some.mpr ⟨hof1, by rw [hof2]; exact hl0⟩
    obtain ⟨eg, ec⟩ := ve_engine_empty hfile1 o.1 opt
    generalize (if opt.algorithm = VE_ALG_SSD then ve_erase_ssd_like o.1 opt o.2
        else ve_erase_hdd_like o.1 opt o.2) = e at eg ec hshape ⊢
    have hcl : Grows (fun e => e.isContentCall = false) e.2 (ve_close_fd o.1 e.2).2 :=
      Grows.one rfl rfl
    have hqc := ((h0.g_trans ho).g_trans eg).g_trans hcl
    by_cases h2 : e.1 ≠ VE_SUCCESS
    · rw [if_pos h2]
      exact ⟨hqc, fun h => absurd (ec (hoc h).2).1 h2⟩
    · rw [if_neg h2]
      have hu := ve_remove_file_quiet p (ve_close_fd o.1 e.2).2
      obtain ⟨d', hd'⟩ := fs_lookup_file_of_shape hshape hfile
      by_cases h3 : (ve_remove_file p (ve_close_fd o.1 e.2).2).1 ≠ 0
      · rw [if_pos h3]
        refine ⟨hqc.g_trans hu, fun h => ?_⟩
        have hcalm : Calm (ve_close_fd o.1 e.2).2 := (ec (hoc h).2).2
        exact absurd (ve_remove_file_calm hcalm hd') h3
      · rw [if_neg h3]
        by_cases h4 : opt.trim_mode = 0 ∨ opt.trim_mode = 1
        · rw [if_pos h4]
          exact ⟨(hqc.g_trans hu).g_trans
            ((ve_trim_best_effort_idle p 0 _).grows.mono isTrimCall_not_content), fun _ => rfl⟩
        · rw [if_neg h4]
          exact ⟨hqc.g_trans hu, fun _ => rfl⟩

/-- C10. Erasing an existing zero-length file with `dry_run` unset, under any
algorithm value (the six overwrite algorithms, the SSD algorithm or any other
integer): no read, write, random fill or cipher call is logged, whatever the
environment answers; and when the environment fails no call, the result is
`VE_SUCCESS`, the path is gone and the log holds its successful unlink. -/
theorem C10_zero_length_file (p : Path) (opt : ve_options_t) (w : World)
    (hfile : fs_lookup w.fs p = some (Node.file [])) (hdry : opt.dry_run = 0) :
    ∃ r, ve_erase_path (some p) (some opt) w = some r ∧
      (∃ evs, r.2.trace = w.trace ++ evs ∧ ∀ e ∈ evs, e.isContentCall = false) ∧
      (Calm w → r.1 = VE_SUCCESS ∧ fs_lookup r.2.fs p = none ∧
        ∃ before after, r.2.trace = w.trace ++ before ++ Event.unlink p true :: after) := by
  unfold ve_erase_path
  simp only []
  rw [if_neg (by simp [ve_is_directory_file hfile])]
  refine ⟨_, rfl, ?_, ?_⟩
  · have hd : Grows (fun e => e.isContentCall = false) w (ve_is_directory p w).2 :=
      (ve_is_directory_idle p w).grows.mono (by rintro e rfl; rfl)
    have hfile' : fs_lookup (ve_is_directory p w).2.fs p = some (Node.file []) := by
      rw [(ve_is_directory_idle p w).fs]; exact hfile
    exact hd.g_trans (ve_erase_single_file_empty p opt _ hfile' hdry).1
  · intro hc
    have hfile' : fs_lookup (ve_is_directory p w).2.fs p = some (Node.file []) := by
      rw [(ve_is_directory_idle p w).fs]; exact hfile
    have hc' : Calm (ve_is_directory p w).2 := by
      rw [ve_is_directory_world]; exact hc.next.2
    have hs := (ve_erase_single_file_empty p opt _ hfile' hdry).2 hc'
    obtain ⟨hgone, before, after, htr, -, -⟩ :=
      ve_erase_single_file_success p opt (ve_is_directory p w).2 hdry hs
    refine ⟨hs, hgone, Event.lstat p :: before, after, ?_⟩
    rw [htr, ve_is_directory_world]; simp

/-- C10, witness: the Gutmann algorithm on the zero-length file `e`. -/
theorem C10_zero_length_file_witness :
    ∃ r, ve_erase_path (some ["e"]) (some (opts VE_ALG_GUTMANN 0)) (world_of fs_empty_file [])
        = some r ∧
      r.1 = VE_SUCCESS ∧ fs_lookup r.2.fs ["e"] = none :=
  match C10_zero_length_file ["e"] (opts VE_ALG_GUTMANN 0) (world_of fs_empty_file [])
      (by decide) rfl with
  | ⟨r, h, _, hc⟩ =>
    ⟨r, h, (hc (by intro x hx; simp [world_of] at hx)).1,
      (hc (by intro x hx; simp [world_of] at hx)).2.1⟩

/-! ## The directory walk -/

theorem isFdCall_plain (e : Event) (h : e.isFdCall = true) : e.isPlain = true := by
  cases e <;> simp_all [Event.isFdCall, Event.isPlain]

theorem isTrimCall_plain (e : Event) (h : e.isTrimCall = true) : e.isPlain = true := by
  cases e <;> simp_all [Event.isTrimCall, Event.isPlain]

theorem ve_remove_file_plain (p : Path) (w : World) :
    Grows (fun e => e.isPlain = true) w (ve_remove_file p w).2 := by
  unfold ve_remove_file sys_unlink
  simp only []
  have key : Grows (fun e => e.isPlain = true) w
      (match w.next.1, fs_lookup w.next.2.fs p with
        | Resp.fail, _ => ((-1 : Int), w.next.2.emit (Event.unlink p false))
        | _, some (Node.file _) =>
          (0, { w.next.2 with fs := fs_remove w.next.2.fs p,
                              trace := w.next.2.trace ++ [Event.unlink p true] })
        | _, _ => (-1, w.next.2.emit (Event.unlink p false))).2 := by
    split
    · exact Grows.g_next_emit w (Event.unlink p false) rfl
    · exact (Grows.g_next _ w).g_trans (Grows.one rfl rfl)
    · exact Grows.g_next_emit w (Event.unlink p false) rfl
  split <;> exact key

/-- The log of `ve_erase_single_file`: its marker, then plain events only. -/
theorem ve_erase_single_file_log (p : Path) (opt : ve_options_t) (w : World) :
    ∃ evs, (ve_erase_single_file p opt w).2.trace =
        w.trace ++ Event.erase_single_file p :: evs ∧
      ∀ e ∈ evs, e.isPlain = true := by
  suffices h : Grows (fun e => e.isPlain = true) (w.emit (Event.erase_single_file p))
      (ve_erase_single_file p opt w).2 by
    obtain ⟨evs, h1, h2⟩ := h
    exact ⟨evs, by rw [h1]; simp, h2⟩
  unfold ve_erase_single_file
  simp only []
  by_cases hd : opt.dry_run ≠ 0
  · rw [if_pos hd]; exact Grows.g_refl _ _
  · rw [if_neg hd]
    have ho : Grows (fun e => e.isPlain = true) (w.emit (Event.erase_single_file p))
        (ve_open_rw p (w.emit (Event.erase_single_file p))).2 :=
      (ve_open_rw_idle p _).grows.mono (by rintro e ⟨b, rfl⟩; rfl)
    generalize ve_open_rw p (w.emit (Event.erase_single_file p)) = o at ho ⊢
    by_cases h1 : o.1 < 0
    · rw [if_pos h1]; exact ho
    · rw [if_neg h1]
      have he := (ve_engine_step o.1 opt o.2).grows.mono isFdCall_plain
      generalize (if opt.algorithm = VE_ALG_SSD then ve_erase_ssd_like o.1 opt o.2
          else ve_erase_hdd_like o.1 opt o.2) = e at he ⊢
      have hcl : Grows (fun e => e.isPlain = true) e.2 (ve_close_fd o.1 e.2).2 :=
        Grows.one rfl rfl
      have hqc := (ho.g_trans he).g_trans hcl
      by_cases h2 : e.1 ≠ VE_SUCCESS
      · rw [if_pos h2]; exact hqc
      · rw [if_neg h2]
        have hu := ve_remove_file_plain p (ve_close_fd o.1 e.2).2
        by_cases h3 : (ve_remove_file p (ve_close_fd o.1 e.2).2).1 ≠ 0
        · rw [if_pos h3]; exact hqc.g_trans hu
        · rw [if_neg h3]
          by_cases h4 : opt.trim_mode = 0 ∨ opt.trim_mode = 1
          · rw [if_pos h4]
            exact (hqc.g_trans hu).g_trans
              ((ve_trim_best_effort_idle p 0 _).grows.mono isTrimCall_plain)
          · rw [if_neg h4]; exact hqc.g_trans hu

theorem sys_rmdir_log (p : Path) (w : World) :
    ∃ ok, (sys_rmdir p w).2.trace = w.trace ++ [Event.rmdir p ok] := by
  unfold sys_rmdir
  simp only []
  split
  · exact ⟨false, by simp⟩
  · split
    · exact ⟨true, by simp⟩
    · exact ⟨false, by simp⟩
  · exact ⟨false, by simp⟩

theorem ve_remove_empty_dir_world (p : Path) (w : World) :
    (ve_remove_empty_dir p w).2 = (sys_rmdir p w).2 := by
  unfold ve_remove_empty_dir
  simp only []
  split <;> rfl

theorem ve_remove_empty_dir_log (p : Path) (w : World) :
    ∃ ok, (ve_remove_empty_dir p w).2.trace = w.trace ++ [Event.rmdir p ok] := by
  rw [ve_remove_empty_dir_world]
  exact sys_rmdir_log p w

theorem sys_opendir_log (p : Path) (w : World) :
    ∃ ok, (sys_opendir p w).2.trace = w.trace ++ [Event.opendir p ok] := by
  unfold sys_opendir
  simp only []
  split
  · exact ⟨false, by simp⟩
  · exact ⟨true, by simp⟩
  · exact ⟨false, by simp⟩

/-- The names an opened directory delivers: apart from `.` and `..`, no name
comes twice. -/
theorem sys_opendir_names {p : Path} {w : World} {names : List String}
    (h : (sys_opendir p w).1 = some names) :
    names.Pairwise (fun a b => a ≠ "." → a ≠ ".." → a ≠ b) := by
  unfold sys_opendir at h
  simp only [] at h
  split at h
  · simp at h
  · simp only [Option.some.injEq] at h
    subst h
    refine List.pairwise_cons.mpr ⟨fun _ _ h => absurd rfl h, ?_⟩
    refine List.pairwise_cons.mpr ⟨fun _ _ _ h => absurd rfl h, ?_⟩
    unfold fs_children
    exact (List.nodup_dedup _).imp (fun h _ _ => h)
  · simp at h

theorem prefix_child_ne {P D : Path} {n : String} (h : (P ++ [n]) <+: D) : D ≠ P := by
  intro hD
  have := h.length_le
  rw [hD] at this
  simp at this

theorem prefix_child_parent {P D : Path} {n : String} (h : (P ++ [n]) <+: D) : P <+: D :=
  (List.prefix_append P [n]).trans h

theorem prefix_child_unique {P D : Path} {n n' : String} (h : (P ++ [n]) <+: D)
    (h' : (P ++ [n']) <+: D) : n = n' := by
  have h1 : (P ++ [n]) <+: (P ++ [n']) :=
    List.prefix_of_prefix_length_le h h' (by simp)
  have h2 := h1.eq_of_length (by simp)
  simpa using h2

theorem Visited.v_mono {c : Path} {a a' : List Event} (h : Visited c a) (hs : a ⊆ a') :
    Visited c a' := by
  rcases h with h | h
  · exact Or.inl (hs h)
  · exact Or.inr (hs h)

theorem PostOrder.of_no_rmdir {t : List Event} (h : ∀ D ok, Event.rmdir D ok ∉ t) :
    PostOrder t := by
  intro D ok a b hs
  exact absurd (by rw [hs]; simp) (h D ok)

theorem PostOrder.of_no_readdir {t : List Event} (h : ∀ D name, Event.readdir D name ∉ t) :
    PostOrder t := by
  intro D ok a b _ name hrd
  exact absurd hrd (h D name)

/-- Post-order of a log made of two parts, each in post-order, when no entry of
a directory is delivered after an attempt to remove it, and the entries
delivered in the first part for a directory removed in the second have been
visited in the first. -/
theorem PostOrder.po_append {t1 t2 : List Event} (h1 : PostOrder t1) (h2 : PostOrder t2)
    (hx : ∀ D ok name, Event.rmdir D ok ∈ t1 → Event.readdir D name ∉ t2)
    (hy : ∀ D ok name, Event.rmdir D ok ∈ t2 → Event.readdir D name ∈ t1 →
      name ≠ "." → name ≠ ".." → Visited (D ++ [name]) t1) :
    PostOrder (t1 ++ t2) := by
  intro D ok a b hs name hrd hn1 hn2
  have in2 : ∀ a', a = t1 ++ a' → t2 = a' ++ Event.rmdir D ok :: b →
      Visited (D ++ [name]) a := by
    intro a' ha ht2
    have hrm : Event.rmdir D ok ∈ t2 := by rw [ht2]; simp
    rcases List.mem_append.mp hrd with hr | hr
    · exact (hy D ok name hrm hr hn1 hn2).v_mono (by rw [ha]; simp)
    · exact (h2 D ok a' b ht2 name hr hn1 hn2).v_mono (by rw [ha]; simp)
  rcases List.append_eq_append_iff.mp hs with ⟨a', ha, ht2⟩ | ⟨c', ht1, hc⟩
  · exact in2 a' ha ht2
  · cases c' with
    | nil =>
      simp only [List.nil_append, List.append_nil] at hc ht1
      exact in2 [] (by simp [ht1]) (by simp [hc])
    | cons x c'' =>
      simp only [List.cons_append, List.cons.injEq] at hc
      obtain ⟨hx1, -⟩ := hc
      subst hx1
      have hrm : Event.rmdir D ok ∈ t1 := by rw [ht1]; simp
      rcases List.mem_append.mp hrd with hr | hr
      · exact h1 D ok a c'' ht1 name hr hn1 hn2
      · exact absurd hr (hx D ok name hrm)

theorem ChildSeg.skipped (P : Path) (n : String) (h : n = "." ∨ n = "..") :
    ChildSeg P n [Event.readdir P n] := by
  refine ⟨by simp, ?_, ?_, PostOrder.of_no_rmdir (by simp)⟩
  · intro D name hm
    simp only [List.mem_singleton, Event.readdir.injEq] at hm
    exact Or.inl hm
  · intro h1 h2
    rcases h with h | h
    · exact absurd h h1
    · exact absurd h h2

theorem ChildSeg.file (P : Path) (n : String) (evs : List Event)
    (hev : ∀ e ∈ evs, e.isPlain = true) :
    ChildSeg P n (Event.readdir P n :: Event.lstat (P ++ [n]) ::
      Event.erase_single_file (P ++ [n]) :: evs) := by
  have hnr : ∀ D ok, Event.rmdir D ok ∉ evs := fun D ok hm => by
    have := hev _ hm
    simp [Event.isPlain] at this
  have hnd : ∀ D name, Event.readdir D name ∉ evs := fun D name hm => by
    have := hev _ hm
    simp [Event.isPlain] at this
  refine ⟨?_, ?_, ?_, PostOrder.of_no_rmdir ?_⟩
  · intro D ok hm
    simp only [List.mem_cons] at hm
    rcases hm with hm | hm | hm | hm
    · cases hm
    · cases hm
    · cases hm
    · exact absurd hm (hnr D ok)
  · intro D name hm
    simp only [List.mem_cons] at hm
    rcases hm with hm | hm | hm | hm
    · simp only [Event.readdir.injEq] at hm; exact Or.inl hm
    · cases hm
    · cases hm
    · exact absurd hm (hnd D name)
  · intro _ _
    exact Or.inl (by simp)
  · intro D ok hm
    simp only [List.mem_cons] at hm
    rcases hm with hm | hm | hm | hm
    · cases hm
    · cases hm
    · cases hm
    · exact absurd hm (hnr D ok)

theorem ChildSeg.dir (P : Path) (n : String) (tw : List Event) (ok : Bool)
    (hn1 : n ≠ ".") (hn2 : n ≠ "..") (hw : WalkSeg (P ++ [n]) tw) :
    ChildSeg P n ((Event.readdir P n :: Event.lstat (P ++ [n]) :: tw) ++
      [Event.rmdir (P ++ [n]) ok]) := by
  have rd_in : ∀ D name, Event.readdir D name ∈ Event.readdir P n ::
      Event.lstat (P ++ [n]) :: tw → (D = P ∧ name = n) ∨ Event.readdir D name ∈ tw := by
    intro D name hm
    simp only [List.mem_cons] at hm
    rcases hm with hm | hm | hm
    · simp only [Event.readdir.injEq] at hm; exact Or.inl hm
    · cases hm
    · exact Or.inr hm
  have rm_in : ∀ D ok', Event.rmdir D ok' ∈ Event.readdir P n ::
      Event.lstat (P ++ [n]) :: tw → Event.rmdir D ok' ∈ tw := by
    intro D ok' hm
    simp only [List.mem_cons] at hm
    rcases hm with hm | hm | hm
    · cases hm
    · cases hm
    · exact hm
  refine ⟨?_, ?_, ?_, ?_⟩
  · intro D ok' hm
    refine ⟨⟨hn1, hn2⟩, ?_⟩
    rcases List.mem_append.mp hm with hm | hm
    · exact hw.rm_scope D ok' (rm_in D ok' hm)
    · simp only [List.mem_singleton, Event.rmdir.injEq] at hm
      rw [hm.1]
  · intro D name hm
    rcases List.mem_append.mp hm with hm | hm
    · rcases rd_in D name hm with h | h
      · exact Or.inl h
      · exact Or.inr ⟨⟨hn1, hn2⟩, hw.rd_scope D name h⟩
    · simp at hm
  · intro _ _
    exact hw.visited.v_mono (by intro e he; simp [he])
  · have hfirst : PostOrder (Event.readdir P n :: Event.lstat (P ++ [n]) :: tw) := by
      have := @PostOrder.po_append [Event.readdir P n, Event.lstat (P ++ [n])] tw
        (PostOrder.of_no_rmdir (by simp)) hw.post (by simp) ?_
      · simpa using this
      · intro D ok' name hrm hrd
        simp only [List.mem_cons, Event.readdir.injEq, List.mem_singleton] at hrd
        rcases hrd with hrd | hrd
        · exact absurd hrd.1 (prefix_child_ne (hw.rm_scope D ok' hrm))
        · rcases hrd with hrd | hrd
          · cases hrd
          · simp at hrd
    refine PostOrder.po_append hfirst (PostOrder.of_no_readdir (by simp)) (by simp) ?_
    intro D ok' name hrm hrd h1 h2
    simp only [List.mem_singleton, Event.rmdir.injEq] at hrm
    obtain ⟨hD, -⟩ := hrm
    subst hD
    rcases rd_in _ name hrd with h | h
    · exact absurd h.1 (prefix_child_ne (List.prefix_refl _))
    · exact (hw.complete name h h1 h2).v_mono (by intro e he; simp [he])

theorem LoopSeg.nil (P : Path) : LoopSeg P [] [] :=
  ⟨by simp, by simp, by simp, PostOrder.of_no_rmdir (by simp)⟩

theorem LoopSeg.cons {P : Path} {n : String} {rest : List String} {seg s : List Event}
    (hc : ChildSeg P n seg) (hl : LoopSeg P rest s)
    (hfresh : n ≠ "." → n ≠ ".." → n ∉ rest) :
    LoopSeg P (n :: rest) (seg ++ s) := by
  refine ⟨?_, ?_, ?_, ?_⟩
  · intro D ok hm
    rcases List.mem_append.mp hm with hm | hm
    · exact ⟨n, by simp, (hc.rm_scope D ok hm).2⟩
    · obtain ⟨n', hn', hp⟩ := hl.rm_scope D ok hm
      exact ⟨n', by simp [hn'], hp⟩
  · intro D name hm
    rcases List.mem_append.mp hm with hm | hm
    · rcases hc.rd_scope D name hm with ⟨h1, h2⟩ | ⟨-, h⟩
      · exact Or.inl ⟨h1, by simp [h2]⟩
      · exact Or.inr ⟨n, by simp, h⟩
    · rcases hl.rd_scope D name hm with ⟨h1, h2⟩ | ⟨n', hn', hp⟩
      · exact Or.inl ⟨h1, by simp [h2]⟩
      · exact Or.inr ⟨n', by simp [hn'], hp⟩
  · intro name hm h1 h2
    rcases List.mem_cons.mp hm with hm | hm
    · subst hm
      exact (hc.complete h1 h2).v_mono (by intro e he; simp [he])
    · exact (hl.complete name hm h1 h2).v_mono (by intro e he; simp [he])
  · refine PostOrder.po_append hc.post hl.post ?_ ?_
    · intro D ok name hrm hrd
      obtain ⟨⟨hn1, hn2⟩, hp⟩ := hc.rm_scope D ok hrm
      rcases hl.rd_scope D name hrd with ⟨h1, -⟩ | ⟨n', hn', hp'⟩
      · exact prefix_child_ne hp h1
      · have := prefix_child_unique hp hp'
        subst this
        exact hfresh hn1 hn2 hn'
    · intro D ok name hrm hrd _ _
      obtain ⟨n', hn', hp'⟩ := hl.rm_scope D ok hrm
      rcases hc.rd_scope D name hrd with ⟨h1, -⟩ | ⟨⟨hn1, hn2⟩, hp⟩
      · exact absurd h1 (prefix_child_ne hp')
      · have := prefix_child_unique hp hp'
        subst this
        exact absurd hn' (hfresh hn1 hn2)

/-! ## The walk adds no path and returns -/

theorem Shrinks.sh_refl (w : World) : Shrinks w w :=
  fun _ h => h

theorem Shrinks.sh_trans {w w1 w2 : World} (h1 : Shrinks w w1) (h2 : Shrinks w1 w2) :
    Shrinks w w2 :=
  fun _ h => h1 (h2 h)

theorem Shrinks.of_fs {w w' : World} (h : w'.fs = w.fs) : Shrinks w w' := by
  unfold Shrinks; rw [h]; exact fun _ h => h

theorem Shrinks.of_shape {w w' : World} (h : fs_shape w'.fs = fs_shape w.fs) :
    Shrinks w w' := by
  have hk : ∀ fs : List (Path × Node), fs.map Prod.fst = (fs_shape fs).map Prod.fst := by
    intro fs; unfold fs_shape; rw [List.map_map]; rfl
  unfold Shrinks
  rw [hk, hk, h]
  exact fun _ h => h

theorem fs_remove_keys (fs : List (Path × Node)) (p : Path) :
    (fs_remove fs p).map Prod.fst ⊆ fs.map Prod.fst := by
  unfold fs_remove
  exact List.map_subset _ (List.filter_sublist _).subset

theorem sys_unlink_shrinks (p : Path) (w : World) : Shrinks w (sys_unlink p w).2 := by
  unfold sys_unlink
  simp only []
  split
  · exact Shrinks.of_fs (by simp)
  · unfold Shrinks
    simp only [next_fs]
    exact fs_remove_keys _ _
  · exact Shrinks.of_fs (by simp)

theorem ve_remove_file_shrinks (p : Path) (w : World) : Shrinks w (ve_remove_file p w).2 := by
  have h : (ve_remove_file p w).2 = (sys_unlink p w).2 := by
    unfold ve_remove_file
    simp only []
    split <;> rfl
  rw [h]
  exact sys_unlink_shrinks p w

theorem sys_rmdir_shrinks (p : Path) (w : World) : Shrinks w (sys_rmdir p w).2 := by
  unfold sys_rmdir
  simp only []
  split
  · exact Shrinks.of_fs (by simp)
  · split
    · unfold Shrinks
      simp only [next_fs]
      exact fs_remove_keys _ _
    · exact Shrinks.of_fs (by simp)
  · exact Shrinks.of_fs (by simp)

theorem ve_remove_empty_dir_shrinks (p : Path) (w : World) :
    Shrinks w (ve_remove_empty_dir p w).2 := by
  rw [ve_remove_empty_dir_world]
  exact sys_rmdir_shrinks p w

theorem sys_opendir_fs (p : Path) (w : World) : (sys_opendir p w).2.fs = w.fs := by
  unfold sys_opendir
  simp only []
  split <;> simp

/-- A single-file erase adds no path, and its status is `VE_SUCCESS` or
`VE_ERR_IO`. -/
theorem ve_erase_single_file_shrinks (p : Path) (opt : ve_options_t) (w : World) :
    Shrinks w (ve_erase_single_file p opt w).2 ∧
      ((ve_erase_single_file p opt w).1 = VE_SUCCESS ∨
        (ve_erase_single_file p opt w).1 = VE_ERR_IO) := by
  have hpre := (ve_erase_single_file_until_close p opt w
    (ve_open_rw p (w.emit (Event.erase_single_file p))).1).2
  have hstat : (if opt.algorithm = VE_ALG_SSD then
          ve_erase_ssd_like (ve_open_rw p (w.emit (Event.erase_single_file p))).1 opt
            (ve_open_rw p (w.emit (Event.erase_single_file p))).2
        else
          ve_erase_hdd_like (ve_open_rw p (w.emit (Event.erase_single_file p))).1 opt
            (ve_open_rw p (w.emit (Event.erase_single_file p))).2).1 = VE_SUCCESS ∨
      (if opt.algorithm = VE_ALG_SSD then
          ve_erase_ssd_like (ve_open_rw p (w.emit (Event.erase_single_file p))).1 opt
            (ve_open_rw p (w.emit (Event.erase_single_file p))).2
        else
          ve_erase_hdd_like (ve_open_rw p (w.emit (Event.erase_single_file p))).1 opt
            (ve_open_rw p (w.emit (Event.erase_single_file p))).2).1 = VE_ERR_IO := by
    split
    · exact ve_erase_ssd_like_status _ _ _
    · exact ve_erase_hdd_like_status _ _ _
  have ho := (ve_open_rw_idle p (w.emit (Event.erase_single_file p))).fs
  unfold ve_erase_single_file
  simp only []
  by_cases hd : opt.dry_run ≠ 0
  · rw [if_pos hd]; exact ⟨Shrinks.of_fs rfl, Or.inl rfl⟩
  · rw [if_neg hd]
    generalize ve_open_rw p (w.emit (Event.erase_single_file p)) = o at hpre hstat ho ⊢
    by_cases h1 : o.1 < 0
    · rw [if_pos h1]; exact ⟨Shrinks.of_fs ho, Or.inr rfl⟩
    · rw [if_neg h1]
      generalize (if opt.algorithm = VE_ALG_SSD then ve_erase_ssd_like o.1 opt o.2
          else ve_erase_hdd_like o.1 opt o.2) = e at hpre hstat ⊢
      have hc : Shrinks w (ve_close_fd o.1 e.2).2 := Shrinks.of_shape hpre
      by_cases h2 : e.1 ≠ VE_SUCCESS
      · rw [if_pos h2]; exact ⟨hc, hstat⟩
      · rw [if_neg h2]
        have hu := hc.sh_trans (ve_remove_file_shrinks p (ve_close_fd o.1 e.2).2)
        by_cases h3 : (ve_remove_file p (ve_close_fd o.1 e.2).2).1 ≠ 0
        · rw [if_pos h3]; exact ⟨hu, Or.inr rfl⟩
        · rw [if_neg h3]
          by_cases h4 : opt.trim_mode = 0 ∨ opt.trim_mode = 1
          · rw [if_pos h4]
            exact ⟨hu.sh_trans (Shrinks.of_fs (ve_trim_best_effort_idle p 0 _).fs), Or.inl rfl⟩
          · rw [if_neg h4]; exact ⟨hu, Or.inl rfl⟩

theorem fs_lookup_mem {fs : List (Path × Node)} {p : Path} {n : Node}
    (h : fs_lookup fs p = some n) : p ∈ fs.map Prod.fst := by
  induction fs with
  | nil => simp [fs_lookup] at h
  | cons a t ih =>
    rcases a with ⟨q, m⟩
    simp only [fs_lookup] at h
    by_cases hq : q = p
    · subst hq
      exact List.mem_cons_self _ _
    · rw [if_neg hq] at h
      exact List.mem_cons_of_mem _ (ih h)

theorem le_fs_depth {fs : List (Path × Node)} {p : Path} (h : p ∈ fs.map Prod.fst) :
    p.length ≤ fs_depth fs := by
  induction fs with
  | nil => simp at h
  | cons a t ih =>
    unfold fs_depth at ih ⊢
    simp only [List.map_cons, List.mem_cons, List.foldr_cons] at h ⊢
    rcases h with h | h
    · rw [h]; exact Nat.le_max_left _ _
    · exact Nat.le_trans (ih h) (Nat.le_max_right _ _)

theorem fs_depth_le {fs : List (Path × Node)} {b : Nat}
    (h : ∀ p ∈ fs.map Prod.fst, p.length ≤ b) : fs_depth fs ≤ b := by
  induction fs with
  | nil => simp [fs_depth]
  | cons a t ih =>
    unfold fs_depth at ih ⊢
    simp only [List.map_cons, List.foldr_cons]
    exact Nat.max_le.mpr ⟨h a.1 (List.mem_cons_self _ _),
      ih (fun p hp => h p (List.mem_cons_of_mem _ hp))⟩

theorem Shrinks.depth {w w' : World} (h : Shrinks w w') : fs_depth w'.fs ≤ fs_depth w.fs :=
  fs_depth_le (fun _ hp => le_fs_depth (h hp))

/-! ## The child buffer -/

theorem string_length_pos {s : String} (h : s ≠ "") : 0 < s.length := by
  rcases s with ⟨l⟩
  cases l with
  | nil => exact absurd rfl h
  | cons a t => simp [String.length]

theorem path_len_cons (c : String) (rest : Path) (h : rest ≠ []) :
    path_len (c :: rest) = c.length + 1 + path_len rest := by
  have : 1 ≤ rest.length := List.length_pos.mpr h
  unfold path_len
  simp only [List.map_cons, List.sum_cons, List.length_cons]
  omega

/-- A path whose C string is at most `n` characters long and that has no empty
component is the path its first `n` characters name. -/
theorem path_take_fits : ∀ (q : Path) (n : Nat), path_len q ≤ n → (∀ c ∈ q, c ≠ "") →
    path_take n q = q
  | [], _, _, _ => rfl
  | c :: rest, n, h, hne => by
    rw [path_take]
    by_cases hr : rest = []
    · subst hr
      rw [if_neg (fun hh => hh.1 rfl)]
      have hl : c.data.length ≤ n := by
        unfold path_len at h
        simp only [List.map_cons, List.map_nil, List.sum_cons, List.sum_nil, List.length_cons,
          List.length_nil] at h
        have : c.length = c.data.length := rfl
        omega
      rw [List.take_of_length_le hl]
    · have hlen := path_len_cons c rest hr
      have hpos : 0 < path_len rest := by
        cases rest with
        | nil => exact absurd rfl hr
        | cons r rs =>
          have := string_length_pos (hne r (by simp))
          unfold path_len
          simp only [List.map_cons, List.sum_cons]
          omega
      rw [if_pos ⟨hr, by omega⟩,
        path_take_fits rest _ (by omega) (fun x hx => hne x (List.mem_cons_of_mem _ hx))]

theorem fs_children_mem {fs : List (Path × Node)} {p : Path} {n : String}
    (h : n ∈ fs_children fs p) : p ++ [n] ∈ fs.map Prod.fst := by
  unfold fs_children at h
  rw [List.mem_dedup, List.mem_map] at h
  obtain ⟨e, he, hn⟩ := h
  rw [List.mem_filter] at he
  obtain ⟨hmem, hc⟩ := he
  simp only [decide_eq_true_eq] at hc
  obtain ⟨hne, hd⟩ := hc
  have hlast : e.1.getLastD "" = e.1.getLast hne := by
    rw [List.getLastD_eq_getLast?, List.getLast?_eq_getLast _ hne]
    rfl
  have he1 : e.1 = p ++ [n] := by
    rw [← hd, ← hn, hlast, List.dropLast_append_getLast]
  rw [← he1]
  exact List.mem_map_of_mem _ hmem

/-- For an entry of a filesystem whose paths fit the buffer, `snprintf` builds
the path of the entry. -/
theorem ve_child_path_fits {fs : List (Path × Node)} {p : Path} {n : String}
    (hf : FitsBuf fs) (h : n ∈ fs_children fs p) : ve_child_path p n = p ++ [n] := by
  obtain ⟨hlen, hne⟩ := hf _ (fs_children_mem h)
  unfold ve_child_path
  exact path_take_fits _ _ (by unfold VE_CHILD_BUF at hlen ⊢; omega) hne

theorem FitsBuf.of_shrinks {w w' : World} (hf : FitsBuf w.fs) (h : Shrinks w w') :
    FitsBuf w'.fs :=
  fun p hp => hf p (h hp)

theorem sys_opendir_children {p : Path} {w : World} {names : List String}
    (h : (sys_opendir p w).1 = some names) :
    ∀ n ∈ names, n ≠ "." → n ≠ ".." → n ∈ fs_children w.fs p := by
  unfold sys_opendir at h
  simp only [] at h
  split at h
  · simp at h
  · simp only [Option.some.injEq] at h
    subst h
    intro n hn h1 h2
    simp only [List.mem_cons] at hn
    rcases hn with hn | hn | hn
    · exact absurd hn h1
    · exact absurd hn h2
    · simpa using hn
  · simp at h

/-- The `readdir` loop adds no path, whatever the child paths are. -/
theorem ve_walk_children_shrinks (walk : Path → World → Option (ve_status_t × World))
    (P : Path) (opt : ve_options_t)
    (hwalk : ∀ c w1 r, walk c w1 = some r → Shrinks w1 r.2) :
    ∀ (ns : List String) (w w' : World),
      ve_walk_children walk P opt ns w = some w' → Shrinks w w' := by
  intro ns
  induction ns with
  | nil =>
    intro w w' h
    simp only [ve_walk_children, Option.some.injEq] at h
    subst h
    exact Shrinks.sh_refl w
  | cons n rest ih =>
    intro w w' h
    rw [ve_walk_children] at h
    simp only [] at h
    have h1 : Shrinks w (w.emit (Event.readdir P n)) := Shrinks.of_fs rfl
    by_cases ht : n = "." ∨ n = ".."
    · rw [if_pos ht] at h
      exact h1.sh_trans (ih _ _ h)
    · rw [if_neg ht] at h
      have hdf := (ve_is_directory_idle (ve_child_path P n) (w.emit (Event.readdir P n))).fs
      generalize ve_is_directory (ve_child_path P n) (w.emit (Event.readdir P n)) = d at hdf h
      have hd2 : Shrinks w d.2 := Shrinks.of_fs hdf
      by_cases hd : d.1 ≠ 0
      · rw [if_pos hd] at h
        cases hwk : walk (ve_child_path P n) d.2 with
        | none => rw [hwk] at h; simp at h
        | some r =>
          rw [hwk] at h
          simp only [] at h
          exact ((hd2.sh_trans (hwalk _ _ _ hwk)).sh_trans
            (ve_remove_empty_dir_shrinks _ r.2)).sh_trans (ih _ _ h)
      · rw [if_neg hd] at h
        exact (hd2.sh_trans (ve_erase_single_file_shrinks _ opt d.2).1).sh_trans (ih _ _ h)

/-- A walk that returns has added no path, and its status is `VE_SUCCESS` or
`VE_ERR_IO`, whatever the child paths are. -/
theorem ve_walk_and_erase_shrinks (opt : ve_options_t) (fuel : Nat) :
    ∀ (p : Path) (w : World) (r : ve_status_t × World),
      ve_walk_and_erase fuel p opt w = some r →
      Shrinks w r.2 ∧ (r.1 = VE_SUCCESS ∨ r.1 = VE_ERR_IO) := by
  induction fuel with
  | zero => intro p w r h; simp [ve_walk_and_erase] at h
  | succ k ih =>
    intro p w r h
    rw [ve_walk_and_erase] at h
    simp only [] at h
    have hdf := (ve_is_directory_idle p (w.emit (Event.walk_enter p))).fs
    generalize ve_is_directory p (w.emit (Event.walk_enter p)) = d at hdf h
    have hd2 : Shrinks w d.2 := Shrinks.of_fs hdf
    by_cases hd : d.1 = 0
    · rw [if_pos hd] at h
      simp only [Option.some.injEq] at h
      subst h
      obtain ⟨hs, hst⟩ := ve_erase_single_file_shrinks p opt d.2
      exact ⟨hd2.sh_trans hs, hst⟩
    · rw [if_neg hd] at h
      have hof := sys_opendir_fs p d.2
      generalize sys_opendir p d.2 = o at hof h
      have ho2 : Shrinks w o.2 := hd2.sh_trans (Shrinks.of_fs hof)
      cases hon : o.1 with
      | none =>
        rw [hon] at h
        simp only [Option.some.injEq] at h
        subst h
        exact ⟨ho2.sh_trans (ve_remove_empty_dir_shrinks p o.2), Or.inl rfl⟩
      | some names =>
        rw [hon] at h
        simp only [] at h
        cases hch : ve_walk_children (fun c w1 => ve_walk_and_erase k c opt w1) p opt names o.2
          with
        | none => rw [hch] at h; simp at h
        | some w3 =>
          rw [hch] at h
          simp only [Option.some.injEq] at h
          subst h
          have hs3 := ve_walk_children_shrinks _ p opt (fun c w1 r hr => (ih c w1 r hr).1)
            names o.2 w3 hch
          exact ⟨(ho2.sh_trans hs3).sh_trans
            (Shrinks.sh_trans (Shrinks.of_fs rfl) (ve_remove_empty_dir_shrinks p _)),
            Or.inl rfl⟩

/-- The `readdir` loop returns, provided each recursive walk of a subdirectory
that is in the filesystem does. -/
theorem ve_walk_children_total (walk : Path → World → Option (ve_status_t × World))
    (P : Path) (opt : ve_options_t) (bound : Nat)
    (hwalk : ∀ c w1, fs_lookup w1.fs c = some Node.dir → c.length = P.length + 1 →
      fs_depth w1.fs ≤ bound → FitsBuf w1.fs → ∃ r, walk c w1 = some r ∧ Shrinks w1 r.2) :
    ∀ (ns : List String) (w : World), fs_depth w.fs ≤ bound → FitsBuf w.fs →
      (∀ n ∈ ns, n ≠ "." → n ≠ ".." → ve_child_path P n = P ++ [n]) →
      ∃ w', ve_walk_children walk P opt ns w = some w' ∧ Shrinks w w' := by
  intro ns
  induction ns with
  | nil => intro w _ _ _; exact ⟨w, rfl, Shrinks.sh_refl w⟩
  | cons n rest ih =>
    intro w hb hfw hfit
    have hfit' : ∀ m ∈ rest, m ≠ "." → m ≠ ".." → ve_child_path P m = P ++ [m] :=
      fun m hm => hfit m (List.mem_cons_of_mem _ hm)
    rw [ve_walk_children]
    simp only []
    have h1 : Shrinks w (w.emit (Event.readdir P n)) := Shrinks.of_fs rfl
    by_cases ht : n = "." ∨ n = ".."
    · rw [if_pos ht]
      obtain ⟨w', hw', hs⟩ := ih (w.emit (Event.readdir P n)) hb hfw hfit'
      exact ⟨w', hw', h1.sh_trans hs⟩
    · rw [if_neg ht]
      rw [hfit n (List.mem_cons_self _ _) (fun hh => ht (Or.inl hh)) (fun hh => ht (Or.inr hh))]
      have hdf := (ve_is_directory_idle (P ++ [n]) (w.emit (Event.readdir P n))).fs
      have hdd := fun h => ve_is_directory_dir (p := P ++ [n])
        (w := w.emit (Event.readdir P n)) h
      generalize ve_is_directory (P ++ [n]) (w.emit (Event.readdir P n)) = d at hdf hdd ⊢
      have hd2 : Shrinks w d.2 := Shrinks.of_fs hdf
      by_cases hd : d.1 ≠ 0
      · rw [if_pos hd]
        have hl : fs_lookup d.2.fs (P ++ [n]) = some Node.dir := by
          rw [hdf]; exact hdd hd
        obtain ⟨r, hr, hsr⟩ := hwalk (P ++ [n]) d.2 hl (by simp)
          (Nat.le_trans hd2.depth hb) (hfw.of_shrinks hd2)
        rw [hr]
        simp only []
        have hs3 := (hd2.sh_trans hsr).sh_trans (ve_remove_empty_dir_shrinks (P ++ [n]) r.2)
        obtain ⟨w', hw', hs⟩ := ih _ (Nat.le_trans hs3.depth hb) (hfw.of_shrinks hs3) hfit'
        exact ⟨w', hw', hs3.sh_trans hs⟩
      · rw [if_neg hd]
        have hs3 := hd2.sh_trans (ve_erase_single_file_shrinks (P ++ [n]) opt d.2).1
        obtain ⟨w', hw', hs⟩ := ih _ (Nat.le_trans hs3.depth hb) (hfw.of_shrinks hs3) hfit'
        exact ⟨w', hw', hs3.sh_trans hs⟩

/-- The walk returns when its depth bound exceeds what the tree still has below
the path; it adds no path; and its status is `VE_SUCCESS` or `VE_ERR_IO`,
`VE_SUCCESS` whenever it has seen the path as a directory. -/
theorem ve_walk_and_erase_total (opt : ve_options_t) (fuel : Nat) :
    ∀ (p : Path) (w : World), 1 ≤ fuel → fs_depth w.fs < fuel + p.length → FitsBuf w.fs →
      ∃ r, ve_walk_and_erase fuel p opt w = some r ∧ Shrinks w r.2 ∧
        (r.1 = VE_SUCCESS ∨ r.1 = VE_ERR_IO) ∧
        ((ve_is_directory p (w.emit (Event.walk_enter p))).1 ≠ 0 → r.1 = VE_SUCCESS) := by
  induction fuel with
  | zero => intro p w h; exact absurd h (by decide)
  | succ k ih =>
    intro p w _ hb hfw
    rw [ve_walk_and_erase]
    simp only []
    have hdf := (ve_is_directory_idle p (w.emit (Event.walk_enter p))).fs
    generalize ve_is_directory p (w.emit (Event.walk_enter p)) = d at hdf ⊢
    have hd2 : Shrinks w d.2 := Shrinks.of_fs hdf
    by_cases hd : d.1 = 0
    · rw [if_pos hd]
      obtain ⟨hs, hst⟩ := ve_erase_single_file_shrinks p opt d.2
      exact ⟨_, rfl, hd2.sh_trans hs, hst, fun h => absurd hd h⟩
    · rw [if_neg hd]
      have hof := sys_opendir_fs p d.2
      have hch := fun names => @sys_opendir_children p d.2 names
      generalize sys_opendir p d.2 = o at hof hch ⊢
      have ho2 : Shrinks w o.2 := hd2.sh_trans (Shrinks.of_fs hof)
      cases hon : o.1 with
      | none =>
        simp only []
        exact ⟨_, rfl, ho2.sh_trans (ve_remove_empty_dir_shrinks p o.2), Or.inl rfl,
          fun _ => rfl⟩
      | some names =>
        simp only []
        have hwalk : ∀ c w1, fs_lookup w1.fs c = some Node.dir → c.length = p.length + 1 →
            fs_depth w1.fs ≤ fs_depth w.fs → FitsBuf w1.fs →
            ∃ r, (fun c w1 => ve_walk_and_erase k c opt w1) c w1 = some r ∧ Shrinks w1 r.2 := by
          intro c w1 hl hlen hdepth hf1
          have hc := le_fs_depth (fs_lookup_mem hl)
          obtain ⟨r, hr, hs, -⟩ := ih c w1 (by omega) (by omega) hf1
          exact ⟨r, hr, hs⟩
        have hfit : ∀ n ∈ names, n ≠ "." → n ≠ ".." → ve_child_path p n = p ++ [n] :=
          fun n hn h1 h2 => ve_child_path_fits (hfw.of_shrinks hd2) (hch names hon n hn h1 h2)
        obtain ⟨w3, hw3, hs3⟩ := ve_walk_children_total _ p opt (fs_depth w.fs) hwalk names o.2
          ho2.depth (hfw.of_shrinks ho2) hfit
        rw [hw3]
        simp only []
        refine ⟨_, rfl, ?_, Or.inl rfl, fun _ => rfl⟩
        exact (ho2.sh_trans hs3).sh_trans
          (Shrinks.sh_trans (Shrinks.of_fs rfl) (ve_remove_empty_dir_shrinks p _))

/-- The log of the `readdir` loop, given what the log of each recursive walk
satisfies. -/
theorem ve_walk_children_log (walk : Path → World → Option (ve_status_t × World))
    (P : Path) (opt : ve_options_t)
    (hshr : ∀ c w1 r, walk c w1 = some r → Shrinks w1 r.2)
    (hwalk : ∀ c w1 r, FitsBuf w1.fs → walk c w1 = some r →
      ∃ t, r.2.trace = w1.trace ++ t ∧ WalkSeg c t) :
    ∀ (ns : List String) (w w' : World), FitsBuf w.fs →
      (∀ n ∈ ns, n ≠ "." → n ≠ ".." → ve_child_path P n = P ++ [n]) →
      ns.Pairwise (fun a b => a ≠ "." → a ≠ ".." → a ≠ b) →
      ve_walk_children walk P opt ns w = some w' →
      ∃ s, w'.trace = w.trace ++ s ∧ LoopSeg P ns s := by
  intro ns
  induction ns with
  | nil =>
    intro w w' _ _ _ h
    simp only [ve_walk_children, Option.some.injEq] at h
    subst h
    exact ⟨[], by simp, LoopSeg.nil P⟩
  | cons n rest ih =>
    intro w w' hfw hfit hpw h
    have hfit' : ∀ m ∈ rest, m ≠ "." → m ≠ ".." → ve_child_path P m = P ++ [m] :=
      fun m hm => hfit m (List.mem_cons_of_mem _ hm)
    obtain ⟨hhead, hrest⟩ := List.pairwise_cons.mp hpw
    have hfresh : n ≠ "." → n ≠ ".." → n ∉ rest :=
      fun h1 h2 hm => hhead n hm h1 h2 rfl
    rw [ve_walk_children] at h
    simp only [] at h
    by_cases ht : n = "." ∨ n = ".."
    · rw [if_pos ht] at h
      obtain ⟨s, hs, hl⟩ := ih (w.emit (Event.readdir P n)) w' hfw hfit' hrest h
      refine ⟨[Event.readdir P n] ++ s, by rw [hs]; simp, ?_⟩
      exact LoopSeg.cons (ChildSeg.skipped P n ht) hl hfresh
    · rw [if_neg ht] at h
      have hn1 : n ≠ "." := fun hh => ht (Or.inl hh)
      have hn2 : n ≠ ".." := fun hh => ht (Or.inr hh)
      rw [hfit n (List.mem_cons_self _ _) hn1 hn2] at h
      have hdw := ve_is_directory_world (P ++ [n]) (w.emit (Event.readdir P n))
      have hdf := (ve_is_directory_idle (P ++ [n]) (w.emit (Event.readdir P n))).fs
      generalize ve_is_directory (P ++ [n]) (w.emit (Event.readdir P n)) = d at h hdw hdf
      have hd2 : Shrinks w d.2 := Shrinks.of_fs hdf
      have hdt : d.2.trace = w.trace ++ [Event.readdir P n, Event.lstat (P ++ [n])] := by
        rw [hdw]; simp
      by_cases hd : d.1 ≠ 0
      · rw [if_pos hd] at h
        cases hwk : walk (P ++ [n]) d.2 with
        | none => rw [hwk] at h; simp at h
        | some r =>
          rw [hwk] at h
          simp only [] at h
          obtain ⟨tw, htw, hseg⟩ := hwalk _ _ _ (hfw.of_shrinks hd2) hwk
          obtain ⟨ok, hrm⟩ := ve_remove_empty_dir_log (P ++ [n]) r.2
          have hs3 := (hd2.sh_trans (hshr _ _ _ hwk)).sh_trans
            (ve_remove_empty_dir_shrinks (P ++ [n]) r.2)
          obtain ⟨s, hs, hl⟩ := ih _ w' (hfw.of_shrinks hs3) hfit' hrest h
          refine ⟨((Event.readdir P n :: Event.lstat (P ++ [n]) :: tw) ++
            [Event.rmdir (P ++ [n]) ok]) ++ s, ?_, ?_⟩
          · rw [hs, hrm, htw, hdt]; simp
          · exact LoopSeg.cons (ChildSeg.dir P n tw ok hn1 hn2 hseg) hl hfresh
      · rw [if_neg hd] at h
        obtain ⟨evs, hev, hplain⟩ := ve_erase_single_file_log (P ++ [n]) opt d.2
        have hs3 := hd2.sh_trans (ve_erase_single_file_shrinks (P ++ [n]) opt d.2).1
        obtain ⟨s, hs, hl⟩ := ih _ w' (hfw.of_shrinks hs3) hfit' hrest h
        refine ⟨(Event.readdir P n :: Event.lstat (P ++ [n]) ::
            Event.erase_single_file (P ++ [n]) :: evs) ++ s, ?_, ?_⟩
        · rw [hs, hev, hdt]; simp
        · exact LoopSeg.cons (ChildSeg.file P n evs hplain) hl hfresh

/-- The log of a walk. -/
theorem ve_walk_and_erase_log (opt : ve_options_t) (fuel : Nat) :
    ∀ (p : Path) (w : World) (r : ve_status_t × World), FitsBuf w.fs →
      ve_walk_and_erase fuel p opt w = some r →
      ∃ t, r.2.trace = w.trace ++ t ∧ WalkSeg p t := by
  induction fuel with
  | zero => intro p w r _ h; simp [ve_walk_and_erase] at h
  | succ k ih =>
    intro p w r hfw h
    rw [ve_walk_and_erase] at h
    simp only [] at h
    have hdw := ve_is_directory_world p (w.emit (Event.walk_enter p))
    have hdf := (ve_is_directory_idle p (w.emit (Event.walk_enter p))).fs
    generalize ve_is_directory p (w.emit (Event.walk_enter p)) = d at h hdw hdf
    have hfd : FitsBuf d.2.fs := hfw.of_shrinks (Shrinks.of_fs hdf)
    have hdt : d.2.trace = w.trace ++ [Event.walk_enter p, Event.lstat p] := by
      rw [hdw]; simp
    by_cases hd : d.1 = 0
    · rw [if_pos hd] at h
      simp only [Option.some.injEq] at h
      subst h
      obtain ⟨evs, hev, hplain⟩ := ve_erase_single_file_log p opt d.2
      have hnr : ∀ D ok, Event.rmdir D ok ∉ Event.walk_enter p :: Event.lstat p ::
          Event.erase_single_file p :: evs := by
        intro D ok hm
        simp only [List.mem_cons] at hm
        rcases hm with hm | hm | hm | hm
        · cases hm
        · cases hm
        · cases hm
        · have := hplain _ hm
          simp [Event.isPlain] at this
      have hnd : ∀ D name, Event.readdir D name ∉ Event.walk_enter p :: Event.lstat p ::
          Event.erase_single_file p :: evs := by
        intro D name hm
        simp only [List.mem_cons] at hm
        rcases hm with hm | hm | hm | hm
        · cases hm
        · cases hm
        · cases hm
        · have := hplain _ hm
          simp [Event.isPlain] at this
      refine ⟨Event.walk_enter p :: Event.lstat p :: Event.erase_single_file p :: evs,
        by rw [hev, hdt]; simp, ?_⟩
      exact ⟨fun D ok hm => absurd hm (hnr D ok), fun D name hm => absurd hm (hnd D name),
        fun name hm => absurd hm (hnd p name), PostOrder.of_no_rmdir hnr, Or.inl hnr,
        Or.inl (by simp)⟩
    · rw [if_neg hd] at h
      obtain ⟨ook, hot⟩ := sys_opendir_log p d.2
      have hnames := fun names => @sys_opendir_names p d.2 names
      have hchn := fun names => @sys_opendir_children p d.2 names
      have hof := sys_opendir_fs p d.2
      generalize sys_opendir p d.2 = o at h hot hnames hchn hof
      cases hon : o.1 with
      | none =>
        rw [hon] at h
        simp only [Option.some.injEq] at h
        subst h
        obtain ⟨ok, hrm⟩ := ve_remove_empty_dir_log p o.2
        refine ⟨[Event.walk_enter p, Event.lstat p, Event.opendir p ook, Event.rmdir p ok,
          Event.walk_done p], by simp [hrm, hot, hdt], ?_⟩
        refine ⟨?_, by simp, by simp, PostOrder.of_no_readdir (by simp), ?_, Or.inr (by simp)⟩
        · intro D ok' hm
          simp at hm
          rw [hm.1]
        · exact Or.inr ⟨[Event.walk_enter p, Event.lstat p, Event.opendir p ook], ok, rfl⟩
      | some names =>
        rw [hon] at h
        simp only [] at h
        cases hch : ve_walk_children (fun c w1 => ve_walk_and_erase k c opt w1) p opt names o.2
          with
        | none => rw [hch] at h; simp at h
        | some w3 =>
          rw [hch] at h
          simp only [Option.some.injEq] at h
          subst h
          obtain ⟨s, hs, hl⟩ := ve_walk_children_log _ p opt
            (fun c w1 r hr => (ve_walk_and_erase_shrinks opt k c w1 r hr).1)
            (fun c w1 r hf1 hr => ih c w1 r hf1 hr)
            names o.2 w3 (hfd.of_shrinks (Shrinks.of_fs hof))
            (fun n hn h1 h2 => ve_child_path_fits hfd (hchn names hon n hn h1 h2))
            (hnames names hon) hch
          obtain ⟨ok, hrm⟩ := ve_remove_empty_dir_log p (w3.emit (Event.closedir p))
          have hrd_in : ∀ D name, Event.readdir D name ∈
              [Event.walk_enter p, Event.lstat p, Event.opendir p ook] ++ s →
              Event.readdir D name ∈ s := by
            intro D name hm
            rcases List.mem_append.mp hm with hm | hm
            · simp at hm
            · exact hm
          have hrm_in : ∀ D ok', Event.rmdir D ok' ∈
              [Event.walk_enter p, Event.lstat p, Event.opendir p ook] ++ s →
              Event.rmdir D ok' ∈ s := by
            intro D ok' hm
            rcases List.mem_append.mp hm with hm | hm
            · simp at hm
            · exact hm
          have hcomplete : ∀ name, Event.readdir p name ∈ s → name ≠ "." → name ≠ ".." →
              Visited (p ++ [name]) s := by
            intro name hm h1 h2
            rcases hl.rd_scope p name hm with ⟨-, hn⟩ | ⟨n', -, hp⟩
            · exact hl.complete name hn h1 h2
            · exact absurd rfl (prefix_child_ne hp)
          refine ⟨([Event.walk_enter p, Event.lstat p, Event.opendir p ook] ++ s) ++
            [Event.closedir p, Event.rmdir p ok, Event.walk_done p], ?_, ?_⟩
          · simp [hrm, hs, hot, hdt]
          refine ⟨?_, ?_, ?_, ?_, ?_, Or.inr (by simp)⟩
          · intro D ok' hm
            rcases List.mem_append.mp hm with hm | hm
            · obtain ⟨n', -, hp⟩ := hl.rm_scope D ok' (hrm_in D ok' hm)
              exact prefix_child_parent hp
            · simp at hm
              rw [hm.1]
          · intro D name hm
            rcases List.mem_append.mp hm with hm | hm
            · rcases hl.rd_scope D name (hrd_in D name hm) with ⟨h1, -⟩ | ⟨n', -, hp⟩
              · rw [h1]
              · exact prefix_child_parent hp
            · simp at hm
          · intro name hm h1 h2
            rcases List.mem_append.mp hm with hm | hm
            · exact (hcomplete name (hrd_in p name hm) h1 h2).v_mono
                (by intro e he; simp [he])
            · simp at hm
          · refine PostOrder.po_append ?_ (PostOrder.of_no_readdir (by simp)) (by simp) ?_
            · exact PostOrder.po_append (PostOrder.of_no_rmdir (by simp)) hl.post (by simp)
                (by simp)
            · intro D ok' name hrm' hrd h1 h2
              simp at hrm'
              obtain ⟨hD, -⟩ := hrm'
              subst hD
              exact (hcomplete name (hrd_in _ name hrd) h1 h2).v_mono
                (by intro e he; simp [he])
          · exact Or.inr ⟨([Event.walk_enter p, Event.lstat p, Event.opendir p ook] ++ s) ++
              [Event.closedir p], ok, by simp⟩

/-! ## C9: post-order removal -/

set_option maxRecDepth 8000 in
/-- C9 (fails on the code). The directory `long_dir`, a path of 4040
characters, holds the single file `long_name`, whose path has 4141 characters.
`snprintf` leaves in `child` the first 4095 of them, the name cut to 54
characters.  The walk of `long_dir` passes that path, which names nothing, to
`ve_erase_single_file`, attempts the removal of `long_dir` and returns
`VE_SUCCESS`: the removal is attempted although the entry `long_name` that the
directory stream delivered has not been visited; it is never passed to
`ve_erase_single_file` and the file is still there when the walk returns. -/
theorem C9_truncated_child_is_not_visited :
    path_len long_dir = 4040 ∧
    path_len (long_dir ++ [long_name]) = 4141 ∧
    ve_child_path long_dir long_name = long_dir ++ [String.mk (List.replicate 54 'b')] ∧
    (ve_walk_and_erase (fs_depth fs_long + 1) long_dir (opts VE_ALG_ZERO 2)
        (world_of fs_long [])).map
      (fun r => (r.1, r.2.trace.filter Event.isWalkStep,
        decide (Event.erase_single_file (long_dir ++ [long_name]) ∈ r.2.trace),
        fs_lookup r.2.fs (long_dir ++ [long_name]))) =
      some (VE_SUCCESS,
        [Event.readdir long_dir ".", Event.readdir long_dir "..",
          Event.readdir long_dir long_name,
          Event.erase_single_file (long_dir ++ [String.mk (List.replicate 54 'b')]),
          Event.rmdir long_dir false, Event.walk_done long_dir],
        false, some (Node.file [7, 9])) := by
  refine ⟨by decide, by decide, by decide, by decide⟩

/-! ## Post-order removal on trees that fit the buffer -/

/-- On a tree all of whose paths fit the buffer `child`, the walk returns (its
depth bound being above the depth of the tree) and in its log, at every attempt
to remove a directory `D`, every entry of `D` that the directory stream
delivers anywhere in the log (other than `.` and `..`) has been visited before
that attempt: a plain file has been passed to `ve_erase_single_file`, a
subdirectory has been walked by a recursive call that has returned.  And when
any removal of a directory is attempted at all, the log ends with the attempt
on the top-level directory followed by the return of the walk. -/
theorem ve_walk_and_erase_post_order (fuel : Nat) (path : Path) (opt : ve_options_t)
    (w : World) (hfuel : fs_depth w.fs < fuel) (hfw : FitsBuf w.fs) :
    ∃ r evs, ve_walk_and_erase fuel path opt w = some r ∧ r.2.trace = w.trace ++ evs ∧
      (∀ D ok a b, evs = a ++ Event.rmdir D ok :: b →
        ∀ name, Event.readdir D name ∈ evs → name ≠ "." → name ≠ ".." →
          Event.erase_single_file (D ++ [name]) ∈ a ∨ Event.walk_done (D ++ [name]) ∈ a) ∧
      ((∃ D ok, Event.rmdir D ok ∈ evs) →
        ∃ a ok, evs = a ++ [Event.rmdir path ok, Event.walk_done path]) := by
  obtain ⟨r, hr, -, -, -⟩ := ve_walk_and_erase_total opt fuel path w (by omega) (by omega) hfw
  obtain ⟨t, ht, hseg⟩ := ve_walk_and_erase_log opt fuel path w r hfw hr
  refine ⟨r, t, hr, ht, hseg.post, ?_⟩
  rintro ⟨D, ok, hm⟩
  rcases hseg.ends with hno | hend
  · exact absurd hm (hno D ok)
  · exact hend

/-- The tree `d` (a file and an empty directory) fits the buffer: its walk
returns and its log is post-order. -/
theorem ve_walk_and_erase_post_order_tree :
    FitsBuf (world_of fs_tree []).fs ∧
    ∃ r evs, ve_walk_and_erase 3 ["d"] (opts VE_ALG_ZERO 2) (world_of fs_tree []) = some r ∧
      r.2.trace = (world_of fs_tree []).trace ++ evs ∧
      (∀ D ok a b, evs = a ++ Event.rmdir D ok :: b →
        ∀ name, Event.readdir D name ∈ evs → name ≠ "." → name ≠ ".." →
          Event.erase_single_file (D ++ [name]) ∈ a ∨ Event.walk_done (D ++ [name]) ∈ a) ∧
      ((∃ D ok, Event.rmdir D ok ∈ evs) →
        ∃ a ok, evs = a ++ [Event.rmdir ["d"] ok, Event.walk_done ["d"]]) :=
  ⟨by unfold FitsBuf; decide,
    ve_walk_and_erase_post_order 3 ["d"] (opts VE_ALG_ZERO 2) (world_of fs_tree []) (by decide)
      (by unfold FitsBuf; decide)⟩

/-- On a directory target in a tree that fits the buffer `child`,
`ve_erase_path` always returns, with `VE_SUCCESS` or `VE_ERR_IO` and never
`VE_ERR_PARTIAL`; once `ve_walk_and_erase` has itself seen the target as a
directory the status is `VE_SUCCESS`, whatever the erases of the descendants
returned: their statuses are discarded. -/
theorem ve_erase_path_directory_status (p : Path) (opt : ve_options_t) (w : World)
    (hfw : FitsBuf w.fs) (hdir : (ve_is_directory p w).1 ≠ 0) :
    ∃ r, ve_erase_path (some p) (some opt) w = some r ∧
      (r.1 = VE_SUCCESS ∨ r.1 = VE_ERR_IO) ∧ r.1 ≠ VE_ERR_PARTIAL ∧
      ((ve_is_directory p ((ve_is_directory p w).2.emit (Event.walk_enter p))).1 ≠ 0 →
        r.1 = VE_SUCCESS) := by
  unfold ve_erase_path
  simp only []
  rw [if_pos hdir]
  have hfd : FitsBuf (ve_is_directory p w).2.fs := by
    rw [(ve_is_directory_idle p w).fs]; exact hfw
  obtain ⟨r, hr, -, hst, hok⟩ := ve_walk_and_erase_total opt
    (fs_depth (ve_is_directory p w).2.fs + 1) p (ve_is_directory p w).2 (by omega) (by omega) hfd
  refine ⟨r, hr, hst, ?_, hok⟩
  rcases hst with h | h <;> rw [h] <;> decide

/-- The tree `d` with the open of `d/f` failing: `ve_erase_path` returns
`VE_SUCCESS`. -/
theorem ve_erase_path_directory_status_tree :
    ∃ r, ve_erase_path (some ["d"]) (some (opts VE_ALG_ZERO 2)) world_child_fails = some r ∧
      (r.1 = VE_SUCCESS ∨ r.1 = VE_ERR_IO) ∧ r.1 ≠ VE_ERR_PARTIAL ∧ r.1 = VE_SUCCESS :=
  match ve_erase_path_directory_status ["d"] (opts VE_ALG_ZERO 2) world_child_fails
    (by unfold FitsBuf; decide) (by decide) with
  | ⟨r, h, hst, hne, hok⟩ => ⟨r, h, hst, hne, hok (by decide)⟩

/-- Whatever the tree, a result of `ve_erase_path` on two non-NULL arguments is
`VE_SUCCESS` or `VE_ERR_IO`: no path builds `VE_ERR_PARTIAL`. -/
theorem ve_erase_path_status (p : Path) (opt : ve_options_t) (w : World)
    (r : ve_status_t × World) (h : ve_erase_path (some p) (some opt) w = some r) :
    r.1 = VE_SUCCESS ∨ r.1 = VE_ERR_IO := by
  unfold ve_erase_path at h
  simp only [] at h
  by_cases hd : (ve_is_directory p w).1 ≠ 0
  · rw [if_pos hd] at h
    exact (ve_walk_and_erase_shrinks opt _ p _ r h).2
  · rw [if_neg hd] at h
    simp only [Option.some.injEq] at h
    subst h
    exact (ve_erase_single_file_shrinks p opt _).2

/-! ## C8: what a directory target returns -/

/-- C8 (fails on the code). In the tree `d` the single-file erase of `d/f`
returns `VE_ERR_IO` (its open fails) and the file is still there afterwards, yet
`ve_erase_path` on `d` returns `VE_SUCCESS`, not `VE_ERR_PARTIAL`, the status
that `veraser.h` documents for an operation that could not process all items. -/
theorem C8_child_failure_is_discarded :
    (ve_erase_single_file ["d", "f"] (opts VE_ALG_ZERO 2) world_at_child).1 = VE_ERR_IO ∧
    (ve_erase_path (some ["d"]) (some (opts VE_ALG_ZERO 2)) world_child_fails).map
        (fun r => r.2.trace.take 10) =
      some (ve_erase_single_file ["d", "f"] (opts VE_ALG_ZERO 2) world_at_child).2.trace ∧
    (ve_erase_path (some ["d"]) (some (opts VE_ALG_ZERO 2)) world_child_fails).map
        (fun r => (r.1, fs_lookup r.2.fs ["d", "f"])) =
      some (VE_SUCCESS, some (Node.file [7, 9])) ∧
    (ve_erase_path (some ["d"]) (some (opts VE_ALG_ZERO 2)) world_child_fails).map Prod.fst ≠
      some VE_ERR_PARTIAL := by
  refine ⟨by decide, by decide, by decide, by decide⟩

/-! ## The iteration bounds are never reached -/

/-- Extra iterations allowed to the pattern sweep change nothing: with
`file_size - total_written` iterations the loop already leaves by its test. -/
theorem ve_write_pattern_loop_fuel (fd : Int) (file_size pattern fuel : Nat) :
    ∀ (total : Nat) (w : World), file_size - total ≤ fuel →
      ve_write_pattern_loop fd file_size pattern (fuel + 1) total w =
        ve_write_pattern_loop fd file_size pattern fuel total w := by
  induction fuel with
  | zero =>
    intro total w h
    conv_lhs => rw [ve_write_pattern_loop]
    rw [if_neg (by omega)]
    rfl
  | succ k ih =>
    intro total w h
    conv_lhs => rw [ve_write_pattern_loop]
    conv_rhs => rw [ve_write_pattern_loop]
    by_cases hlt : total < file_size
    · rw [if_pos hlt, if_pos hlt]
      simp only []
      generalize (if file_size - total < VE_DEFAULT_CHUNK_SIZE then file_size - total
        else VE_DEFAULT_CHUNK_SIZE) = n
      generalize sys_write fd (List.replicate n pattern) n w = r
      by_cases hr : r.1 ≤ 0
      · rw [if_pos hr, if_pos hr]
      · rw [if_neg hr, if_neg hr]
        exact ih _ _ (by omega)
    · rw [if_neg hlt, if_neg hlt]

/-- The same for the random sweep. -/
theorem ve_write_random_loop_fuel (fd : Int) (file_size fuel : Nat) :
    ∀ (total : Nat) (w : World), file_size - total ≤ fuel →
      ve_write_random_loop fd file_size (fuel + 1) total w =
        ve_write_random_loop fd file_size fuel total w := by
  induction fuel with
  | zero =>
    intro total w h
    conv_lhs => rw [ve_write_random_loop]
    rw [if_neg (by omega)]
    rfl
  | succ k ih =>
    intro total w h
    conv_lhs => rw [ve_write_random_loop]
    conv_rhs => rw [ve_write_random_loop]
    by_cases hlt : total < file_size
    · rw [if_pos hlt, if_pos hlt]
      simp only []
      generalize (if file_size - total < VE_DEFAULT_CHUNK_SIZE then file_size - total
        else VE_DEFAULT_CHUNK_SIZE) = n
      generalize ve_csrand n w = c
      by_cases hc : c.1 ≠ 0
      · rw [if_pos hc, if_pos hc]
      · rw [if_neg hc, if_neg hc]
        generalize sys_write fd c.2.1 n c.2.2 = r
        by_cases hr : r.1 ≤ 0
        · rw [if_pos hr, if_pos hr]
        · rw [if_neg hr, if_neg hr]
          exact ih _ _ (by omega)
    · rw [if_neg hlt, if_neg hlt]

/-- The same for the pieces of the Windows cipher helper. -/
theorem ve_aes_ctr_encrypt_windows_loop_fuel (key : List Nat) (len fuel : Nat) :
    ∀ (off : Nat) (buf iv : List Nat) (w : World), len - off ≤ fuel →
      ve_aes_ctr_encrypt_windows_loop key len (fuel + 1) off buf iv w =
        ve_aes_ctr_encrypt_windows_loop key len fuel off buf iv w := by
  induction fuel with
  | zero =>
    intro off buf iv w h
    conv_lhs => rw [ve_aes_ctr_encrypt_windows_loop]
    rw [if_neg (by omega)]
    rfl
  | succ k ih =>
    intro off buf iv w h
    conv_lhs => rw [ve_aes_ctr_encrypt_windows_loop]
    conv_rhs => rw [ve_aes_ctr_encrypt_windows_loop]
    by_cases hlt : off < len
    · rw [if_pos hlt, if_pos hlt]
      simp only []
      have hn : 1 ≤ (if len - off > 2 ^ 20 then 2 ^ 20 else len - off) := by
        split <;> omega
      generalize (if len - off > 2 ^ 20 then 2 ^ 20 else len - off) = n at hn
      cases w.next.1 with
      | fail => rfl
      | ok => exact ih _ _ _ _ (by omega)
      | short j => exact ih _ _ _ _ (by omega)
    · rw [if_neg hlt, if_neg hlt]

/-- The same for the chunks of the in-place encryption. -/
theorem ve_encrypt_loop_fuel (fd : Int) (file_size : Nat) (aes_key : List Nat) (fuel : Nat) :
    ∀ (processed : Nat) (aes_iv : List Nat) (w : World), file_size - processed ≤ fuel →
      ve_encrypt_loop fd file_size aes_key (fuel + 1) processed aes_iv w =
        ve_encrypt_loop fd file_size aes_key fuel processed aes_iv w := by
  induction fuel with
  | zero =>
    intro processed aes_iv w h
    conv_lhs => rw [ve_encrypt_loop]
    rw [if_neg (by omega)]
    rfl
  | succ k ih =>
    intro processed aes_iv w h
    conv_lhs => rw [ve_encrypt_loop]
    conv_rhs => rw [ve_encrypt_loop]
    by_cases hlt : processed < file_size
    · rw [if_pos hlt, if_pos hlt]
      simp only []
      generalize (if file_size - processed < VE_DEFAULT_CHUNK_SIZE then file_size - processed
        else VE_DEFAULT_CHUNK_SIZE) = n
      generalize sys_read fd n w = rd
      by_cases hr : rd.1 ≤ 0
      · rw [if_pos hr, if_pos hr]
      · rw [if_neg hr, if_neg hr]
        have hrec : ∀ (iv : List Nat) (w1 : World),
            ve_encrypt_loop fd file_size aes_key (k + 1) (processed + rd.1.toNat) iv w1 =
              ve_encrypt_loop fd file_size aes_key k (processed + rd.1.toNat) iv w1 :=
          fun iv w1 => ih _ iv w1 (by omega)
        simp only [hrec]
    · rw [if_neg hlt, if_neg hlt]

/-! ## C15: NULL arguments -/

/-- C15. `ve_erase_path` returns `VE_ERR_INVALID_ARG` when `path` is NULL,
whatever `options` is, and when `options` is NULL, whatever `path` is; the world
it returns is the one it was given, so no call has been made and the filesystem
is untouched. -/
theorem C15_null_argument (path : Option Path) (options : Option ve_options_t) (w : World) :
    ve_erase_path none options w = some ( VE_ERR_INVALID_ARG, w) ∧
    ve_erase_path path none w = some ( VE_ERR_INVALID_ARG, w) := by
  constructor
  · rfl
  · cases path <;> rfl

/-! ## C16: status of the free-space discard -/

/-- On a non-NULL path `ve_trim_free_space` returns `VE_SUCCESS`: the helper
`ve_trim_best_effort` returns 0 on every path through it. -/
theorem ve_trim_free_space_status (p : Path) (a : Int) (w : World) :
    (ve_trim_free_space (some p) a w).1 = VE_SUCCESS := by
  have h0 : ∀ (c : Prop) [Decidable c] (x y : World),
      (if c then ((0 : Int), x) else (0, y)).1 = 0 := by
    intro c _ x y
    split <;> rfl
  have h : (ve_trim_best_effort p a w).1 = 0 := by
    unfold ve_trim_best_effort
    by_cases hl : w.build.linux = true
    · rw [if_pos hl]
      exact h0 _ _ _
    · rw [if_neg hl]
  unfold ve_trim_free_space
  simp only []
  rw [if_pos h]

/-- C16 (fails on the code). On a build that is not Linux, where
`ve_trim_best_effort` issues no request, `ve_trim_free_space` on the directory
`d` returns `VE_SUCCESS`, not `VE_ERR_UNSUPPORTED`, and logs no call; on the
Linux build it returns `VE_SUCCESS` also when the open of the directory fails
and no `FITRIM` is issued. -/
theorem C16_trim_reports_success :
    (ve_trim_free_space (some ["d"]) 0 (world_on build_other [] fs_tree [])).1 = VE_SUCCESS ∧
    (ve_trim_free_space (some ["d"]) 0 (world_on build_other [] fs_tree [])).2.trace = [] ∧
    (ve_trim_free_space (some ["d"]) 0 (world_of fs_tree [Resp.ok, Resp.fail])).1 =
      VE_SUCCESS ∧
    (ve_trim_free_space (some ["d"]) 0 (world_of fs_tree [Resp.ok, Resp.fail])).2.trace =
      [Event.stat ["d"], Event.open_ro ["d"] false] := by
  refine ⟨by decide, by decide, by decide, by decide⟩

/-! ## C17: the chunk size -/

theorem ve_hdd_pass_loop_chunk (fd : Int) (opt : ve_options_t) (c size n : Nat) :
    ∀ (w : World), ve_hdd_pass_loop fd { opt with chunk_size := c } size n w =
      ve_hdd_pass_loop fd opt size n w := by
  induction n with
  | zero => intro w; rfl
  | succ k ih =>
    intro w
    conv_lhs => rw [ve_hdd_pass_loop]
    conv_rhs => rw [ve_hdd_pass_loop]
    simp only [ih]

/-- The single-file erase does not read `chunk_size`. -/
theorem ve_erase_single_file_chunk (p : Path) (opt : ve_options_t) (c : Nat) (w : World) :
    ve_erase_single_file p { opt with chunk_size := c } w = ve_erase_single_file p opt w := by
  have hh : ∀ fd w0, ve_erase_hdd_like fd { opt with chunk_size := c } w0 =
      ve_erase_hdd_like fd opt w0 := by
    intro fd w0
    unfold ve_erase_hdd_like
    simp only [ve_hdd_pass_loop_chunk]
    rfl
  have hs : ∀ fd w0, ve_erase_ssd_like fd { opt with chunk_size := c } w0 =
      ve_erase_ssd_like fd opt w0 := fun _ _ => rfl
  unfold ve_erase_single_file
  simp only [hh, hs]

/-- C17 (fails on the code). With `chunk_size = 1` the Zero pass on the two-byte
file `f` transfers both bytes in one write and the SSD engine reads and writes
both bytes in one chunk, where chunks of at most one byte were asked for; for
every options value the single-file erase is the same whatever `chunk_size` is,
the chunk being the constant `VE_DEFAULT_CHUNK_SIZE` of 8 MiB. -/
theorem C17_chunk_size_is_ignored :
    (ve_erase_single_file ["f"] (opts_chunk VE_ALG_ZERO 1)
        (world_of fs_one_file [])).2.trace.filter Event.isTransfer = [Event.write 0 2] ∧
    (ve_erase_single_file ["f"] (opts_chunk VE_ALG_SSD 1)
        (world_of fs_one_file [])).2.trace.filter Event.isTransfer =
      [Event.read 0 2, Event.write 0 2] ∧
    (∀ (p : Path) (opt : ve_options_t) (c : Nat) (w : World),
      ve_erase_single_file p { opt with chunk_size := c } w = ve_erase_single_file p opt w) ∧
    VE_DEFAULT_CHUNK_SIZE = 8388608 := by
  refine ⟨by decide, by decide, ve_erase_single_file_chunk, by decide⟩

/-! ## C20: an algorithm value outside the enumeration -/

theorem sys_lseek_fs (fd : Int) (off : Int) (wh : Whence) (w : World) :
    (sys_lseek fd off wh w).2.fs = w.fs := by
  unfold sys_lseek
  simp only []
  split
  · simp
  · simp
  · split <;> simp

theorem sys_GetFileSizeEx_fs (fd : Int) (w : World) : (sys_GetFileSizeEx fd w).2.fs = w.fs := by
  unfold sys_GetFileSizeEx
  simp only []
  split <;> simp

theorem ve_get_file_size_fd_fs (fd : Int) (w : World) :
    (ve_get_file_size_fd fd w).2.2.fs = w.fs := by
  unfold ve_get_file_size_fd
  split
  · simp only []
    split <;> exact sys_GetFileSizeEx_fs _ _
  · simp only []
    split
    · rw [sys_lseek_fs, sys_lseek_fs]
    · split <;> rw [sys_lseek_fs, sys_lseek_fs, sys_lseek_fs]

theorem ve_flush_fd_fs (fd : Int) (w : World) : (ve_flush_fd fd w).2.fs = w.fs := by
  unfold ve_flush_fd sys_fsync
  simp only []
  split <;> simp

theorem sys_open_rw_trace {w : World} {p : Path} (h : 0 ≤ (sys_open_rw p w).1) :
    (sys_open_rw p w).2.trace = w.trace ++ [Event.open_rw p true] := by
  unfold sys_open_rw at h ⊢
  simp only [] at h ⊢
  split at h
  · simp at h
  · simp
  · simp at h

/-- The pass of an algorithm value outside the enumeration: nothing but the
flush. -/
theorem ve_hdd_pass_loop_unlisted (fd : Int) (opt : ve_options_t) (size : Nat) (w : World)
    (halg : opt.algorithm < 0 ∨ 6 < opt.algorithm) :
    ve_hdd_pass_loop fd opt size 1 w =
      if (ve_flush_fd fd w).1 ≠ 0 then ( VE_ERR_IO, (ve_flush_fd fd w).2)
      else (VE_SUCCESS, (ve_flush_fd fd w).2) := by
  have h0 : ¬ opt.algorithm = VE_ALG_ZERO := by unfold VE_ALG_ZERO; omega
  have h1 : ¬ (opt.algorithm = VE_ALG_RANDOM ∨ opt.algorithm = VE_ALG_NIST ∨
      opt.algorithm = VE_ALG_GUTMANN ∨ opt.algorithm = VE_ALG_DOD3 ∨
      opt.algorithm = VE_ALG_DOD7) := by
    unfold VE_ALG_RANDOM VE_ALG_NIST VE_ALG_GUTMANN VE_ALG_DOD3 VE_ALG_DOD7; omega
  show ve_hdd_pass_loop fd opt size (0 + 1) w = _
  rw [ve_hdd_pass_loop]
  rw [if_neg h0, if_neg h1]
  simp only [ve_hdd_pass_loop]
  rw [if_neg (by simp)]

theorem ve_hdd_passes_unlisted (opt : ve_options_t)
    (halg : opt.algorithm < 0 ∨ 6 < opt.algorithm) : ve_hdd_passes opt = 1 := by
  unfold ve_hdd_passes
  rw [if_neg (by unfold VE_ALG_ZERO; omega), if_neg (by unfold VE_ALG_RANDOM; omega),
    if_neg (by unfold VE_ALG_DOD3; omega), if_neg (by unfold VE_ALG_DOD7; omega),
    if_neg (by unfold VE_ALG_NIST; omega), if_neg (by unfold VE_ALG_GUTMANN; omega)]

/-- The engine under an algorithm value outside the enumeration, unfolded. -/
theorem ve_erase_hdd_like_unlisted_eq (fd : Int) (opt : ve_options_t) (w : World)
    (halg : opt.algorithm < 0 ∨ 6 < opt.algorithm) :
    ve_erase_hdd_like fd opt w =
      if (ve_get_file_size_fd fd w).1 ≠ 0 then ( VE_ERR_IO, (ve_get_file_size_fd fd w).2.2)
      else if (ve_flush_fd fd (ve_get_file_size_fd fd w).2.2).1 ≠ 0 then
        ( VE_ERR_IO, (ve_flush_fd fd (ve_get_file_size_fd fd w).2.2).2)
      else (VE_SUCCESS, (ve_flush_fd fd (ve_get_file_size_fd fd w).2.2).2) := by
  unfold ve_erase_hdd_like
  simp only []
  rw [ve_hdd_passes_unlisted opt halg]
  show (if _ then _ else ve_hdd_pass_loop fd opt _ 1 _) = _
  rw [ve_hdd_pass_loop_unlisted fd opt _ _ halg]

/-- The engine under an algorithm value outside the enumeration: the size query,
then at most one flush; the filesystem is left as it is. -/
theorem ve_erase_hdd_like_unlisted (fd : Int) (opt : ve_options_t) (w : World)
    (halg : opt.algorithm < 0 ∨ 6 < opt.algorithm) :
    (ve_erase_hdd_like fd opt w).2.fs = w.fs ∧
    ∃ q f, (ve_erase_hdd_like fd opt w).2.trace = w.trace ++ q ++ f ∧
      (∀ e ∈ q, e.isSizeQuery = true) ∧
      (f = [] ∨ ∃ b, f = [Event.fsync b]) ∧
      ((ve_erase_hdd_like fd opt w).1 = VE_SUCCESS → f = [Event.fsync true]) := by
  obtain ⟨q, hq, hqp⟩ := ve_get_file_size_fd_query fd w
  have hfs := ve_get_file_size_fd_fs fd w
  rw [ve_erase_hdd_like_unlisted_eq fd opt w halg]
  by_cases hg : (ve_get_file_size_fd fd w).1 ≠ 0
  · rw [if_pos hg]
    exact ⟨hfs, q, [], by simp [hq], hqp, Or.inl rfl, by simp⟩
  · rw [if_neg hg]
    obtain ⟨b, hb, hbt⟩ := ve_flush_fd_event fd (ve_get_file_size_fd fd w).2.2
    have hff := ve_flush_fd_fs fd (ve_get_file_size_fd fd w).2.2
    by_cases hf : (ve_flush_fd fd (ve_get_file_size_fd fd w).2.2).1 ≠ 0
    · rw [if_pos hf]
      exact ⟨hff.trans hfs, q, [Event.fsync b], by simp [hb, hq], hqp, Or.inr ⟨b, rfl⟩,
        by simp⟩
    · rw [if_neg hf]
      refine ⟨hff.trans hfs, q, [Event.fsync b], by simp [hb, hq], hqp, Or.inr ⟨b, rfl⟩, ?_⟩
      intro _
      rw [hbt hf]

/-- C20. When `options.algorithm` is none of the seven enumerators, the pass
count of `ve_erase_hdd_like` is 1; whatever the environment answers, the engine
logs the size query and at most one flush, so no write, and leaves every file
as it is; and erasing an existing regular file without `dry_run` under an
environment that fails no call returns `VE_SUCCESS` with the path gone: the log
is the `lstat`, the open, the size query, one flush, the close and the
successful unlink, followed at most by the discard hint. -/
theorem C20_unlisted_algorithm (p : Path) (d : List Nat) (opt : ve_options_t) (w : World)
    (halg : opt.algorithm < 0 ∨ 6 < opt.algorithm) (hdry : opt.dry_run = 0)
    (hfile : fs_lookup w.fs p = some (Node.file d)) (hcalm : Calm w) :
    ve_hdd_passes opt = 1 ∧
    (∀ (fd : Int) (w0 : World), (ve_erase_hdd_like fd opt w0).2.fs = w0.fs ∧
      ∃ evs, (ve_erase_hdd_like fd opt w0).2.trace = w0.trace ++ evs ∧
        ∀ e ∈ evs, e.isSizeQuery = true ∨ ∃ b, e = Event.fsync b) ∧
    ∃ r q after, ve_erase_path (some p) (some opt) w = some r ∧ r.1 = VE_SUCCESS ∧
      fs_lookup r.2.fs p = none ∧
      r.2.trace = w.trace ++
        [Event.lstat p, Event.erase_single_file p, Event.open_rw p true] ++ q ++
        [Event.fsync true, Event.close, Event.unlink p true] ++ after ∧
      (∀ e ∈ q, e.isSizeQuery = true) ∧ (∀ e ∈ after, e.isTrimCall = true) := by
  refine ⟨ve_hdd_passes_unlisted opt halg, ?_, ?_⟩
  · intro fd w0
    obtain ⟨hfs, q, f, ht, hq, hf, -⟩ := ve_erase_hdd_like_unlisted fd opt w0 halg
    refine ⟨hfs, q ++ f, by rw [ht, List.append_assoc], ?_⟩
    intro e he
    rcases List.mem_append.mp he with h | h
    · exact Or.inl (hq e h)
    · rcases hf with rfl | ⟨b, rfl⟩
      · simp at h
      · exact Or.inr ⟨b, by simpa using h⟩
  · have hssd : ¬ opt.algorithm = VE_ALG_SSD := by unfold VE_ALG_SSD; omega
    unfold ve_erase_path
    simp only []
    rw [if_neg (by simp [ve_is_directory_file hfile])]
    have hw1 : (ve_is_directory p w).2 = w.next.2.emit (Event.lstat p) :=
      ve_is_directory_world p w
    have hc1 : Calm (ve_is_directory p w).2 := by rw [hw1]; exact hcalm.next.2
    have ht1 : (ve_is_directory p w).2.trace = w.trace ++ [Event.lstat p] := by
      rw [hw1]; simp
    have hf1 : fs_lookup (ve_is_directory p w).2.fs p = some (Node.file d) := by
      rw [hw1]; simpa using hfile
    generalize (ve_is_directory p w).2 = w1 at hc1 ht1 hf1 ⊢
    unfold ve_erase_single_file
    simp only []
    rw [if_neg (by simp [hdry])]
    have hc2 : Calm (w1.emit (Event.erase_single_file p)) := hc1.emit _
    have hf2 : fs_lookup (w1.emit (Event.erase_single_file p)).fs p = some (Node.file d) := hf1
    have ht2 : (w1.emit (Event.erase_single_file p)).trace =
        w.trace ++ [Event.lstat p, Event.erase_single_file p] := by
      show w1.trace ++ _ = _
      rw [ht1]; simp
    generalize w1.emit (Event.erase_single_file p) = w2 at hc2 hf2 ht2 ⊢
    obtain ⟨ho, hc3⟩ := ve_open_rw_calm hc2 hf2
    obtain ⟨hof, hofs⟩ := sys_open_rw_file (w := w2) (p := p) (by unfold ve_open_rw at ho; omega)
    have ht3 := sys_open_rw_trace (w := w2) (p := p) (by unfold ve_open_rw at ho; omega)
    rw [if_neg ho, if_neg hssd]
    change (ve_open_rw p w2).2.ofile = some (p, 0) at hof
    change (ve_open_rw p w2).2.fs = w2.fs at hofs
    change (ve_open_rw p w2).2.trace = _ at ht3
    have hfile3 : (ve_open_rw p w2).2.file = some (p, 0, d) :=
      World.file_eq_some.mpr ⟨hof, by rw [hofs]; exact hf2⟩
    generalize (ve_open_rw p w2).1 = fd
    generalize (ve_open_rw p w2).2 = w3 at hc3 hofs ht3 hfile3 ⊢
    obtain ⟨hfs4, q, f, ht4, hq, -, hfok⟩ := ve_erase_hdd_like_unlisted fd opt w3 halg
    have hs4 : (ve_erase_hdd_like fd opt w3).1 = VE_SUCCESS ∧
        Calm (ve_erase_hdd_like fd opt w3).2 := by
      rw [ve_erase_hdd_like_unlisted_eq fd opt w3 halg]
      obtain ⟨hg, hgc⟩ := ve_get_file_size_fd_calm hc3 hfile3 fd
      rw [if_neg (by simp [hg])]
      obtain ⟨hfl, hflc⟩ := ve_flush_fd_calm hgc fd
      rw [if_neg (by simp [hfl])]
      exact ⟨rfl, hflc⟩
    have hf4 := hfok hs4.1
    subst hf4
    generalize ve_erase_hdd_like fd opt w3 = e at hfs4 ht4 hs4 ⊢
    rw [if_neg (by simp [hs4.1])]
    have hc5 : Calm (ve_close_fd fd e.2).2 := hs4.2
    have hl5 : fs_lookup (ve_close_fd fd e.2).2.fs p = some (Node.file d) := by
      rw [ve_close_fd_fs, hfs4, hofs]; exact hf2
    have ht5 : (ve_close_fd fd e.2).2.trace = w.trace ++
        [Event.lstat p, Event.erase_single_file p, Event.open_rw p true] ++ q ++
        [Event.fsync true, Event.close] := by
      rw [ve_close_fd_trace, ht4, ht3, ht2]; simp
    generalize (ve_close_fd fd e.2).2 = w5 at hc5 hl5 ht5 ⊢
    have hu := ve_remove_file_calm hc5 hl5
    obtain ⟨hgone, htu⟩ := ve_remove_file_ok (p := p) (w := w5) (by simp [hu])
    rw [if_neg (by simp [hu])]
    by_cases h4 : opt.trim_mode = 0 ∨ opt.trim_mode = 1
    · rw [if_pos h4]
      obtain ⟨⟨after, ha, har⟩, hfs⟩ := ve_trim_best_effort_idle p 0 (ve_remove_file p w5).2
      refine ⟨_, q, after, rfl, rfl, ?_, ?_, hq, har⟩
      · show fs_lookup (ve_trim_best_effort p 0 (ve_remove_file p w5).2).2.fs p = none
        rw [hfs]; exact hgone
      · show (ve_trim_best_effort p 0 (ve_remove_file p w5).2).2.trace = _
        rw [ha, htu, ht5]; simp
    · rw [if_neg h4]
      refine ⟨_, q, [], rfl, rfl, hgone, ?_, hq, by simp⟩
      show (ve_remove_file p w5).2.trace = _
      rw [htu, ht5]; simp

/-- C20, witness: the algorithm value 7 on the two-byte file `f`, discard hint
off; the file is still `[7, 9]` when it is unlinked. -/
theorem C20_unlisted_algorithm_witness :
    ve_hdd_passes (opts 7 2) = 1 ∧
    ∃ r q after, ve_erase_path (some ["f"]) (some (opts 7 2)) (world_of fs_one_file []) =
        some r ∧ r.1 = VE_SUCCESS ∧ fs_lookup r.2.fs ["f"] = none ∧
      r.2.trace = (world_of fs_one_file []).trace ++
        [Event.lstat ["f"], Event.erase_single_file ["f"], Event.open_rw ["f"] true] ++ q ++
        [Event.fsync true, Event.close, Event.unlink ["f"] true] ++ after ∧
      (∀ e ∈ q, e.isSizeQuery = true) ∧ (∀ e ∈ after, e.isTrimCall = true) :=
  match C20_unlisted_algorithm ["f"] [7, 9] (opts 7 2) (world_of fs_one_file [])
      (by decide) rfl (by decide) (by intro x hx; simp [world_of] at hx) with
  | ⟨h1, _, h3⟩ => ⟨h1, h3⟩

/-! ## C11: short writes -/

theorem ve_write_pattern_loop_rc (fd : Int) (file_size pattern fuel : Nat) :
    ∀ (total : Nat) (w : World),
      (ve_write_pattern_loop fd file_size pattern fuel total w).1 = 0 ∨
      (ve_write_pattern_loop fd file_size pattern fuel total w).1 = -1 := by
  induction fuel with
  | zero => intro total w; exact Or.inl rfl
  | succ k ih =>
    intro total w
    rw [ve_write_pattern_loop]
    by_cases h : total < file_size
    · rw [if_pos h]
      simp only []
      generalize (if file_size - total < VE_DEFAULT_CHUNK_SIZE then file_size - total
        else VE_DEFAULT_CHUNK_SIZE) = n
      generalize sys_write fd (List.replicate n pattern) n w = r
      by_cases hr : r.1 ≤ 0
      · rw [if_pos hr]; exact Or.inr rfl
      · rw [if_neg hr]; exact ih _ _
    · rw [if_neg h]; exact Or.inl rfl

theorem ve_write_pattern_fd_rc (fd : Int) (file_size pattern : Nat) (w : World) :
    (ve_write_pattern_fd fd file_size pattern w).1 = 0 ∨
    (ve_write_pattern_fd fd file_size pattern w).1 = -1 := by
  unfold ve_write_pattern_fd
  simp only []
  by_cases h : (sys_malloc w).1 = false
  · rw [if_pos h]; exact Or.inr rfl
  · rw [if_neg h]; exact ve_write_pattern_loop_rc _ _ _ _ _ _

theorem ve_write_random_loop_rc (fd : Int) (file_size fuel : Nat) :
    ∀ (total : Nat) (w : World),
      (ve_write_random_loop fd file_size fuel total w).1 = 0 ∨
      (ve_write_random_loop fd file_size fuel total w).1 = -1 := by
  induction fuel with
  | zero => intro total w; exact Or.inl rfl
  | succ k ih =>
    intro total w
    rw [ve_write_random_loop]
    by_cases h : total < file_size
    · rw [if_pos h]
      simp only []
      generalize (if file_size - total < VE_DEFAULT_CHUNK_SIZE then file_size - total
        else VE_DEFAULT_CHUNK_SIZE) = n
      generalize ve_csrand n w = c
      by_cases hc : c.1 ≠ 0
      · rw [if_pos hc]; exact Or.inr rfl
      · rw [if_neg hc]
        generalize sys_write fd c.2.1 n c.2.2 = r
        by_cases hr : r.1 ≤ 0
        · rw [if_pos hr]; exact Or.inr rfl
        · rw [if_neg hr]; exact ih _ _
    · rw [if_neg h]; exact Or.inl rfl

theorem ve_write_random_fd_rc (fd : Int) (file_size : Nat) (w : World) :
    (ve_write_random_fd fd file_size w).1 = 0 ∨ (ve_write_random_fd fd file_size w).1 = -1 := by
  unfold ve_write_random_fd
  simp only []
  by_cases h : (sys_malloc w).1 = false
  · rw [if_pos h]; exact Or.inr rfl
  · rw [if_neg h]; exact ve_write_random_loop_rc _ _ _ _ _

/-- C11 (fails on the code). On the two-byte file `f`, with the first write
transferring one byte of the two asked for: `ve_write_pattern_fd` and
`ve_write_random_fd` return 0 after a second write of the remaining byte at
offset 1, and `ve_erase_hdd_like` under the Zero algorithm returns
`VE_SUCCESS`, not `VE_ERR_IO`. -/
theorem C11_short_write_is_accepted :
    (ve_write_pattern_fd 3 2 0
      (ve_open_rw ["f"] (world_of fs_one_file [Resp.ok, Resp.ok, Resp.short 1])).2).1 = 0 ∧
    (ve_write_pattern_fd 3 2 0
      (ve_open_rw ["f"] (world_of fs_one_file [Resp.ok, Resp.ok, Resp.short 1])).2).2.trace.filter
        Event.isWrite = [Event.write 0 1, Event.write 1 1] ∧
    (ve_write_random_fd 3 2
      (ve_open_rw ["f"] (world_of fs_one_file
        [Resp.ok, Resp.ok, Resp.ok, Resp.short 1])).2).1 = 0 ∧
    (ve_write_random_fd 3 2
      (ve_open_rw ["f"] (world_of fs_one_file
        [Resp.ok, Resp.ok, Resp.ok, Resp.short 1])).2).2.trace.filter
        Event.isWrite = [Event.write 0 1, Event.write 1 1] ∧
    (ve_erase_hdd_like 3 (opts VE_ALG_ZERO 2)
      (ve_open_rw ["f"] (world_of fs_one_file
        [Resp.ok, Resp.ok, Resp.ok, Resp.ok, Resp.ok, Resp.short 1])).2).1 = VE_SUCCESS := by
  refine ⟨by decide, by decide, by decide, by decide, by decide⟩

/-- C11 (as amended). In `ve_write_pattern_fd` and `ve_write_random_fd`, when
the log of the call holds a write that failed or transferred no byte, the
function returns -1, and `ve_erase_hdd_like` whose log holds such a write
returns `VE_ERR_IO`.  A write that transfers at least one byte, also fewer than
asked for, is accepted: the loop goes on from `total_written` plus the number of
bytes transferred. -/
theorem C11_zero_write_fails (fd : Int) (file_size pattern : Nat) (opt : ve_options_t)
    (w : World) :
    (∀ evs, (ve_write_pattern_fd fd file_size pattern w).2.trace = w.trace ++ evs →
      (∃ e ∈ evs, e.isWrite = true ∧ e.isFailure = true) →
      (ve_write_pattern_fd fd file_size pattern w).1 = -1) ∧
    (∀ evs, (ve_write_random_fd fd file_size w).2.trace = w.trace ++ evs →
      (∃ e ∈ evs, e.isWrite = true ∧ e.isFailure = true) →
      (ve_write_random_fd fd file_size w).1 = -1) ∧
    (∀ evs, (ve_erase_hdd_like fd opt w).2.trace = w.trace ++ evs →
      (∃ e ∈ evs, e.isWrite = true ∧ e.isFailure = true) →
      (ve_erase_hdd_like fd opt w).1 = VE_ERR_IO) ∧
    (∀ (fuel total n : Nat), total < file_size →
      n = (if file_size - total < VE_DEFAULT_CHUNK_SIZE then file_size - total
        else VE_DEFAULT_CHUNK_SIZE) →
      0 < (sys_write fd (List.replicate n pattern) n w).1 →
      ve_write_pattern_loop fd file_size pattern (fuel + 1) total w =
        ve_write_pattern_loop fd file_size pattern fuel
          (total + (sys_write fd (List.replicate n pattern) n w).1.toNat)
          (sys_write fd (List.replicate n pattern) n w).2) ∧
    (∀ (fuel total n : Nat), total < file_size →
      n = (if file_size - total < VE_DEFAULT_CHUNK_SIZE then file_size - total
        else VE_DEFAULT_CHUNK_SIZE) →
      (ve_csrand n w).1 = 0 →
      0 < (sys_write fd (ve_csrand n w).2.1 n (ve_csrand n w).2.2).1 →
      ve_write_random_loop fd file_size (fuel + 1) total w =
        ve_write_random_loop fd file_size fuel
          (total + (sys_write fd (ve_csrand n w).2.1 n (ve_csrand n w).2.2).1.toNat)
          (sys_write fd (ve_csrand n w).2.1 n (ve_csrand n w).2.2).2) := by
  refine ⟨?_, ?_, ?_, ?_, ?_⟩
  · intro evs ht ⟨e, he, _, hf⟩
    obtain ⟨evs', ht', -, -, hok⟩ := ve_write_pattern_fd_run fd file_size pattern w
    have heq : evs' = evs := List.append_cancel_left (ht'.symm.trans ht)
    subst heq
    rcases ve_write_pattern_fd_rc fd file_size pattern w with h0 | h1
    · have := hok h0 e he
      rw [this] at hf; exact absurd hf (by simp)
    · exact h1
  · intro evs ht ⟨e, he, _, hf⟩
    obtain ⟨evs', ht', -, -, hok⟩ := ve_write_random_fd_run fd file_size w
    have heq : evs' = evs := List.append_cancel_left (ht'.symm.trans ht)
    subst heq
    rcases ve_write_random_fd_rc fd file_size w with h0 | h1
    · have := hok h0 e he
      rw [this] at hf; exact absurd hf (by simp)
    · exact h1
  · intro evs ht ⟨e, he, _, hf⟩
    obtain ⟨a, b, ht', ha, -, -, hok⟩ := ve_erase_hdd_like_run fd opt w
    have heq : a ++ b = evs := List.append_cancel_left (ht'.symm.trans ht)
    subst heq
    rcases ve_erase_hdd_like_status fd opt w with h0 | h1
    · rcases List.mem_append.mp he with h | h
      · rw [isSizeQuery_not_failure e (ha e h)] at hf; exact absurd hf (by simp)
      · rw [(hok h0).2 e h] at hf; exact absurd hf (by simp)
    · exact h1
  · intro fuel total n hlt hn hw
    subst hn
    conv_lhs => rw [ve_write_pattern_loop]
    rw [if_pos hlt]
    simp only []
    rw [if_neg (by omega)]
  · intro fuel total n hlt hn hc hw
    subst hn
    conv_lhs => rw [ve_write_random_loop]
    rw [if_pos hlt]
    simp only []
    rw [if_neg (by simp [hc]), if_neg (by omega)]

/-- C11, witness: on the file `f`, a Zero pass whose write transfers no byte
returns -1 and `VE_ERR_IO`; a first write of one byte out of two is followed by
the rest of the loop from `total_written = 1`. -/
theorem C11_zero_write_fails_witness :
    (ve_write_pattern_fd 3 2 0
      (ve_open_rw ["f"] (world_of fs_one_file [Resp.ok, Resp.ok, Resp.short 0])).2).1 = -1 ∧
    (ve_erase_hdd_like 3 (opts VE_ALG_ZERO 2)
      (ve_open_rw ["f"] (world_of fs_one_file
        [Resp.ok, Resp.ok, Resp.ok, Resp.ok, Resp.ok, Resp.short 0])).2).1 = VE_ERR_IO ∧
    ve_write_pattern_loop 3 2 0 2 0
        (ve_open_rw ["f"] (world_of fs_one_file [Resp.ok, Resp.short 1])).2 =
      ve_write_pattern_loop 3 2 0 1 1
        (sys_write 3 (List.replicate 2 0) 2
          (ve_open_rw ["f"] (world_of fs_one_file [Resp.ok, Resp.short 1])).2).2 :=
  ⟨(C11_zero_write_fails 3 2 0 (opts VE_ALG_ZERO 2)
      (ve_open_rw ["f"] (world_of fs_one_file [Resp.ok, Resp.ok, Resp.short 0])).2).1
      [Event.malloc true, Event.write 0 0] (by decide)
      ⟨Event.write 0 0, by decide, by decide, by decide⟩,
    (C11_zero_write_fails 3 2 0 (opts VE_ALG_ZERO 2)
      (ve_open_rw ["f"] (world_of fs_one_file
        [Resp.ok, Resp.ok, Resp.ok, Resp.ok, Resp.ok, Resp.short 0])).2).2.2.1
      [Event.lseek true, Event.lseek true, Event.lseek true, Event.malloc true,
        Event.write 0 0] (by decide)
      ⟨Event.write 0 0, by decide, by decide, by decide⟩,
    (C11_zero_write_fails 3 2 0 (opts VE_ALG_ZERO 2)
      (ve_open_rw ["f"] (world_of fs_one_file [Resp.ok, Resp.short 1])).2).2.2.2.1
      1 0 2 (by decide) (by decide) (by decide)⟩

/-! ## C13: the key buffers at return -/

/-- The chunk loop returns the key it was given. -/
theorem ve_encrypt_loop_key (fd : Int) (file_size : Nat) (aes_key : List Nat) (fuel : Nat) :
    ∀ (processed : Nat) (aes_iv : List Nat) (w : World),
      (ve_encrypt_loop fd file_size aes_key fuel processed aes_iv w).aes_key = aes_key := by
  induction fuel with
  | zero => intro processed aes_iv w; rfl
  | succ k ih =>
    intro processed aes_iv w
    rw [ve_encrypt_loop]
    by_cases hlt : processed < file_size
    · rw [if_pos hlt]
      simp only []
      generalize (if file_size - processed < VE_DEFAULT_CHUNK_SIZE then file_size - processed
        else VE_DEFAULT_CHUNK_SIZE) = n
      generalize sys_read fd n w = rd
      by_cases hr : rd.1 ≤ 0
      · rw [if_pos hr]
      · rw [if_neg hr]
        by_cases hw : w.build.win32 = true
        · rw [if_pos hw]
          generalize ve_aes_ctr_encrypt_windows rd.2.1 rd.1.toNat aes_key aes_iv rd.2.2 = c
          by_cases hc : c.rc ≠ 0
          · rw [if_pos hc]
          · rw [if_neg hc]
            generalize sys_write fd c.buf rd.1.toNat (sys_SetFilePointerEx fd processed c.world)
              = wr
            by_cases hwr : wr.1 ≠ (rd.1.toNat : Int)
            · rw [if_pos hwr]
            · rw [if_neg hwr]; exact ih _ _ _
        · rw [if_neg hw]
          by_cases ho : w.build.use_openssl = true
          · rw [if_pos ho]
            generalize ve_aes_ctr_encrypt_openssl rd.2.1 rd.1.toNat aes_key aes_iv rd.2.2 = c
            by_cases hc : c.rc ≠ 0
            · rw [if_pos hc]
            · rw [if_neg hc]
              generalize sys_lseek fd processed Whence.SEEK_SET c.world = s
              by_cases hs : s.1 < 0
              · rw [if_pos hs]
              · rw [if_neg hs]
                generalize sys_write fd c.buf rd.1.toNat s.2 = wr
                by_cases hwr : wr.1 ≠ (rd.1.toNat : Int)
                · rw [if_pos hwr]
                · rw [if_neg hwr]; exact ih _ _ _
          · rw [if_neg ho]
            generalize sys_lseek fd processed Whence.SEEK_SET rd.2.2 = s
            by_cases hs : s.1 < 0
            · rw [if_pos hs]
            · rw [if_neg hs]
              generalize sys_write fd (ve_xor_fallback (rd.2.1.take rd.1.toNat) aes_key)
                rd.1.toNat s.2 = wr
              by_cases hwr : wr.1 ≠ (rd.1.toNat : Int)
              · rw [if_pos hwr]
              · rw [if_neg hwr]; exact ih _ _ _
    · rw [if_neg hlt]

/-- On the success path the two key buffers are wiped. -/
theorem ve_encrypt_file_in_place_aesctr_wipes (fd : Int) (file_size : Nat) (w : World)
    (h : (ve_encrypt_file_in_place_aesctr fd file_size w).rc = 0) :
    (ve_encrypt_file_in_place_aesctr fd file_size w).aes_key = List.replicate 32 0 ∧
    (ve_encrypt_file_in_place_aesctr fd file_size w).aes_iv = List.replicate 16 0 := by
  unfold ve_encrypt_file_in_place_aesctr at h ⊢
  simp only [] at h ⊢
  by_cases h1 : (sys_malloc w).1 = false
  · rw [if_pos h1] at h; simp at h
  · rw [if_neg h1] at h ⊢
    by_cases h2 : (ve_csrand 32 (sys_malloc w).2).1 ≠ 0
    · rw [if_pos h2] at h; simp at h
    · rw [if_neg h2] at h ⊢
      by_cases h3 : (ve_csrand 16 (ve_csrand 32 (sys_malloc w).2).2.2).1 ≠ 0
      · rw [if_pos h3] at h; simp at h
      · rw [if_neg h3] at h ⊢
        generalize (if w.build.win32 = true then
            ((0 : Int), (ve_csrand 16 (ve_csrand 32 (sys_malloc w).2).2.2).2.2)
          else sys_lseek fd 0 Whence.SEEK_SET
            (ve_csrand 16 (ve_csrand 32 (sys_malloc w).2).2.2).2.2) = s at h ⊢
        by_cases h4 : s.1 < 0
        · rw [if_pos h4] at h; simp at h
        · rw [if_neg h4] at h ⊢
          generalize ve_encrypt_loop fd file_size (ve_csrand 32 (sys_malloc w).2).2.1 file_size 0
            (ve_csrand 16 (ve_csrand 32 (sys_malloc w).2).2.2).2.1 s.2 = l at h ⊢
          by_cases h5 : l.rc ≠ 0
          · rw [if_pos h5] at h; exact absurd h h5
          · rw [if_neg h5]
            exact ⟨rfl, rfl⟩

/-- C13 (fails on the code). On the OpenSSL build, with the random source
delivering 0xA5 bytes, each error return of `ve_encrypt_file_in_place_aesctr`
that follows the key generation (failure of the first seek, of the read, of the
cipher, of the seek back, of the write) returns -1 with the 32 key bytes and
the 16 counter bytes still in the buffers; the same holds for the read failure
on the Windows build and on the build without a cipher.  Only the success path
wipes them. -/
theorem C13_error_paths_keep_the_key :
    (ve_encrypt_file_in_place_aesctr 3 2
        (world_opened build_openssl [Resp.ok, Resp.ok, Resp.ok, Resp.fail])).buffers =
      (-1, List.replicate 32 165, List.replicate 16 165) ∧
    (ve_encrypt_file_in_place_aesctr 3 2
        (world_opened build_openssl [Resp.ok, Resp.ok, Resp.ok, Resp.ok, Resp.fail])).buffers =
      (-1, List.replicate 32 165, List.replicate 16 165) ∧
    (ve_encrypt_file_in_place_aesctr 3 2
        (world_opened build_openssl
          [Resp.ok, Resp.ok, Resp.ok, Resp.ok, Resp.ok, Resp.fail])).buffers =
      (-1, List.replicate 32 165, List.replicate 16 165) ∧
    (ve_encrypt_file_in_place_aesctr 3 2
        (world_opened build_openssl
          [Resp.ok, Resp.ok, Resp.ok, Resp.ok, Resp.ok, Resp.ok, Resp.fail])).buffers =
      (-1, List.replicate 32 165, List.replicate 16 165) ∧
    (ve_encrypt_file_in_place_aesctr 3 2
        (world_opened build_openssl
          [Resp.ok, Resp.ok, Resp.ok, Resp.ok, Resp.ok, Resp.ok, Resp.ok, Resp.fail])).buffers =
      (-1, List.replicate 32 165, List.replicate 16 165) ∧
    (ve_encrypt_file_in_place_aesctr 3 2
        (world_opened build_win32 [Resp.ok, Resp.ok, Resp.ok, Resp.fail])).buffers =
      (-1, List.replicate 32 165, List.replicate 16 165) ∧
    (ve_encrypt_file_in_place_aesctr 3 2
        (world_opened build_linux [Resp.ok, Resp.ok, Resp.ok, Resp.ok, Resp.fail])).buffers =
      (-1, List.replicate 32 165, List.replicate 16 165) ∧
    (ve_encrypt_file_in_place_aesctr 3 2 (world_opened build_openssl [])).buffers =
      (0, List.replicate 32 0, List.replicate 16 0) := by
  refine ⟨by decide, by decide, by decide, by decide, by decide, by decide, by decide,
    by decide⟩

/-! ## C19: the counter increment -/

theorem be_to_nat_foldl (bs : List Nat) : ∀ acc : Nat,
    bs.foldl (fun acc b => acc * 256 + b % 256) acc = acc * 256 ^ bs.length + be_to_nat bs := by
  induction bs with
  | nil => intro acc; simp [be_to_nat]
  | cons x xs ih =>
    intro acc
    simp only [List.foldl_cons, List.length_cons, be_to_nat]
    rw [ih (acc * 256 + x % 256), ih (0 * 256 + x % 256)]
    ring

theorem be_to_nat_append (a b : List Nat) :
    be_to_nat (a ++ b) = be_to_nat a * 256 ^ b.length + be_to_nat b := by
  show (a ++ b).foldl _ 0 = _
  rw [List.foldl_append]
  exact be_to_nat_foldl b _

theorem be_to_nat_concat (a : List Nat) (b : Nat) :
    be_to_nat (a ++ [b]) = be_to_nat a * 256 + b % 256 := by
  rw [be_to_nat_append]
  simp [be_to_nat]

theorem be_to_nat_lt (bs : List Nat) : be_to_nat bs < 256 ^ bs.length := by
  induction bs using List.reverseRecOn with
  | nil => simp [be_to_nat]
  | append_singleton a b ih =>
    rw [be_to_nat_concat, List.length_append, List.length_singleton, pow_succ]
    have := Nat.mod_lt b (show 256 > 0 by decide)
    omega

theorem nat_to_be_length (n : Nat) : ∀ v, (nat_to_be n v).length = n := by
  induction n with
  | zero => intro v; rfl
  | succ k ih => intro v; simp [nat_to_be, ih]

theorem nat_to_be_append (m n : Nat) : ∀ v,
    nat_to_be (m + n) v = nat_to_be m (v / 256 ^ n) ++ nat_to_be n v := by
  induction n with
  | zero => intro v; simp [nat_to_be]
  | succ k ih =>
    intro v
    show nat_to_be (m + k + 1) v = _
    rw [nat_to_be, nat_to_be, ih, pow_succ, Nat.div_div_eq_div_mul, List.append_assoc,
      Nat.mul_comm 256]

theorem nat_to_be_mod (n : Nat) : ∀ v, nat_to_be n (v % 256 ^ n) = nat_to_be n v := by
  induction n with
  | zero => intro v; rfl
  | succ k ih =>
    intro v
    rw [nat_to_be, nat_to_be]
    have h1 : v % 256 ^ (k + 1) / 256 = (v / 256) % 256 ^ k := by
      rw [pow_succ, Nat.mul_comm, Nat.mod_mul_right_div_self]
    have h2 : v % 256 ^ (k + 1) % 256 = v % 256 := by
      rw [pow_succ]
      exact Nat.mod_mul_left_mod v (256 ^ k) 256
    rw [h1, h2, ih]

theorem nat_to_be_be_to_nat (bs : List Nat) (h : ∀ b ∈ bs, b < 256) :
    nat_to_be bs.length (be_to_nat bs) = bs := by
  induction bs using List.reverseRecOn with
  | nil => rfl
  | append_singleton a b ih =>
    have hb : b < 256 := h b (by simp)
    have ha : ∀ x ∈ a, x < 256 := fun x hx => h x (by simp [hx])
    rw [be_to_nat_concat, List.length_append, List.length_singleton, nat_to_be]
    have h1 : (be_to_nat a * 256 + b % 256) / 256 = be_to_nat a := by omega
    have h2 : (be_to_nat a * 256 + b % 256) % 256 = b := by omega
    rw [h1, h2, ih ha]

/-- The loop of `ve_inc_ctr` with `k` positions left, on a counter split into
its first 8 bytes `A`, the `k` bytes `S` still to visit and the bytes `R`
already visited: `S` is replaced by the low `k` bytes of `S + blocks`. -/
theorem ve_inc_ctr_loop_spec (k : Nat) : ∀ (A S R : List Nat) (c : Nat),
    A.length = 8 → S.length = k → (∀ b ∈ S, b < 256) → c < 2 ^ 64 →
    ve_inc_ctr_loop k (A ++ S ++ R) c = A ++ nat_to_be k (be_to_nat S + c) ++ R := by
  induction k with
  | zero =>
    intro A S R c _ hS _ _
    have : S = [] := List.length_eq_zero.mp hS
    subst this
    simp [ve_inc_ctr_loop, nat_to_be]
  | succ k ih =>
    intro A S R c hA hS hb hc
    rw [ve_inc_ctr_loop]
    by_cases h0 : c = 0
    · rw [if_pos h0]
      subst h0
      rw [← hS]
      simp only [Nat.add_zero]
      rw [nat_to_be_be_to_nat S hb]
    · rw [if_neg h0]
      simp only []
      obtain ⟨S', b, rfl⟩ : ∃ S' b, S = S' ++ [b] := by
        rcases List.eq_nil_or_concat S with h | ⟨S', b, h⟩
        · subst h; simp at hS
        · exact ⟨S', b, by simpa using h⟩
      have hS' : S'.length = k := by simpa using hS
      have hbb : b < 256 := hb b (by simp)
      have hb' : ∀ x ∈ S', x < 256 := fun x hx => hb x (by simp [hx])
      have hlen : (A ++ S').length = 8 + k := by simp [hA, hS']
      have hre : A ++ (S' ++ [b]) ++ R = (A ++ S') ++ b :: R := by simp
      have hget : (A ++ (S' ++ [b]) ++ R).getD (8 + k) 0 = b := by
        rw [hre, List.getD_eq_getElem?_getD,
          List.getElem?_append_right (by omega : (A ++ S').length ≤ 8 + k), hlen]
        simp
      have hset : ∀ s, (A ++ (S' ++ [b]) ++ R).set (8 + k) s = A ++ S' ++ (s :: R) := by
        intro s
        rw [hre, ← hlen]
        simp
      rw [hget, hset, ih A S' _ _ hA hS' hb' (Nat.mod_lt _ (by decide))]
      rw [be_to_nat_concat, nat_to_be]
      have h1 : (be_to_nat S' * 256 + b % 256 + c) / 256 =
          be_to_nat S' + (c / 256 + (b + c % 256) % 65536 / 256) % 2 ^ 64 := by omega
      have h2 : (be_to_nat S' * 256 + b % 256 + c) % 256 = (b + c % 256) % 65536 % 256 := by
        omega
      rw [h1, h2]
      simp

/-- What `ve_inc_ctr` computes on a 16-byte counter: bytes 0..7 are kept and
bytes 8..15 receive the sum of their value and `blocks`, modulo 2^64. -/
theorem ve_inc_ctr_spec (iv : List Nat) (n : Nat) (hlen : iv.length = 16)
    (hb : ∀ b ∈ iv, b < 256) (hn : n < 2 ^ 64) :
    ve_inc_ctr iv n = iv.take 8 ++ nat_to_be 8 ((be_to_nat (iv.drop 8) + n) % 2 ^ 64) := by
  have h := ve_inc_ctr_loop_spec 8 (iv.take 8) (iv.drop 8) [] n (by simp [hlen])
    (by simp [hlen]) (fun b hb' => hb b (List.mem_of_mem_drop hb')) hn
  rw [List.append_nil, List.take_append_drop] at h
  unfold ve_inc_ctr
  rw [h, show (2 : Nat) ^ 64 = 256 ^ 8 by norm_num, nat_to_be_mod, List.append_nil]

/-- C19 (fails on the code). On the counter whose bytes 8..15 are all 0xFF and
whose bytes 0..7 are zero, `ve_inc_ctr(iv, 1)` leaves sixteen zero bytes: the
carry out of byte 8 is dropped, where the encoding of `(V + 1) mod 2^128` has
byte 7 equal to 1. -/
theorem C19_carry_is_dropped :
    ve_inc_ctr (List.replicate 8 0 ++ List.replicate 8 255) 1 = List.replicate 16 0 ∧
    nat_to_be 16 ((be_to_nat (List.replicate 8 0 ++ List.replicate 8 255) + 1) % 2 ^ 128) =
      [0, 0, 0, 0, 0, 0, 0, 1, 0, 0, 0, 0, 0, 0, 0, 0] := by
  refine ⟨by decide, by decide⟩

/-- C19 (as amended). For every 16-byte counter `iv` and every block count
`n < 2^64`, `ve_inc_ctr(iv, n)` keeps bytes 0..7 and leaves in bytes 8..15 the
big-endian encoding of `(v + n) mod 2^64`, where `v` is bytes 8..15 read as a
big-endian integer; when `v + n < 2^64` this is the 16-byte big-endian encoding
of `(V + n) mod 2^128`, `V` being `iv` read as a 128-bit big-endian integer. -/
theorem C19_low_counter (iv : List Nat) (n : Nat) (hlen : iv.length = 16)
    (hb : ∀ b ∈ iv, b < 256) (hn : n < 2 ^ 64) :
    ve_inc_ctr iv n = iv.take 8 ++ nat_to_be 8 ((be_to_nat (iv.drop 8) + n) % 2 ^ 64) ∧
    (be_to_nat (iv.drop 8) + n < 2 ^ 64 →
      ve_inc_ctr iv n = nat_to_be 16 ((be_to_nat iv + n) % 2 ^ 128)) := by
  refine ⟨ve_inc_ctr_spec iv n hlen hb hn, ?_⟩
  intro hlow
  rw [ve_inc_ctr_spec iv n hlen hb hn]
  have hsplit : be_to_nat iv = be_to_nat (iv.take 8) * 256 ^ 8 + be_to_nat (iv.drop 8) := by
    conv_lhs => rw [← List.take_append_drop 8 iv]
    rw [be_to_nat_append]
    simp [hlen]
  have hhi : be_to_nat (iv.take 8) < 256 ^ 8 := by
    have := be_to_nat_lt (iv.take 8)
    simpa [hlen] using this
  have ht : nat_to_be 8 (be_to_nat (iv.take 8)) = iv.take 8 := by
    have := nat_to_be_be_to_nat (iv.take 8) (fun b hb' => hb b (List.mem_of_mem_take hb'))
    simpa [hlen] using this
  have e1 : (256 : Nat) ^ 8 = 18446744073709551616 := by norm_num
  have e2 : (2 : Nat) ^ 64 = 18446744073709551616 := by norm_num
  have e3 : (2 : Nat) ^ 128 = 18446744073709551616 * 18446744073709551616 := by norm_num
  generalize be_to_nat (iv.take 8) = hi at hsplit hhi ht
  generalize be_to_nat (iv.drop 8) = lo at hsplit hlow
  have hmod : (be_to_nat iv + n) % 2 ^ 128 = hi * 256 ^ 8 + (lo + n) := by
    rw [hsplit, Nat.add_assoc]
    apply Nat.mod_eq_of_lt
    rw [e1] at hhi ⊢
    rw [e2] at hlow
    rw [e3]
    nlinarith
  rw [hmod, show 16 = 8 + 8 from rfl, nat_to_be_append]
  have hdiv : (hi * 256 ^ 8 + (lo + n)) / 256 ^ 8 = hi := by
    rw [e1]; rw [e2] at hlow; omega
  have hlo : (hi * 256 ^ 8 + (lo + n)) % 256 ^ 8 = (lo + n) % 2 ^ 64 := by
    rw [e1, e2]; omega
  rw [hdiv, ht, ← nat_to_be_mod 8 (hi * 256 ^ 8 + (lo + n)), hlo]

/-- C19, witness: the counter `0 … 0 FF` advanced by one block. -/
theorem C19_low_counter_witness :
    ve_inc_ctr (List.replicate 15 0 ++ [255]) 1 =
      (List.replicate 15 0 ++ [255]).take 8 ++
        nat_to_be 8 ((be_to_nat ((List.replicate 15 0 ++ [255]).drop 8) + 1) % 2 ^ 64) ∧
    ve_inc_ctr (List.replicate 15 0 ++ [255]) 1 =
      nat_to_be 16 ((be_to_nat (List.replicate 15 0 ++ [255]) + 1) % 2 ^ 128) :=
  ⟨(C19_low_counter (List.replicate 15 0 ++ [255]) 1 (by decide) (by decide) (by decide)).1,
    (C19_low_counter (List.replicate 15 0 ++ [255]) 1 (by decide) (by decide) (by decide)).2
      (by decide)⟩

/-! ## C12: the counter across chunks -/

/-- The OpenSSL helper hands back the counter it was given. -/
theorem ve_aes_ctr_encrypt_openssl_iv (buf : List Nat) (len : Nat) (key iv : List Nat)
    (w : World) : (ve_aes_ctr_encrypt_openssl buf len key iv w).iv = iv := by
  unfold ve_aes_ctr_encrypt_openssl
  simp only []
  split <;> rfl

/-- C12 (fails on the code). The 32-byte all-zero file `g` read in two chunks of
16 bytes, the random source delivering the key and the counter `A5 … A5`, the
block function being the identity on the counter block.  On the OpenSSL build
both chunks are encrypted from the same counter, so the second ciphertext block
repeats the first, where AES-256-CTR of the whole content in one call ends in
`A6`.  On the Windows build the two agree for this counter, and differ for a
counter whose bytes 8..15 are all `FF`. -/
theorem C12_openssl_restarts_counter :
    (ve_encrypt_file_in_place_aesctr 3 32
      (world_two_blocks build_openssl (List.replicate 48 165)
        [Resp.ok, Resp.ok, Resp.ok, Resp.ok, Resp.short 16])).rc = 0 ∧
    (ve_encrypt_file_in_place_aesctr 3 32
      (world_two_blocks build_openssl (List.replicate 48 165)
        [Resp.ok, Resp.ok, Resp.ok, Resp.ok, Resp.short 16])).world.trace.filter
        Event.isTransfer =
      [Event.read 0 16, Event.write 0 16, Event.read 16 16, Event.write 16 16] ∧
    (ve_encrypt_file_in_place_aesctr 3 32
      (world_two_blocks build_openssl (List.replicate 48 165)
        [Resp.ok, Resp.ok, Resp.ok, Resp.ok, Resp.short 16])).world.data ["g"] =
      some (List.replicate 16 165 ++ List.replicate 16 165) ∧
    aes_ctr_xor (fun _ blk => blk) (List.replicate 32 165) (List.replicate 16 165)
        (List.replicate 32 0) =
      List.replicate 16 165 ++ (List.replicate 15 165 ++ [166]) ∧
    (ve_encrypt_file_in_place_aesctr 3 32
      (world_two_blocks build_win32 (List.replicate 48 165)
        [Resp.ok, Resp.ok, Resp.ok, Resp.short 16])).world.data ["g"] =
      some (aes_ctr_xor (fun _ blk => blk) (List.replicate 32 165) (List.replicate 16 165)
        (List.replicate 32 0)) ∧
    (ve_encrypt_file_in_place_aesctr 3 32
      (world_two_blocks build_win32
        (List.replicate 32 165 ++ (List.replicate 8 0 ++ List.replicate 8 255))
        [Resp.ok, Resp.ok, Resp.ok, Resp.short 16])).world.data ["g"] =
      some ((List.replicate 8 0 ++ List.replicate 8 255) ++ List.replicate 16 0) ∧
    aes_ctr_xor (fun _ blk => blk) (List.replicate 32 165)
        (List.replicate 8 0 ++ List.replicate 8 255) (List.replicate 32 0) =
      (List.replicate 8 0 ++ List.replicate 8 255) ++
        (List.replicate 7 0 ++ [1] ++ List.replicate 8 0) := by
  refine ⟨by decide, by decide, by decide, by decide, by decide, by decide, by decide⟩

/-! ## C18: the chunks of the in-place encryption -/

theorem Still.st_refl (w : World) : Still w w :=
  ⟨Grows.g_refl _ w, rfl, rfl, rfl⟩

theorem Still.st_trans {w w1 w2 : World} (h1 : Still w w1) (h2 : Still w1 w2) : Still w w2 :=
  ⟨h1.grows.g_trans h2.grows, h2.fs.trans h1.fs, h2.ofile.trans h1.ofile,
    h2.build.trans h1.build⟩

theorem Still.st_next_emit (w : World) (e : Event) (he : e.isTransfer = false) :
    Still w (w.next.2.emit e) :=
  ⟨Grows.g_next_emit w e he, by simp, by simp, by simp⟩

theorem Still.st_file {w w' : World} (h : Still w w') : w'.file = w.file := by
  unfold World.file
  rw [h.ofile, h.fs]

theorem sys_malloc_still (w : World) : Still w (sys_malloc w).2 := by
  unfold sys_malloc
  simp only []
  split <;> exact Still.st_next_emit w _ rfl

theorem ve_csrand_still (len : Nat) (w : World) : Still w (ve_csrand len w).2.2 := by
  unfold ve_csrand
  simp only []
  split
  · exact Still.st_next_emit w _ rfl
  · exact ⟨(Grows.g_next _ w).g_trans (Grows.one rfl rfl), by simp, by simp, by simp⟩

theorem ve_flush_fd_still (fd : Int) (w : World) : Still w (ve_flush_fd fd w).2 := by
  unfold ve_flush_fd sys_fsync
  simp only []
  split <;> exact Still.st_next_emit w _ rfl

theorem ve_aes_ctr_encrypt_openssl_still (buf : List Nat) (len : Nat) (key iv : List Nat)
    (w : World) : Still w (ve_aes_ctr_encrypt_openssl buf len key iv w).world := by
  unfold ve_aes_ctr_encrypt_openssl
  simp only []
  split <;> exact Still.st_next_emit w _ rfl

theorem ve_aes_ctr_encrypt_windows_loop_still (key : List Nat) (len fuel : Nat) :
    ∀ (off : Nat) (buf iv : List Nat) (w : World),
      Still w (ve_aes_ctr_encrypt_windows_loop key len fuel off buf iv w).world := by
  induction fuel with
  | zero => intro off buf iv w; exact Still.st_refl w
  | succ k ih =>
    intro off buf iv w
    rw [ve_aes_ctr_encrypt_windows_loop]
    by_cases hlt : off < len
    · rw [if_pos hlt]
      simp only []
      generalize (if len - off > 2 ^ 20 then 2 ^ 20 else len - off) = n
      cases hr : w.next.1 with
      | fail => exact Still.st_next_emit w _ rfl
      | ok => exact (Still.st_next_emit w (Event.cipher n true) rfl).st_trans (ih _ _ _ _)
      | short j => exact (Still.st_next_emit w (Event.cipher n true) rfl).st_trans (ih _ _ _ _)
    · rw [if_neg hlt]; exact Still.st_refl w

theorem ve_aes_ctr_encrypt_windows_still (buf : List Nat) (len : Nat) (key iv : List Nat)
    (w : World) : Still w (ve_aes_ctr_encrypt_windows buf len key iv w).world := by
  have hn : Still w w.next.2 := ⟨Grows.g_next _ w, by simp, by simp, by simp⟩
  unfold ve_aes_ctr_encrypt_windows
  simp only []
  split
  · exact Still.st_next_emit w _ rfl
  · exact hn.st_trans (ve_aes_ctr_encrypt_windows_loop_still _ _ _ _ _ _ _)

theorem write_at_length (d : List Nat) (pos : Nat) (bytes : List Nat)
    (h : pos + bytes.length ≤ d.length) : (write_at d pos bytes).length = d.length := by
  unfold write_at
  simp only [List.length_append, List.length_take, List.length_replicate, List.length_drop]
  omega

/-- What a `read` that returns something does. -/
theorem sys_read_ok {w : World} {p : Path} {pos : Nat} {d : List Nat}
    (hf : w.file = some (p, pos, d)) (fd : Int) (n : Nat)
    (hr : ¬ (sys_read fd n w).1 ≤ 0) :
    ∃ k, 0 < k ∧ k ≤ n ∧ pos + k ≤ d.length ∧ (sys_read fd n w).1 = (k : Int) ∧
      (sys_read fd n w).2.1 = (d.drop pos).take k ∧
      (sys_read fd n w).2.2.file = some (p, pos + k, d) ∧
      (sys_read fd n w).2.2.trace = w.trace ++ [Event.read pos k] ∧
      (sys_read fd n w).2.2.build = w.build := by
  have hf' : w.next.2.file = some (p, pos, d) := by rw [next_file]; exact hf
  have hl : fs_lookup w.next.2.fs p = some (Node.file d) := (World.file_eq_some.mp hf').2
  have ht : w.next.2.trace = w.trace := next_trace w
  have hb : w.next.2.build = w.build := next_build w
  unfold sys_read at hr ⊢
  generalize w.next = r at hf' hl ht hb hr ⊢
  rcases r with ⟨a, w1⟩
  simp only at hf' hl ht hb hr ⊢
  cases a with
  | fail => simp only [hf'] at hr; exact absurd (by decide) hr
  | ok =>
    simp only [hf'] at hr ⊢
    refine ⟨min n (d.length - pos), by omega, by omega, by omega, rfl, rfl,
      World.file_eq_some.mpr ⟨rfl, hl⟩, by rw [← ht], hb⟩
  | short j =>
    simp only [hf'] at hr ⊢
    refine ⟨min j (min n (d.length - pos)), by omega, by omega, by omega, rfl, rfl,
      World.file_eq_some.mpr ⟨rfl, hl⟩, by rw [← ht], hb⟩

/-- What a `write` that transfers something does, with its log entry. -/
theorem sys_write_ok {w : World} {p : Path} {pos : Nat} {d : List Nat}
    (hf : w.file = some (p, pos, d)) (fd : Int) (buf : List Nat) (n : Nat)
    (hr : ¬ (sys_write fd buf n w).1 ≤ 0) :
    ∃ k, 0 < k ∧ k ≤ n ∧ (sys_write fd buf n w).1 = (k : Int) ∧
      (sys_write fd buf n w).2.file = some (p, pos + k, write_at d pos (buf.take k)) ∧
      (sys_write fd buf n w).2.trace = w.trace ++ [Event.write pos k] ∧
      (sys_write fd buf n w).2.build = w.build := by
  by_cases hnf : w.next.1 = Resp.fail
  · rw [sys_write_fail fd buf n w hnf] at hr
    exact absurd (by decide) hr
  · have hl : fs_lookup w.next.2.fs p = some (Node.file d) := by
      rw [next_fs]; exact (World.file_eq_some.mp hf).2
    rw [sys_write_eq hf fd buf n hnf] at hr ⊢
    refine ⟨granted w.next.1 n, ?_, granted_le _ _, rfl, ?_, by simp, by simp⟩
    · simp only at hr
      omega
    · exact World.file_eq_some.mpr ⟨rfl, fs_lookup_set_data hl _⟩

theorem isSizeQuery_not_transfer (e : Event) (h : e.isSizeQuery = true) :
    e.isTransfer = false := by
  cases e <;> simp_all [Event.isSizeQuery, Event.isTransfer]

/-- A successful `lseek(fd, n, SEEK_SET)` puts the offset at `n`. -/
theorem sys_lseek_set {w : World} {p : Path} {pos : Nat} {d : List Nat}
    (hf : w.file = some (p, pos, d)) (fd : Int) (n : Nat)
    (hs : ¬ (sys_lseek fd (n : Int) Whence.SEEK_SET w).1 < 0) :
    (sys_lseek fd (n : Int) Whence.SEEK_SET w).2.file = some (p, n, d) ∧
    Grows (fun e => e.isTransfer = false) w (sys_lseek fd (n : Int) Whence.SEEK_SET w).2 ∧
    (sys_lseek fd (n : Int) Whence.SEEK_SET w).2.build = w.build := by
  refine ⟨?_, (sys_lseek_query fd _ _ w).mono isSizeQuery_not_transfer,
    (sys_lseek_step fd _ _ w).build⟩
  rcases sys_lseek_file hf fd (n : Int) Whence.SEEK_SET with ⟨h1, -⟩ | ⟨-, -, h3⟩
  · rw [h1] at hs; exact absurd (by decide) hs
  · simpa [seek_target] using h3

theorem sys_SetFilePointerEx_file {w : World} {p : Path} {pos : Nat} {d : List Nat}
    (hf : w.file = some (p, pos, d)) (fd : Int) (off : Nat) :
    (sys_SetFilePointerEx fd off w).file = some (p, off, d) ∧
    (sys_SetFilePointerEx fd off w).trace = w.trace ++ [Event.setpos off] ∧
    (sys_SetFilePointerEx fd off w).build = w.build := by
  obtain ⟨ho, hl⟩ := World.file_eq_some.mp hf
  have he : sys_SetFilePointerEx fd off w =
      { w with ofile := some (p, off), trace := w.trace ++ [Event.setpos off] } := by
    unfold sys_SetFilePointerEx
    rw [ho]
  rw [he]
  exact ⟨World.file_eq_some.mpr ⟨rfl, hl⟩, rfl, rfl⟩

theorem tiles_step (a k b : Nat) (mid rest : List Event)
    (hmid : ∀ e ∈ mid, e.isTransfer = false) (hk : 0 < k)
    (ht : tiles (a + k) (rest.filter Event.isTransfer) b = true) :
    tiles a ((Event.read a k :: (mid ++ Event.write a k :: rest)).filter Event.isTransfer) b
      = true := by
  have hm : mid.filter Event.isTransfer = [] := by
    rw [List.filter_eq_nil_iff]
    intro e he
    rw [hmid e he]
    simp
  simp only [List.filter_cons, List.filter_append, hm, Event.isTransfer, if_true,
    List.nil_append]
  simp [tiles, hk, ht]

/-! ## C14: the build without a cipher -/

theorem ve_xor_fallback_length (buf aes_key : List Nat) :
    (ve_xor_fallback buf aes_key).length = buf.length := by
  simp [ve_xor_fallback, List.enum]

theorem xor_enumFrom_shift (aes_key : List Nat) (m : Nat) (hm : m % 32 = 0) :
    ∀ (b : List Nat) (j : Nat),
      (b.enumFrom (m + j)).map (fun ib => Nat.xor ib.2 (aes_key.getD (ib.1 % 32) 0)) =
        (b.enumFrom j).map (fun ib => Nat.xor ib.2 (aes_key.getD (ib.1 % 32) 0)) := by
  intro b
  induction b with
  | nil => intro j; rfl
  | cons x xs ih =>
    intro j
    simp only [List.enumFrom_cons, List.map_cons]
    have h1 : (m + j) % 32 = j % 32 := by omega
    rw [h1, Nat.add_assoc, ih (j + 1)]

/-- The placeholder cipher on a buffer cut at a multiple of 32 bytes: the key
index starts again at 0 on the second part, as it does at each chunk. -/
theorem ve_xor_fallback_append (a b aes_key : List Nat) (ha : a.length % 32 = 0) :
    ve_xor_fallback (a ++ b) aes_key = ve_xor_fallback a aes_key ++ ve_xor_fallback b aes_key := by
  unfold ve_xor_fallback List.enum
  rw [List.enumFrom_append, List.map_append]
  have := xor_enumFrom_shift aes_key a.length ha b 0
  simp only [Nat.add_zero] at this
  rw [Nat.zero_add, this]

theorem Full.f_next {w : World} (h : Full w) : w.next.1 = Resp.ok ∧ Full w.next.2 := by
  unfold Full at h ⊢
  unfold World.next
  cases hs : w.script with
  | nil => simp [hs]
  | cons r rs =>
    rw [hs] at h
    simp only
    exact ⟨h r (by simp), fun x hx => h x (by simp [hx])⟩

theorem Full.f_calm {w : World} (h : Full w) : Calm w := by
  intro r hr
  rw [h r hr]
  simp

theorem Full.f_step {w w' : World} (h : Full w) (hs : w'.script = w.next.2.script) :
    Full w' := by
  unfold Full
  rw [hs]
  exact h.f_next.2

theorem sys_malloc_script (w : World) : (sys_malloc w).2.script = w.next.2.script := by
  unfold sys_malloc
  simp only []
  split <;> rfl

theorem ve_csrand_script (len : Nat) (w : World) :
    (ve_csrand len w).2.2.script = w.next.2.script := by
  unfold ve_csrand
  simp only []
  split <;> rfl

theorem sys_fsync_script (fd : Int) (w : World) :
    (sys_fsync fd w).2.script = w.next.2.script := by
  unfold sys_fsync
  simp only []
  split <;> rfl

theorem sys_lseek_script (fd : Int) (off : Int) (wh : Whence) (w : World) :
    (sys_lseek fd off wh w).2.script = w.next.2.script := by
  unfold sys_lseek
  simp only []
  split
  · rfl
  · rfl
  · split <;> rfl

theorem sys_GetFileSizeEx_script (fd : Int) (w : World) :
    (sys_GetFileSizeEx fd w).2.script = w.next.2.script := by
  unfold sys_GetFileSizeEx
  simp only []
  split <;> rfl

theorem sys_read_script (fd : Int) (n : Nat) (w : World) :
    (sys_read fd n w).2.2.script = w.next.2.script := by
  unfold sys_read
  simp only []
  split <;> rfl

theorem sys_write_script (fd : Int) (buf : List Nat) (n : Nat) (w : World) :
    (sys_write fd buf n w).2.script = w.next.2.script := by
  unfold sys_write
  simp only []
  split <;> rfl

theorem sys_fallocate_punch_script (fd : Int) (len : Nat) (w : World) :
    (sys_fallocate_punch fd len w).2.script = w.next.2.script := by
  unfold sys_fallocate_punch
  simp only []
  split <;> rfl

theorem ve_get_file_size_fd_full {w : World} (h : Full w) (fd : Int) :
    Full (ve_get_file_size_fd fd w).2.2 := by
  have hl : ∀ (off : Int) (wh : Whence) (w0 : World), Full w0 →
      Full (sys_lseek fd off wh w0).2 :=
    fun off wh w0 h0 => h0.f_step (sys_lseek_script fd off wh w0)
  unfold ve_get_file_size_fd
  split
  · simp only []
    split <;> exact h.f_step (sys_GetFileSizeEx_script fd w)
  · simp only []
    split
    · exact hl _ _ _ (hl _ _ _ h)
    · split <;> exact hl _ _ _ (hl _ _ _ (hl _ _ _ h))

theorem ve_csrand_full {w : World} (h : Full w) (len : Nat) :
    (ve_csrand len w).1 = 0 ∧ Full (ve_csrand len w).2.2 := by
  refine ⟨?_, h.f_step (ve_csrand_script len w)⟩
  unfold ve_csrand
  simp only [h.f_next.1]

/-- A `read` answered in full returns what was asked for, up to the end of
the file. -/
theorem sys_read_full {w : World} {p : Path} {pos : Nat} {d : List Nat} (h : Full w)
    (hf : w.file = some (p, pos, d)) (fd : Int) (n : Nat) :
    (sys_read fd n w).1 = ((min n (d.length - pos) : Nat) : Int) ∧
      Full (sys_read fd n w).2.2 := by
  refine ⟨?_, h.f_step (sys_read_script fd n w)⟩
  have hf' : w.next.2.file = some (p, pos, d) := by rw [next_file]; exact hf
  unfold sys_read
  simp only [h.f_next.1, hf']

/-- A `write` answered in full transfers what was asked for. -/
theorem sys_write_full {w : World} {p : Path} {pos : Nat} {d : List Nat} (h : Full w)
    (hf : w.file = some (p, pos, d)) (fd : Int) (buf : List Nat) (n : Nat) :
    (sys_write fd buf n w).1 = (n : Int) ∧ Full (sys_write fd buf n w).2 := by
  refine ⟨?_, h.f_step (sys_write_script fd buf n w)⟩
  rw [sys_write_eq hf fd buf n (by rw [h.f_next.1]; simp)]
  simp only [granted, h.f_next.1]

theorem write_at_append (X R B : List Nat) :
    write_at (X ++ R) X.length B = X ++ B ++ R.drop B.length := by
  unfold write_at
  simp

/-- The chunk read back at a multiple of 32 bytes of a partly transformed file
is the original chunk. -/
theorem xor_chunk_read (d aes_key : List Nat) (processed k : Nat) (hle : processed ≤ d.length) :
    ((ve_xor_fallback (d.take processed) aes_key ++ d.drop processed).drop processed).take k =
      (d.drop processed).take k := by
  have hxl : (ve_xor_fallback (d.take processed) aes_key).length = processed := by
    rw [ve_xor_fallback_length, List.length_take]; omega
  generalize ve_xor_fallback (d.take processed) aes_key = X at hxl
  subst hxl
  simp

/-- Writing the transformed chunk back at its offset extends the transformed
part of the file by that chunk. -/
theorem xor_chunk_written (d aes_key : List Nat) (processed k : Nat)
    (h32 : processed % 32 = 0) (hle : processed + k ≤ d.length) :
    write_at (ve_xor_fallback (d.take processed) aes_key ++ d.drop processed) processed
        ((ve_xor_fallback ((d.drop processed).take k) aes_key).take k) =
      ve_xor_fallback (d.take (processed + k)) aes_key ++ d.drop (processed + k) := by
  have hxl : (ve_xor_fallback (d.take processed) aes_key).length = processed := by
    rw [ve_xor_fallback_length, List.length_take]; omega
  have hbl : (ve_xor_fallback ((d.drop processed).take k) aes_key).length = k := by
    rw [ve_xor_fallback_length, List.length_take, List.length_drop]; omega
  have hsum : ve_xor_fallback (d.take (processed + k)) aes_key =
      ve_xor_fallback (d.take processed) aes_key ++
        ve_xor_fallback ((d.drop processed).take k) aes_key := by
    rw [List.take_add, ve_xor_fallback_append _ _ _ (by rw [List.length_take]; omega)]
  have htk : (ve_xor_fallback ((d.drop processed).take k) aes_key).take k =
      ve_xor_fallback ((d.drop processed).take k) aes_key :=
    List.take_of_length_le (by omega)
  rw [hsum, htk]
  generalize ve_xor_fallback ((d.drop processed).take k) aes_key = B at hbl
  generalize ve_xor_fallback (d.take processed) aes_key = X at hxl
  subst hxl
  subst hbl
  rw [write_at_append, List.drop_drop]
/-- The chunk loop on the build without a cipher, every call answered in full,
started at a multiple of 32 bytes with the part before it already transformed:
it returns 0 and leaves the whole content XORed with the repeating key. -/
theorem ve_encrypt_loop_fallback (fd : Int) (aes_key : List Nat) (p : Path) (d : List Nat)
    (fuel : Nat) :
    ∀ (processed : Nat) (aes_iv : List Nat) (w : World),
      w.build.win32 = false → w.build.use_openssl = false → Full w →
      w.file = some (p, processed,
        ve_xor_fallback (d.take processed) aes_key ++ d.drop processed) →
      processed ≤ d.length → processed % 32 = 0 ∨ processed = d.length →
      d.length - processed ≤ fuel →
      (ve_encrypt_loop fd d.length aes_key fuel processed aes_iv w).rc = 0 ∧
      (ve_encrypt_loop fd d.length aes_key fuel processed aes_iv w).world.file =
        some (p, d.length, ve_xor_fallback d aes_key) ∧
      Full (ve_encrypt_loop fd d.length aes_key fuel processed aes_iv w).world := by
  have hend : ∀ (w : World),
      w.file = some (p, d.length,
        ve_xor_fallback (d.take d.length) aes_key ++ d.drop d.length) →
      w.file = some (p, d.length, ve_xor_fallback d aes_key) := by
    intro w hw
    rw [hw, List.take_length, List.drop_length, List.append_nil]
  induction fuel with
  | zero =>
    intro processed aes_iv w _ _ hfull hf hle _ hfuel
    have hp : processed = d.length := by omega
    subst hp
    exact ⟨rfl, hend w hf, hfull⟩
  | succ fuel ih =>
    intro processed aes_iv w hwin hssl hfull hf hle hal hfuel
    rw [ve_encrypt_loop]
    by_cases hlt : processed < d.length
    · have h32 : processed % 32 = 0 := by
        rcases hal with h | h
        · exact h
        · omega
      rw [if_pos hlt]
      simp only []
      have hn : (if d.length - processed < VE_DEFAULT_CHUNK_SIZE then d.length - processed
          else VE_DEFAULT_CHUNK_SIZE) ≤ d.length - processed ∧
          0 < (if d.length - processed < VE_DEFAULT_CHUNK_SIZE then d.length - processed
          else VE_DEFAULT_CHUNK_SIZE) ∧
          ((processed + (if d.length - processed < VE_DEFAULT_CHUNK_SIZE then
            d.length - processed else VE_DEFAULT_CHUNK_SIZE)) % 32 = 0 ∨
           processed + (if d.length - processed < VE_DEFAULT_CHUNK_SIZE then
            d.length - processed else VE_DEFAULT_CHUNK_SIZE) = d.length) := by
        unfold VE_DEFAULT_CHUNK_SIZE
        split <;> omega
      generalize (if d.length - processed < VE_DEFAULT_CHUNK_SIZE then d.length - processed
        else VE_DEFAULT_CHUNK_SIZE) = n at hn ⊢
      obtain ⟨hn1, hn0, hn32⟩ := hn
      have hcl : (ve_xor_fallback (d.take processed) aes_key ++ d.drop processed).length =
          d.length := by
        rw [List.length_append, ve_xor_fallback_length, List.length_take, List.length_drop]
        omega
      obtain ⟨hr1, hrfull⟩ := sys_read_full hfull hf fd n
      rw [hcl, show min n (d.length - processed) = n by omega] at hr1
      have hrpos : ¬ (sys_read fd n w).1 ≤ 0 := by rw [hr1]; omega
      obtain ⟨k, -, -, -, hk, hbytes, hfile, -, hbuild⟩ := sys_read_ok hf fd n hrpos
      have hkn : k = n := by rw [hr1] at hk; exact_mod_cast hk.symm
      subst hkn
      generalize sys_read fd k w = rd at hr1 hrfull hrpos hk hbytes hfile hbuild ⊢
      rw [if_neg hrpos]
      have hkn' : rd.1.toNat = k := by rw [hk]; simp
      rw [hkn', if_neg (by rw [hwin]; simp), if_neg (by rw [hssl]; simp)]
      have hchunk : rd.2.1.take k = (d.drop processed).take k := by
        rw [hbytes, List.take_take, Nat.min_self]
        exact xor_chunk_read d aes_key processed k hle
      rw [hchunk]
      have hls := sys_lseek_calm hrfull.f_calm hfile fd (processed : Int) Whence.SEEK_SET
        (by simp [seek_target])
      have hlfull : Full (sys_lseek fd (processed : Int) Whence.SEEK_SET rd.2.2).2 :=
        hrfull.f_step (sys_lseek_script fd _ _ _)
      have hlb := (sys_lseek_step fd (processed : Int) Whence.SEEK_SET rd.2.2).build
      generalize sys_lseek fd (processed : Int) Whence.SEEK_SET rd.2.2 = s at hls hlfull hlb ⊢
      obtain ⟨hs1, -, hsf⟩ := hls
      simp only [seek_target, Int.toNat_ofNat] at hs1 hsf
      rw [if_neg (by rw [hs1]; omega)]
      obtain ⟨hw1, hwfull⟩ := sys_write_full hlfull hsf fd
        (ve_xor_fallback ((d.drop processed).take k) aes_key) k
      have hwpos : ¬ (sys_write fd (ve_xor_fallback ((d.drop processed).take k) aes_key) k
          s.2).1 ≤ 0 := by rw [hw1]; omega
      obtain ⟨k', -, -, hk', hwf, -, hwb⟩ := sys_write_ok hsf fd
        (ve_xor_fallback ((d.drop processed).take k) aes_key) k hwpos
      have hkk : k' = k := by rw [hw1] at hk'; exact_mod_cast hk'.symm
      subst hkk
      rw [xor_chunk_written d aes_key processed k' h32 (by omega)] at hwf
      generalize sys_write fd (ve_xor_fallback ((d.drop processed).take k') aes_key) k' s.2 = wr
        at hw1 hwfull hwf hwb ⊢
      rw [if_neg (by simp [hw1])]
      exact ih (processed + k') aes_iv wr.2 (by rw [hwb, hlb, hbuild]; exact hwin)
        (by rw [hwb, hlb, hbuild]; exact hssl) hwfull hwf (by omega) hn32 (by omega)
    · rw [if_neg hlt]
      have hp : processed = d.length := by omega
      subst hp
      exact ⟨rfl, hend w hf, hfull⟩

theorem ve_csrand_bytes (len : Nat) (w : World) (h : (ve_csrand len w).1 = 0) :
    (ve_csrand len w).2.1.length = len := by
  unfold ve_csrand at h ⊢
  simp only [] at h ⊢
  split at h
  · simp at h
  · simp only [List.length_append, List.length_map, List.length_take, List.length_replicate]
    omega

theorem sys_lseek_entropy (fd : Int) (off : Int) (wh : Whence) (w : World) :
    (sys_lseek fd off wh w).2.entropy = w.entropy := by
  unfold sys_lseek
  simp only []
  split
  · simp [World.emit]
  · simp [World.emit]
  · split <;> simp [World.emit]

theorem sys_GetFileSizeEx_entropy (fd : Int) (w : World) :
    (sys_GetFileSizeEx fd w).2.entropy = w.entropy := by
  unfold sys_GetFileSizeEx
  simp only []
  split <;> simp [World.emit]

theorem ve_get_file_size_fd_entropy (fd : Int) (w : World) :
    (ve_get_file_size_fd fd w).2.2.entropy = w.entropy := by
  unfold ve_get_file_size_fd
  split
  · simp only []
    split <;> exact sys_GetFileSizeEx_entropy _ _
  · simp only []
    split
    · rw [sys_lseek_entropy, sys_lseek_entropy]
    · split <;> rw [sys_lseek_entropy, sys_lseek_entropy, sys_lseek_entropy]

theorem sys_malloc_entropy (w : World) : (sys_malloc w).2.entropy = w.entropy := by
  unfold sys_malloc
  simp only []
  split <;> simp [World.emit]

/-- The bytes a successful `ve_csrand` delivers are the next bytes of the
system source. -/
theorem ve_csrand_source (len : Nat) (w : World) (h : (ve_csrand len w).1 = 0) :
    (ve_csrand len w).2.1 =
      (w.entropy.take len).map (fun b => b % 256) ++ List.replicate (len - w.entropy.length) 0 := by
  unfold ve_csrand at h ⊢
  simp only [] at h ⊢
  split at h
  · simp at h
  · simp

/-- The in-place encryption on the build without a cipher, every call answered
in full: it returns 0 and the file holds its former content XORed with the
repeating 32-byte key, the bytes that `ve_csrand(aes_key, 32)` delivered: the
next 32 bytes of the system source. -/
theorem ve_encrypt_file_in_place_aesctr_fallback {w : World} {p : Path} {pos : Nat}
    {d : List Nat} (fd : Int) (hf : w.file = some (p, pos, d))
    (hwin : w.build.win32 = false) (hssl : w.build.use_openssl = false) (hfull : Full w) :
    (ve_encrypt_file_in_place_aesctr fd d.length w).rc = 0 ∧
    ((ve_csrand 32 (sys_malloc w).2).2.1.length = 32 ∧
      (ve_csrand 32 (sys_malloc w).2).2.1 =
        (w.entropy.take 32).map (fun b => b % 256) ++
          List.replicate (32 - w.entropy.length) 0 ∧
      (ve_encrypt_file_in_place_aesctr fd d.length w).world.file =
        some (p, d.length, ve_xor_fallback d (ve_csrand 32 (sys_malloc w).2).2.1)) ∧
    Full (ve_encrypt_file_in_place_aesctr fd d.length w).world := by
  unfold ve_encrypt_file_in_place_aesctr
  simp only []
  have hm := sys_malloc_still w
  have hmf : Full (sys_malloc w).2 := hfull.f_step (sys_malloc_script w)
  have hm1 := (sys_malloc_calm hfull.f_calm).1
  have hme := sys_malloc_entropy w
  generalize sys_malloc w = m at hm hmf hm1 hme ⊢
  rw [if_neg (by simp [hm1])]
  have hk := ve_csrand_still 32 m.2
  obtain ⟨hk1, hkf⟩ := ve_csrand_full hmf 32
  have hkl := ve_csrand_bytes 32 m.2 hk1
  have hks := ve_csrand_source 32 m.2 hk1
  rw [hme] at hks
  generalize ve_csrand 32 m.2 = k at hk hk1 hkf hkl hks ⊢
  rw [if_neg (by simp [hk1])]
  have hv := ve_csrand_still 16 k.2.2
  obtain ⟨hv1, hvf⟩ := ve_csrand_full hkf 16
  generalize ve_csrand 16 k.2.2 = v at hv hv1 hvf ⊢
  rw [if_neg (by simp [hv1])]
  rw [show (if w.build.win32 = true then ((0 : Int), v.2.2)
      else sys_lseek fd 0 Whence.SEEK_SET v.2.2) = sys_lseek fd 0 Whence.SEEK_SET v.2.2 from
    if_neg (by rw [hwin]; simp)]
  have hst := (hm.st_trans hk).st_trans hv
  have hvfile : v.2.2.file = some (p, pos, d) := by rw [hst.st_file]; exact hf
  have hls := sys_lseek_calm hvf.f_calm hvfile fd 0 Whence.SEEK_SET (by simp [seek_target])
  have hlfull : Full (sys_lseek fd 0 Whence.SEEK_SET v.2.2).2 :=
    hvf.f_step (sys_lseek_script fd _ _ _)
  have hlb := (sys_lseek_step fd 0 Whence.SEEK_SET v.2.2).build
  generalize sys_lseek fd 0 Whence.SEEK_SET v.2.2 = s at hls hlfull hlb ⊢
  obtain ⟨hs1, -, hsf⟩ := hls
  simp only [seek_target, Int.toNat_zero] at hs1 hsf
  rw [if_neg (by rw [hs1]; omega)]
  have hsb : s.2.build = w.build := by rw [hlb, hst.build]
  have hsf' : s.2.file = some (p, 0, ve_xor_fallback (d.take 0) k.2.1 ++ d.drop 0) := by
    rw [hsf]; simp [ve_xor_fallback]
  obtain ⟨hl1, hl2, hl3⟩ := ve_encrypt_loop_fallback fd k.2.1 p d d.length 0 v.2.1 s.2
    (by rw [hsb]; exact hwin) (by rw [hsb]; exact hssl) hlfull hsf' (Nat.zero_le _)
    (Or.inl rfl) (by omega)
  generalize ve_encrypt_loop fd d.length k.2.1 d.length 0 v.2.1 s.2 = l at hl1 hl2 hl3 ⊢
  rw [if_neg (by simp [hl1])]
  refine ⟨rfl, ⟨hkl, hks, ?_⟩, ?_⟩
  · show (ve_flush_fd fd l.world).2.file = _
    rw [(ve_flush_fd_still fd l.world).st_file]; exact hl2
  · show Full (ve_flush_fd fd l.world).2
    exact hl3.f_step (sys_fsync_script fd l.world)

/-- C14 (fails on the code). On a build that is neither Windows nor OpenSSL,
with the random source delivering 0xA5 bytes and every call succeeding,
`ve_erase_path` on the two-byte file `f` under the SSD algorithm returns
`VE_SUCCESS`, not `VE_ERR_UNSUPPORTED`, and when `ve_erase_ssd_like` returns the
file holds its bytes 7 and 9 XORed with 0xA5. -/
theorem C14_fallback_xors_and_succeeds :
    (ve_erase_path (some ["f"]) (some (opts VE_ALG_SSD 2))
      (world_on build_other (List.replicate 48 165) fs_one_file [])).map Prod.fst =
      some VE_SUCCESS ∧
    (ve_erase_ssd_like 3 (opts VE_ALG_SSD 2) (world_opened build_other [])).1 = VE_SUCCESS ∧
    (ve_erase_ssd_like 3 (opts VE_ALG_SSD 2) (world_opened build_other [])).2.data ["f"] =
      some [162, 172] ∧
    ve_xor_fallback [7, 9] (List.replicate 32 165) = [162, 172] := by
  refine ⟨by decide, by decide, by decide, by decide⟩

/-- C14 (as amended). In a build with no cipher backend (not Windows, no
OpenSSL), `ve_erase_ssd_like` on an open non-empty file, every call being
answered in full, returns `VE_SUCCESS`: `ve_encrypt_file_in_place_aesctr` has
replaced the content by its XOR with the repeating 32-byte key, which is what
the file holds when the engine returns on a build that is not Linux (on Linux
the range is then punched out).  The key is the one `ve_csrand(aes_key, 32)`
delivered in that call: the next 32 bytes of the system source.  On every build
and under every environment the engine returns `VE_SUCCESS` or `VE_ERR_IO`,
never `VE_ERR_UNSUPPORTED`. -/
theorem C14_fallback_substitute (fd : Int) (p : Path) (pos : Nat) (d : List Nat)
    (opt : ve_options_t) (w : World) (hf : w.file = some (p, pos, d)) (hne : d ≠ [])
    (hwin : w.build.win32 = false) (hssl : w.build.use_openssl = false) (hfull : Full w) :
    (ve_erase_ssd_like fd opt w).1 = VE_SUCCESS ∧
    (∃ key, key = (ve_csrand 32 (sys_malloc (ve_get_file_size_fd fd w).2.2).2).2.1 ∧
      key = (w.entropy.take 32).map (fun b => b % 256) ++
        List.replicate (32 - w.entropy.length) 0 ∧
      key.length = 32 ∧
      (ve_encrypt_file_in_place_aesctr fd d.length (ve_get_file_size_fd fd w).2.2).world.data p =
        some (ve_xor_fallback d key) ∧
      (w.build.linux = false →
        (ve_erase_ssd_like fd opt w).2.data p = some (ve_xor_fallback d key))) ∧
    (∀ w0 : World, (ve_erase_ssd_like fd opt w0).1 = VE_SUCCESS ∨
      (ve_erase_ssd_like fd opt w0).1 = VE_ERR_IO) ∧
    (∀ w0 : World, (ve_erase_ssd_like fd opt w0).1 ≠ VE_ERR_UNSUPPORTED) := by
  have hstat : ∀ w0 : World, (ve_erase_ssd_like fd opt w0).1 ≠ VE_ERR_UNSUPPORTED := by
    intro w0
    rcases ve_erase_ssd_like_status fd opt w0 with h | h <;> rw [h] <;> decide
  obtain ⟨hg, -⟩ := ve_get_file_size_fd_calm hfull.f_calm hf fd
  obtain ⟨hsz, hgf⟩ := ve_get_file_size_fd_file hf fd (by simp [hg])
  have hgfull := ve_get_file_size_fd_full hfull fd
  have hgb := (ve_get_file_size_fd_step fd w).build
  have hlen : d.length ≠ 0 := by
    intro h0; exact hne (List.length_eq_zero.mp h0)
  obtain ⟨he1, ⟨hkl, hks, hef⟩, hefull⟩ := ve_encrypt_file_in_place_aesctr_fallback fd hgf
    (by rw [hgb]; exact hwin) (by rw [hgb]; exact hssl) hgfull
  rw [ve_get_file_size_fd_entropy] at hks
  unfold ve_erase_ssd_like
  simp only []
  rw [if_neg (by simp [hg]), if_neg (by rw [hsz]; exact hlen), hsz]
  generalize (ve_get_file_size_fd fd w).2.2 = g at hgf hgfull hgb he1 hef hefull hkl hks ⊢
  generalize (ve_csrand 32 (sys_malloc g).2).2.1 = key at hef hkl hks ⊢
  generalize ve_encrypt_file_in_place_aesctr fd d.length g = e at he1 hef hefull ⊢
  rw [if_neg (by simp [he1])]
  refine ⟨?_, ⟨key, rfl, hks, hkl, World.data_of_file hef, ?_⟩, ve_erase_ssd_like_status fd opt,
    hstat⟩
  · have hh : Full (if w.build.linux = true then (sys_fallocate_punch fd d.length e.world).2
        else e.world) := by
      split
      · exact hefull.f_step (sys_fallocate_punch_script fd _ _)
      · exact hefull
    generalize (if w.build.linux = true then (sys_fallocate_punch fd d.length e.world).2
      else e.world) = h at hh ⊢
    rw [if_neg (by simp [(ve_flush_fd_calm hh.f_calm fd).1])]
  · intro hlin
    rw [show (if w.build.linux = true then (sys_fallocate_punch fd d.length e.world).2
        else e.world) = e.world from if_neg (by rw [hlin]; simp)]
    have hfl := ve_flush_fd_calm hefull.f_calm fd
    rw [if_neg (by simp [hfl.1])]
    show (ve_flush_fd fd e.world).2.data p = _
    exact World.data_of_file (by rw [(ve_flush_fd_still fd e.world).st_file]; exact hef)

/-- C14, witness: the two-byte file `f` on a build that is neither Windows,
Linux nor OpenSSL, every call succeeding. -/
theorem C14_fallback_substitute_witness :
    (ve_erase_ssd_like 3 (opts VE_ALG_SSD 2) (world_opened build_other [])).1 = VE_SUCCESS ∧
    ∃ key, key = (ve_csrand 32
        (sys_malloc (ve_get_file_size_fd 3 (world_opened build_other [])).2.2).2).2.1 ∧
      key = ((world_opened build_other []).entropy.take 32).map (fun b => b % 256) ++
        List.replicate (32 - (world_opened build_other []).entropy.length) 0 ∧
      key.length = 32 ∧
      (ve_encrypt_file_in_place_aesctr 3 [7, 9].length
        (ve_get_file_size_fd 3 (world_opened build_other [])).2.2).world.data ["f"] =
        some (ve_xor_fallback [7, 9] key) ∧
      ((world_opened build_other []).build.linux = false →
        (ve_erase_ssd_like 3 (opts VE_ALG_SSD 2) (world_opened build_other [])).2.data ["f"] =
          some (ve_xor_fallback [7, 9] key)) :=
  ⟨(C14_fallback_substitute 3 ["f"] 0 [7, 9] (opts VE_ALG_SSD 2) (world_opened build_other [])
      (by decide) (by decide) (by decide) (by decide)
      (by unfold Full; decide)).1,
    (C14_fallback_substitute 3 ["f"] 0 [7, 9] (opts VE_ALG_SSD 2) (world_opened build_other [])
      (by decide) (by decide) (by decide) (by decide)
      (by unfold Full; decide)).2.1⟩

theorem EndsInFailure.of_last (a : List Event) (e : Event) (he : e.isRefusal = true) :
    EndsInFailure (a ++ [e]) :=
  Or.inl ⟨a, e, rfl, he⟩

theorem EndsInFailure.after (pre : List Event) {evs : List Event} (h : EndsInFailure evs) :
    EndsInFailure (pre ++ evs) := by
  rcases h with ⟨a, e, rfl, he⟩ | ⟨a, o, l, mid, l', rfl, hm, hl⟩
  · exact Or.inl ⟨pre ++ a, e, by simp, he⟩
  · exact Or.inr ⟨pre ++ a, o, l, mid, l', by simp, hm, hl⟩

theorem sys_malloc_refused {w : World} (h : (sys_malloc w).1 = false) :
    (sys_malloc w).2.trace = w.trace ++ [Event.malloc false] := by
  unfold sys_malloc at h ⊢
  simp only [] at h ⊢
  split at h
  · simp
  · simp at h

theorem ve_csrand_refused {w : World} {len : Nat} (h : (ve_csrand len w).1 ≠ 0) :
    (ve_csrand len w).2.2.trace = w.trace ++ [Event.csrand len false] := by
  unfold ve_csrand at h ⊢
  simp only [] at h ⊢
  split at h
  · simp
  · simp at h

theorem sys_lseek_refused {w : World} (fd : Int) (off : Int) (wh : Whence)
    (h : (sys_lseek fd off wh w).1 < 0) :
    (sys_lseek fd off wh w).2.trace = w.trace ++ [Event.lseek false] ∧
      (sys_lseek fd off wh w).2.file = w.file := by
  unfold sys_lseek at h ⊢
  simp only [] at h ⊢
  split at h
  · simp
  · simp
  · split at h
    · rename_i hlt
      rw [if_pos hlt]
      simp
    · exact absurd h (by omega)

/-- A `read` that fails or returns no byte leaves the open file as it is. -/
theorem sys_read_refused {w : World} {p : Path} {pos : Nat} {d : List Nat}
    (hf : w.file = some (p, pos, d)) (fd : Int) (n : Nat) (hr : (sys_read fd n w).1 ≤ 0) :
    ∃ e, (sys_read fd n w).2.2.trace = w.trace ++ [e] ∧ e.isRefusal = true ∧
      (sys_read fd n w).2.2.file = some (p, pos, d) := by
  have hf' : w.next.2.file = some (p, pos, d) := by rw [next_file]; exact hf
  have hl : fs_lookup w.next.2.fs p = some (Node.file d) := (World.file_eq_some.mp hf').2
  have ht : w.next.2.trace = w.trace := next_trace w
  unfold sys_read at hr ⊢
  generalize w.next = r at hf' hl ht hr ⊢
  rcases r with ⟨a, w1⟩
  simp only at hf' hl ht hr ⊢
  cases a with
  | fail =>
    simp only [hf']
    exact ⟨Event.read_failed, by simp [ht], rfl, by simpa using hf'⟩
  | ok =>
    simp only [hf'] at hr ⊢
    have h0 : min n (d.length - pos) = 0 := by omega
    rw [h0]
    exact ⟨Event.read pos 0, by rw [← ht], rfl, World.file_eq_some.mpr ⟨rfl, hl⟩⟩
  | short j =>
    simp only [hf'] at hr ⊢
    have h0 : min j (min n (d.length - pos)) = 0 := by omega
    rw [h0]
    exact ⟨Event.read pos 0, by rw [← ht], rfl, World.file_eq_some.mpr ⟨rfl, hl⟩⟩

theorem ve_aes_ctr_encrypt_openssl_refused {buf : List Nat} {len : Nat} {key iv : List Nat}
    {w : World} (h : (ve_aes_ctr_encrypt_openssl buf len key iv w).rc ≠ 0) :
    ∃ a e, (ve_aes_ctr_encrypt_openssl buf len key iv w).world.trace = w.trace ++ (a ++ [e]) ∧
      e.isRefusal = true := by
  unfold ve_aes_ctr_encrypt_openssl at h ⊢
  simp only [] at h ⊢
  split at h
  · exact ⟨[], Event.cipher len false, by simp, rfl⟩
  · simp at h

theorem ve_aes_ctr_encrypt_windows_loop_refused (key : List Nat) (len fuel : Nat) :
    ∀ (off : Nat) (buf iv : List Nat) (w : World),
      (ve_aes_ctr_encrypt_windows_loop key len fuel off buf iv w).rc ≠ 0 →
      ∃ a e, (ve_aes_ctr_encrypt_windows_loop key len fuel off buf iv w).world.trace =
          w.trace ++ (a ++ [e]) ∧ e.isRefusal = true := by
  induction fuel with
  | zero => intro off buf iv w h; simp [ve_aes_ctr_encrypt_windows_loop] at h
  | succ k ih =>
    intro off buf iv w h
    rw [ve_aes_ctr_encrypt_windows_loop] at h ⊢
    by_cases hlt : off < len
    · rw [if_pos hlt] at h ⊢
      simp only [] at h ⊢
      generalize (if len - off > 2 ^ 20 then 2 ^ 20 else len - off) = n at h ⊢
      have hnext : ∀ (buf1 iv1 : List Nat),
          (ve_aes_ctr_encrypt_windows_loop key len k (off + n) buf1 iv1
            (w.next.2.emit (Event.cipher n true))).rc ≠ 0 →
          ∃ a e, (ve_aes_ctr_encrypt_windows_loop key len k (off + n) buf1 iv1
            (w.next.2.emit (Event.cipher n true))).world.trace = w.trace ++ (a ++ [e]) ∧
            e.isRefusal = true := by
        intro buf1 iv1 h1
        obtain ⟨a, e, ha, he⟩ := ih _ _ _ _ h1
        exact ⟨Event.cipher n true :: a, e, by rw [ha]; simp, he⟩
      cases hr : w.next.1 with
      | fail => exact ⟨[], Event.cipher n false, by simp, rfl⟩
      | ok => rw [hr] at h; exact hnext _ _ h
      | short j => rw [hr] at h; exact hnext _ _ h
    · rw [if_neg hlt] at h; simp at h

theorem ve_aes_ctr_encrypt_windows_refused {buf : List Nat} {len : Nat} {key iv : List Nat}
    {w : World} (h : (ve_aes_ctr_encrypt_windows buf len key iv w).rc ≠ 0) :
    ∃ a e, (ve_aes_ctr_encrypt_windows buf len key iv w).world.trace = w.trace ++ (a ++ [e]) ∧
      e.isRefusal = true := by
  unfold ve_aes_ctr_encrypt_windows at h ⊢
  simp only [] at h ⊢
  split at h
  · exact ⟨[], Event.cipher 0 false, by simp, rfl⟩
  · obtain ⟨a, e, ha, he⟩ := ve_aes_ctr_encrypt_windows_loop_refused _ _ _ _ _ _ _ h
    exact ⟨a, e, by rw [ha]; simp, he⟩

/-- A `write` that does not transfer the `n` bytes asked for either fails, or
transfers fewer; either way the file keeps its length if the range written lies
inside it. -/
theorem sys_write_short {w : World} {p : Path} {pos : Nat} {d : List Nat}
    (hf : w.file = some (p, pos, d)) (fd : Int) (buf : List Nat) (n : Nat)
    (hr : (sys_write fd buf n w).1 ≠ (n : Int)) :
    ((sys_write fd buf n w).2.trace = w.trace ++ [Event.write_failed] ∧
      (sys_write fd buf n w).2.file = some (p, pos, d)) ∨
    (∃ k, k < n ∧ (sys_write fd buf n w).2.trace = w.trace ++ [Event.write pos k] ∧
      (sys_write fd buf n w).2.file = some (p, pos + k, write_at d pos (buf.take k))) := by
  by_cases hnf : w.next.1 = Resp.fail
  · left
    unfold sys_write
    simp only [hnf]
    exact ⟨by simp, by simpa using hf⟩
  · right
    have hl : fs_lookup w.next.2.fs p = some (Node.file d) := by
      rw [next_fs]; exact (World.file_eq_some.mp hf).2
    rw [sys_write_eq hf fd buf n hnf] at hr ⊢
    have hle := granted_le w.next.1 n
    refine ⟨granted w.next.1 n, ?_, by simp, World.file_eq_some.mpr ⟨rfl, fs_lookup_set_data hl _⟩⟩
    simp only at hr
    omega

/-! ## C18: the log of the in-place encryption -/

/-- The chunk loop, started at offset `processed` of a file of length `L` with
the descriptor at that offset.  The file keeps its length.  When the loop
returns 0 its transfers tile the range from `processed` to `L`; when it does
not, its log ends with a refused call or a short write. -/
theorem ve_encrypt_loop_log (fd : Int) (aes_key : List Nat) (p : Path) (L : Nat) (fuel : Nat) :
    ∀ (processed : Nat) (aes_iv : List Nat) (w : World) (d : List Nat),
      w.file = some (p, processed, d) → d.length = L → processed ≤ L → L - processed ≤ fuel →
      ∃ evs pos' d',
        (ve_encrypt_loop fd L aes_key fuel processed aes_iv w).world.trace = w.trace ++ evs ∧
        (ve_encrypt_loop fd L aes_key fuel processed aes_iv w).world.file =
          some (p, pos', d') ∧
        d'.length = L ∧
        ((ve_encrypt_loop fd L aes_key fuel processed aes_iv w).rc = 0 →
          tiles processed (evs.filter Event.isTransfer) L = true) ∧
        ((ve_encrypt_loop fd L aes_key fuel processed aes_iv w).rc ≠ 0 →
          EndsInFailure evs) := by
  induction fuel with
  | zero =>
    intro processed aes_iv w d hf hd hle hfuel
    have hp : processed = L := by omega
    subst hp
    exact ⟨[], processed, d, by simp [ve_encrypt_loop], hf, hd, fun _ => by simp [tiles],
      fun h => absurd rfl h⟩
  | succ fuel ih =>
    intro processed aes_iv w d hf hd hle hfuel
    rw [ve_encrypt_loop]
    by_cases hlt : processed < L
    · rw [if_pos hlt]
      simp only []
      have hn : (if L - processed < VE_DEFAULT_CHUNK_SIZE then L - processed
          else VE_DEFAULT_CHUNK_SIZE) ≤ L - processed := by
        split <;> omega
      generalize (if L - processed < VE_DEFAULT_CHUNK_SIZE then L - processed
        else VE_DEFAULT_CHUNK_SIZE) = n at hn ⊢
      have hrd := sys_read_ok hf fd n
      have hrf := sys_read_refused hf fd n
      generalize sys_read fd n w = rd at hrd hrf ⊢
      by_cases hr : rd.1 ≤ 0
      · rw [if_pos hr]
        obtain ⟨e, he, her, hef⟩ := hrf hr
        exact ⟨[e], processed, d, he, hef, hd, fun h => by simp at h,
          fun _ => EndsInFailure.of_last [] e her⟩
      · rw [if_neg hr]
        obtain ⟨k, hk0, hkn, hkd, hk, -, hfile, htr, hbuild⟩ := hrd hr
        clear hrd hrf
        have hkn' : rd.1.toNat = k := by rw [hk]; simp
        rw [hkn']
        have early : ∀ (s : World) (iv : List Nat) (a : List Event) (e : Event) (q : Nat),
            s.trace = w.trace ++ Event.read processed k :: (a ++ [e]) →
            e.isRefusal = true → s.file = some (p, q, d) →
            ∃ evs pos' d',
              (⟨-1, aes_key, iv, s⟩ : KeyResult).world.trace = w.trace ++ evs ∧
              (⟨-1, aes_key, iv, s⟩ : KeyResult).world.file = some (p, pos', d') ∧
              d'.length = L ∧
              ((⟨-1, aes_key, iv, s⟩ : KeyResult).rc = 0 →
                tiles processed (evs.filter Event.isTransfer) L = true) ∧
              ((⟨-1, aes_key, iv, s⟩ : KeyResult).rc ≠ 0 → EndsInFailure evs) := by
          intro s iv a e q hst he hsf
          refine ⟨Event.read processed k :: (a ++ [e]), q, d, hst, hsf, hd,
            fun h => by simp at h, fun _ => ?_⟩
          exact EndsInFailure.of_last (Event.read processed k :: a) e he
        have tail : ∀ (s : World) (buf iv : List Nat) (mid : List Event) (r : KeyResult),
            s.file = some (p, processed, d) →
            s.trace = w.trace ++ Event.read processed k :: mid →
            (∀ e ∈ mid, e.isTransfer = false) →
            r = (if (sys_write fd buf k s).1 ≠ (k : Int) then
                (⟨-1, aes_key, iv, (sys_write fd buf k s).2⟩ : KeyResult)
              else ve_encrypt_loop fd L aes_key fuel (processed + k) iv
                (sys_write fd buf k s).2) →
            ∃ evs pos' d', r.world.trace = w.trace ++ evs ∧
              r.world.file = some (p, pos', d') ∧ d'.length = L ∧
              (r.rc = 0 → tiles processed (evs.filter Event.isTransfer) L = true) ∧
              (r.rc ≠ 0 → EndsInFailure evs) := by
          intro s buf iv mid r hs hst hmid hreq
          have hwr := sys_write_ok hs fd buf k
          have hws := sys_write_short hs fd buf k
          generalize sys_write fd buf k s = wr at hwr hws hreq
          by_cases hne : wr.1 ≠ (k : Int)
          · rw [if_pos hne] at hreq
            subst hreq
            rcases hws hne with ⟨ht, hfl⟩ | ⟨k', hk', ht, hfl⟩
            · refine ⟨Event.read processed k :: (mid ++ [Event.write_failed]), processed, d,
                by rw [ht, hst]; simp, hfl, hd, fun h => by simp at h, fun _ => ?_⟩
              exact EndsInFailure.of_last (Event.read processed k :: mid) _ rfl
            · refine ⟨Event.read processed k :: (mid ++ [Event.write processed k']),
                processed + k', _, by rw [ht, hst]; simp, hfl, ?_, fun h => by simp at h,
                fun _ => Or.inr ⟨[], processed, k, mid, k', rfl, hmid, hk'⟩⟩
              rw [write_at_length _ _ _ (by rw [List.length_take]; omega)]
              exact hd
          · rw [if_neg hne] at hreq
            subst hreq
            have heq : wr.1 = (k : Int) := not_not.mp hne
            obtain ⟨k', -, -, hk', hwf, hwt, -⟩ := hwr (by omega)
            have hkk : k' = k := by omega
            subst hkk
            have hlen : (write_at d processed (buf.take k')).length = L := by
              rw [write_at_length _ _ _ (by rw [List.length_take]; omega)]
              exact hd
            have hle' : processed + k' ≤ L := by rw [← hd]; exact hkd
            have hfuel' : L - (processed + k') ≤ fuel := by
              clear hws ih early
              omega
            obtain ⟨evs, pos', d', ht, hfl, hdl, hok, hbad⟩ :=
              ih (processed + k') iv wr.2 _ hwf hlen hle' hfuel'
            refine ⟨Event.read processed k' :: (mid ++ Event.write processed k' :: evs), pos',
              d', ?_, hfl, hdl, fun h => tiles_step _ _ _ _ _ hmid hk0 (hok h), fun h => ?_⟩
            · rw [ht, hwt, hst]
              simp
            · have := EndsInFailure.after
                (Event.read processed k' :: (mid ++ [Event.write processed k'])) (hbad h)
              simpa using this
        by_cases hw : w.build.win32 = true
        · rw [if_pos hw]
          have hc := ve_aes_ctr_encrypt_windows_still rd.2.1 k aes_key aes_iv rd.2.2
          have hcr' := @ve_aes_ctr_encrypt_windows_refused rd.2.1 k aes_key aes_iv rd.2.2
          generalize ve_aes_ctr_encrypt_windows rd.2.1 k aes_key aes_iv rd.2.2 = c at hc hcr' ⊢
          have hcf : c.world.file = some (p, processed + k, d) := by
            rw [hc.st_file]; exact hfile
          by_cases hcr : c.rc ≠ 0
          · rw [if_pos hcr]
            obtain ⟨a, e, ha, he⟩ := hcr' hcr
            exact early c.world c.iv a e _ (by rw [ha, htr]; simp) he hcf
          · rw [if_neg hcr]
            obtain ⟨cev, hct, hcm⟩ := hc.grows
            obtain ⟨h1, h2, -⟩ := sys_SetFilePointerEx_file hcf fd processed
            refine tail (sys_SetFilePointerEx fd processed c.world) c.buf c.iv
              (cev ++ [Event.setpos processed]) _ h1 ?_ ?_ rfl
            · rw [h2, hct, htr]; simp
            · intro e he
              rcases List.mem_append.mp he with h' | h'
              · exact hcm e h'
              · rw [List.mem_singleton.mp h']; rfl
        · rw [if_neg hw]
          by_cases ho : w.build.use_openssl = true
          · rw [if_pos ho]
            have hc := ve_aes_ctr_encrypt_openssl_still rd.2.1 k aes_key aes_iv rd.2.2
            have hcr' := @ve_aes_ctr_encrypt_openssl_refused rd.2.1 k aes_key aes_iv rd.2.2
            generalize ve_aes_ctr_encrypt_openssl rd.2.1 k aes_key aes_iv rd.2.2 = c
              at hc hcr' ⊢
            have hcf : c.world.file = some (p, processed + k, d) := by
              rw [hc.st_file]; exact hfile
            by_cases hcr : c.rc ≠ 0
            · rw [if_pos hcr]
              obtain ⟨a, e, ha, he⟩ := hcr' hcr
              exact early c.world c.iv a e _ (by rw [ha, htr]; simp) he hcf
            · rw [if_neg hcr]
              obtain ⟨cev, hct, hcm⟩ := hc.grows
              by_cases hs : (sys_lseek fd (processed : Int) Whence.SEEK_SET c.world).1 < 0
              · rw [if_pos hs]
                obtain ⟨hst, hsfl⟩ := sys_lseek_refused fd _ _ hs
                exact early _ c.iv cev (Event.lseek false) _ (by rw [hst, hct, htr]; simp) rfl
                  (by rw [hsfl]; exact hcf)
              · rw [if_neg hs]
                obtain ⟨h1, ⟨sev, hst, hsm⟩, -⟩ := sys_lseek_set hcf fd processed hs
                refine tail (sys_lseek fd (processed : Int) Whence.SEEK_SET c.world).2 c.buf c.iv
                  (cev ++ sev) _ h1 ?_ ?_ rfl
                · rw [hst, hct, htr]; simp
                · intro e he
                  rcases List.mem_append.mp he with h' | h'
                  · exact hcm e h'
                  · exact hsm e h'
          · rw [if_neg ho]
            by_cases hs : (sys_lseek fd (processed : Int) Whence.SEEK_SET rd.2.2).1 < 0
            · rw [if_pos hs]
              obtain ⟨hst, hsfl⟩ := sys_lseek_refused fd _ _ hs
              exact early _ aes_iv [] (Event.lseek false) _ (by rw [hst, htr]; simp) rfl
                (by rw [hsfl]; exact hfile)
            · rw [if_neg hs]
              obtain ⟨h1, ⟨sev, hst, hsm⟩, -⟩ := sys_lseek_set hfile fd processed hs
              refine tail (sys_lseek fd (processed : Int) Whence.SEEK_SET rd.2.2).2
                (ve_xor_fallback (rd.2.1.take k) aes_key) aes_iv sev _ h1 ?_ hsm rfl
              rw [hst, htr]; simp
    · rw [if_neg hlt]
      have hp : processed = L := by omega
      subst hp
      exact ⟨[], processed, d, by simp, hf, hd, fun _ => by simp [tiles],
        fun h => absurd rfl h⟩

/-- C18. For a file of length `L` open on the descriptor (at any offset on the
POSIX builds, where the function first seeks to 0; at offset 0 on the Windows
build, as `ve_erase_ssd_like` passes it) and every script of answers of the
environment, `ve_encrypt_file_in_place_aesctr` leaves the file `L` bytes long,
and either it returns 0 and the reads and writes of its log tile the range from
0 to `L` – each read is followed by a write at the offset read from and of the
length read, the first at 0, each next one where the previous ended, the last
ending at `L` – or it returns non-zero and its log ends with a call that the
environment refused, a read that returned no byte, or a write that transferred
fewer bytes than were read.  So whenever no call is refused, each read returns
at least one byte and every write transfers in full, the chunks tile the
file. -/
theorem C18_chunks_tile_the_file (fd : Int) (p : Path) (pos : Nat) (d : List Nat) (w : World)
    (hf : w.file = some (p, pos, d)) (hwin : w.build.win32 = true → pos = 0) :
    ∃ evs d',
      (ve_encrypt_file_in_place_aesctr fd d.length w).world.trace = w.trace ++ evs ∧
      (ve_encrypt_file_in_place_aesctr fd d.length w).world.data p = some d' ∧
      d'.length = d.length ∧
      ((ve_encrypt_file_in_place_aesctr fd d.length w).rc = 0 →
        tiles 0 (evs.filter Event.isTransfer) d.length = true) ∧
      ((ve_encrypt_file_in_place_aesctr fd d.length w).rc ≠ 0 → EndsInFailure evs) := by
  unfold ve_encrypt_file_in_place_aesctr
  simp only []
  have hm := sys_malloc_still w
  have hmr := @sys_malloc_refused w
  generalize sys_malloc w = m at hm hmr ⊢
  have hmfile : m.2.file = some (p, pos, d) := by rw [hm.st_file]; exact hf
  by_cases h1 : m.1 = false
  · rw [if_pos h1]
    exact ⟨[Event.malloc false], d, hmr h1, World.data_of_file hmfile, rfl,
      fun h => by simp at h, fun _ => EndsInFailure.of_last [] _ rfl⟩
  · rw [if_neg h1]
    obtain ⟨em, htm, hnm⟩ := hm.grows
    have hk := ve_csrand_still 32 m.2
    have hkr := @ve_csrand_refused m.2 32
    generalize ve_csrand 32 m.2 = k at hk hkr ⊢
    have hkfile : k.2.2.file = some (p, pos, d) := by rw [hk.st_file]; exact hmfile
    by_cases h2 : k.1 ≠ 0
    · rw [if_pos h2]
      exact ⟨em ++ [Event.csrand 32 false], d, by rw [hkr h2, htm, List.append_assoc],
        World.data_of_file hkfile, rfl, fun h => by simp at h,
        fun _ => EndsInFailure.of_last em _ rfl⟩
    · rw [if_neg h2]
      obtain ⟨ek, htk, hnk⟩ := hk.grows
      have hv := ve_csrand_still 16 k.2.2
      have hvr := @ve_csrand_refused k.2.2 16
      generalize ve_csrand 16 k.2.2 = v at hv hvr ⊢
      have hvfile : v.2.2.file = some (p, pos, d) := by rw [hv.st_file]; exact hkfile
      by_cases h3 : v.1 ≠ 0
      · rw [if_pos h3]
        exact ⟨(em ++ ek) ++ [Event.csrand 16 false], d,
          by rw [hvr h3, htk, htm]; simp, World.data_of_file hvfile, rfl,
          fun h => by simp at h, fun _ => EndsInFailure.of_last (em ++ ek) _ rfl⟩
      · rw [if_neg h3]
        obtain ⟨ev, htv, hnv⟩ := hv.grows
        have ht0 : v.2.2.trace = w.trace ++ (em ++ ek ++ ev) := by
          rw [htv, htk, htm]; simp
        have hn0 : ∀ e ∈ em ++ ek ++ ev, e.isTransfer = false := by
          intro e he
          rcases List.mem_append.mp he with h' | h'
          · rcases List.mem_append.mp h' with h'' | h''
            · exact hnm e h''
            · exact hnk e h''
          · exact hnv e h'
        generalize em ++ ek ++ ev = e0 at ht0 hn0
        have hs : ∀ s : Int × World,
            s = (if w.build.win32 = true then ((0 : Int), v.2.2)
              else sys_lseek fd 0 Whence.SEEK_SET v.2.2) →
            (s.1 < 0 → s.2.trace = w.trace ++ (e0 ++ [Event.lseek false]) ∧
              s.2.file = some (p, pos, d)) ∧
            (¬ s.1 < 0 → s.2.file = some (p, 0, d) ∧ ∃ e1, s.2.trace = w.trace ++ e1 ∧
              ∀ e ∈ e1, e.isTransfer = false) := by
          intro s hse
          by_cases hw : w.build.win32 = true
          · rw [if_pos hw] at hse
            subst hse
            have hp := hwin hw
            subst hp
            exact ⟨fun h => by simp at h, fun _ => ⟨hvfile, e0, ht0, hn0⟩⟩
          · rw [if_neg hw] at hse
            subst hse
            refine ⟨fun hlt => ?_, fun hsn => ?_⟩
            · obtain ⟨hst, hsfl⟩ := sys_lseek_refused fd 0 Whence.SEEK_SET hlt
              exact ⟨by rw [hst, ht0, List.append_assoc], by rw [hsfl]; exact hvfile⟩
            · obtain ⟨g1, ⟨e1, ht1, hn1⟩, -⟩ := sys_lseek_set hvfile fd 0 hsn
              refine ⟨g1, e0 ++ e1, ?_, ?_⟩
              · rw [show ((0 : Nat) : Int) = 0 from rfl] at ht1
                rw [ht1, ht0, List.append_assoc]
              · intro e he
                rcases List.mem_append.mp he with h' | h'
                · exact hn0 e h'
                · exact hn1 e h'
        generalize (if w.build.win32 = true then ((0 : Int), v.2.2)
          else sys_lseek fd 0 Whence.SEEK_SET v.2.2) = s at hs ⊢
        obtain ⟨hsbad, hsok⟩ := hs s rfl
        by_cases h4 : s.1 < 0
        · rw [if_pos h4]
          obtain ⟨hst, hsfl⟩ := hsbad h4
          exact ⟨e0 ++ [Event.lseek false], d, hst, World.data_of_file hsfl, rfl,
            fun h => by simp at h, fun _ => EndsInFailure.of_last e0 _ rfl⟩
        · rw [if_neg h4]
          obtain ⟨hsf, e1, ht1, hn1⟩ := hsok h4
          obtain ⟨evs, pos', d', ht, hfl, hdl, hok, hbad⟩ :=
            ve_encrypt_loop_log fd k.2.1 p d.length d.length 0 v.2.1 s.2 d hsf rfl
              (Nat.zero_le _) (by omega)
          have f1 : e1.filter Event.isTransfer = [] := by
            rw [List.filter_eq_nil_iff]
            intro e he; rw [hn1 e he]; simp
          generalize ve_encrypt_loop fd d.length k.2.1 d.length 0 v.2.1 s.2 = l
            at ht hfl hok hbad ⊢
          by_cases h5 : l.rc ≠ 0
          · rw [if_pos h5]
            exact ⟨e1 ++ evs, d', by rw [ht, ht1, List.append_assoc], World.data_of_file hfl,
              hdl, fun h => absurd h h5, fun _ => (hbad h5).after e1⟩
          · rw [if_neg h5]
            have hfs := ve_flush_fd_still fd l.world
            obtain ⟨e2, ht2, hn2⟩ := hfs.grows
            have f2 : e2.filter Event.isTransfer = [] := by
              rw [List.filter_eq_nil_iff]
              intro e he; rw [hn2 e he]; simp
            refine ⟨e1 ++ evs ++ e2, d', ?_, ?_, hdl, fun _ => ?_, fun h => absurd rfl h⟩
            · show (ve_flush_fd fd l.world).2.trace = _
              rw [ht2, ht, ht1]; simp
            · show (ve_flush_fd fd l.world).2.data p = some d'
              exact World.data_of_file (by rw [hfs.st_file]; exact hfl)
            · rw [List.filter_append, List.filter_append, f1, f2, List.nil_append,
                List.append_nil]
              exact hok (not_not.mp h5)

/-- C18, witness: the 32-byte file `g` on the OpenSSL build, each read returning
16 bytes; the run returns 0, so its transfers tile the file. -/
theorem C18_chunks_tile_the_file_witness :
    (ve_encrypt_file_in_place_aesctr 3 (List.replicate 32 0).length
      (world_two_blocks build_openssl (List.replicate 48 165)
        [Resp.ok, Resp.ok, Resp.ok, Resp.ok, Resp.short 16])).rc = 0 ∧
    ∃ evs d',
      (ve_encrypt_file_in_place_aesctr 3 (List.replicate 32 0).length
        (world_two_blocks build_openssl (List.replicate 48 165)
          [Resp.ok, Resp.ok, Resp.ok, Resp.ok, Resp.short 16])).world.trace =
        (world_two_blocks build_openssl (List.replicate 48 165)
          [Resp.ok, Resp.ok, Resp.ok, Resp.ok, Resp.short 16]).trace ++ evs ∧
      (ve_encrypt_file_in_place_aesctr 3 (List.replicate 32 0).length
        (world_two_blocks build_openssl (List.replicate 48 165)
          [Resp.ok, Resp.ok, Resp.ok, Resp.ok, Resp.short 16])).world.data ["g"] = some d' ∧
      d'.length = (List.replicate 32 0).length ∧
      tiles 0 (evs.filter Event.isTransfer) (List.replicate 32 0).length = true :=
  ⟨by decide,
    match C18_chunks_tile_the_file 3 ["g"] 0 (List.replicate 32 0)
      (world_two_blocks build_openssl (List.replicate 48 165)
        [Resp.ok, Resp.ok, Resp.ok, Resp.ok, Resp.short 16])
      (by decide) (by decide) with
    | ⟨evs, d', h1, h2, h3, h4, _⟩ => ⟨evs, d', h1, h2, h3, h4 (by decide)⟩⟩

/-! ## C21: algebra of the counter increment -/

theorem nat_to_be_lt (n : Nat) : ∀ v, ∀ x ∈ nat_to_be n v, x < 256 := by
  induction n with
  | zero => intro v x hx; simp [nat_to_be] at hx
  | succ k ih =>
    intro v x hx
    rw [nat_to_be] at hx
    rcases List.mem_append.mp hx with h | h
    · exact ih _ x h
    · rw [List.mem_singleton.mp h]
      exact Nat.mod_lt _ (by decide)

theorem be_to_nat_nat_to_be (n : Nat) : ∀ v, be_to_nat (nat_to_be n v) = v % 256 ^ n := by
  induction n with
  | zero => intro v; simp [nat_to_be, be_to_nat, Nat.mod_one]
  | succ k ih =>
    intro v
    rw [nat_to_be, be_to_nat_concat, ih, pow_succ, Nat.mul_comm (256 ^ k) 256, Nat.mod_mul,
      Nat.mod_mod]
    omega

/-- With no block to add `ve_inc_ctr` leaves the counter as it is, whatever its
length and entries. -/
theorem ve_inc_ctr_zero (iv : List Nat) : ve_inc_ctr iv 0 = iv := by
  unfold ve_inc_ctr
  rw [ve_inc_ctr_loop]
  rfl

/-- C21. For every 16-byte counter `iv` and all block counts `a, b < 2^64`:
`ve_inc_ctr(iv, a)` is again 16 bytes, its bytes 0..7 are those of `iv`, its
bytes 8..15 are the big-endian encoding of `(low64(iv) + a) mod 2^64`,
`ve_inc_ctr(iv, 0) = iv`, and applying it with `a` and then with `b` gives the
same counter as applying it once with `(a + b) mod 2^64`. -/
theorem C21_inc_ctr_algebra (iv : List Nat) (a b : Nat) (hlen : iv.length = 16)
    (hbytes : ∀ x ∈ iv, x < 256) (ha : a < 2 ^ 64) (hb : b < 2 ^ 64) :
    (ve_inc_ctr iv a).length = 16 ∧
    (ve_inc_ctr iv a).take 8 = iv.take 8 ∧
    (ve_inc_ctr iv a).drop 8 = nat_to_be 8 ((be_to_nat (iv.drop 8) + a) % 2 ^ 64) ∧
    ve_inc_ctr iv 0 = iv ∧
    ve_inc_ctr (ve_inc_ctr iv a) b = ve_inc_ctr iv ((a + b) % 2 ^ 64) := by
  have e64 : (2 : Nat) ^ 64 = 256 ^ 8 := by norm_num
  have hspec := ve_inc_ctr_spec iv a hlen hbytes ha
  have htl : (iv.take 8).length = 8 := by rw [List.length_take]; omega
  have hlen' : (ve_inc_ctr iv a).length = 16 := by
    rw [hspec, List.length_append, htl, nat_to_be_length]
  have htake : (ve_inc_ctr iv a).take 8 = iv.take 8 := by
    rw [hspec]
    exact List.take_left' htl
  have hdrop : (ve_inc_ctr iv a).drop 8 =
      nat_to_be 8 ((be_to_nat (iv.drop 8) + a) % 2 ^ 64) := by
    rw [hspec]
    exact List.drop_left' htl
  have hbytes' : ∀ x ∈ ve_inc_ctr iv a, x < 256 := by
    intro x hx
    rw [hspec] at hx
    rcases List.mem_append.mp hx with h | h
    · exact hbytes x (List.mem_of_mem_take h)
    · exact nat_to_be_lt 8 _ x h
  refine ⟨hlen', htake, hdrop, ve_inc_ctr_zero iv, ?_⟩
  rw [ve_inc_ctr_spec (ve_inc_ctr iv a) b hlen' hbytes' hb, htake, hdrop,
    ve_inc_ctr_spec iv ((a + b) % 2 ^ 64) hlen hbytes (Nat.mod_lt _ (by norm_num)),
    be_to_nat_nat_to_be, ← e64, Nat.mod_mod]
  congr 2
  generalize be_to_nat (iv.drop 8) = lo
  omega

/-- C21, witness: the counter `0 … 0 FF FF` advanced by 1 and then by 2, and
by 3 at once. -/
theorem C21_inc_ctr_algebra_witness :
    (ve_inc_ctr (List.replicate 14 0 ++ [255, 255]) 1).length = 16 ∧
    (ve_inc_ctr (List.replicate 14 0 ++ [255, 255]) 1).take 8 =
      (List.replicate 14 0 ++ [255, 255]).take 8 ∧
    (ve_inc_ctr (List.replicate 14 0 ++ [255, 255]) 1).drop 8 =
      nat_to_be 8 ((be_to_nat ((List.replicate 14 0 ++ [255, 255]).drop 8) + 1) % 2 ^ 64) ∧
    ve_inc_ctr (List.replicate 14 0 ++ [255, 255]) 0 = List.replicate 14 0 ++ [255, 255] ∧
    ve_inc_ctr (ve_inc_ctr (List.replicate 14 0 ++ [255, 255]) 1) 2 =
      ve_inc_ctr (List.replicate 14 0 ++ [255, 255]) ((1 + 2) % 2 ^ 64) :=
  C21_inc_ctr_algebra (List.replicate 14 0 ++ [255, 255]) 1 2 (by decide) (by decide)
    (by decide) (by decide)

end Veraser
